import Mathlib

/-!
Grappa: the buddy allocator (`system/Allocator.hpp`) and the sending functions of
`system/NTMessage_devel.hpp`.

A shallow embedding of `class Allocator`, of `struct NTHeader` and of the `send_new_ntmessage`
functions, and a verification of their contracts.

* `std::map< K, V >` is a strictly sorted association list `List (Nat × V)`;
  a `ChunkMap::iterator` is the key of the element it points to.
* `FreeList` (`std::list< ChunkMap::iterator >`) is a list of chunk keys, front first.
  `AllocatorChunk::free_list_slot` always designates the list node that holds the
  chunk's own iterator, so erasing through the slot is erasing that key.
* `int64_t` / `intptr_t` values are integers, `size_t` values are naturals; conversions and
  arithmetic that can leave the 64-bit range are reduced explicitly (`toInt64`, `toSizeT`).
  Chunk offsets are stored as naturals: every key the code inserts is `0` or a key plus a size.
* Failing `assert`s, the thrown `Allocator::Exception` and undefined behaviour are error results.
-/

namespace Grappa

/-! ## Machine integers -/

/-- Value of a 64-bit pattern read as `int64_t` / `intptr_t` (two's complement wrap-around). -/
def toInt64 (x : Int) : Int := (x + 2 ^ 63) % 2 ^ 64 - 2 ^ 63

/-- Value of a 64-bit pattern read as `size_t`. -/
def toSizeT (x : Int) : Nat := (x % 2 ^ 64).toNat

/-! ## Ordered maps -/

/-- Lookup `std::map::find`: the value stored under key `k`, if any. -/
def mapFind {β : Type} (k : Nat) : List (Nat × β) → Option β
  | [] => none
  | (k', v) :: m => if k' = k then some v else mapFind k m

/-- Store `v` under key `k`, keeping the keys sorted: insertion of a new element,
or assignment through an iterator / `operator[]` when the key is present. -/
def mapPut {β : Type} (k : Nat) (v : β) : List (Nat × β) → List (Nat × β)
  | [] => [(k, v)]
  | (k', v') :: m =>
    if k < k' then (k, v) :: (k', v') :: m
    else if k = k' then (k, v) :: m
    else (k', v') :: mapPut k v m

/-- Removal `std::map::erase` of the element with key `k`. -/
def mapErase {β : Type} (k : Nat) : List (Nat × β) → List (Nat × β)
  | [] => []
  | (k', v) :: m => if k' = k then m else (k', v) :: mapErase k m

/-- Query `std::map::lower_bound`: the first element whose key is not less than `k`. -/
def mapLowerBound {β : Type} (k : Nat) : List (Nat × β) → Option (Nat × β)
  | [] => none
  | (k', v) :: m => if k ≤ k' then some (k', v) else mapLowerBound k m

/-! ## Data model -/

/-- The struct `AllocatorChunk` (the `free_list_slot` iterator is represented by the chunk's key). -/
structure AllocatorChunk where
  in_use : Bool
  address : Nat
  size : Nat
deriving DecidableEq, Repr

abbrev ChunkMap := List (Nat × AllocatorChunk)
abbrev FreeList := List Nat
abbrev FreeListMap := List (Nat × FreeList)

/-- The class `Allocator`: `base_`, `size_`, `chunks_`, `free_lists_`. -/
structure Allocator where
  base_ : Int
  size_ : Nat
  chunks_ : ChunkMap
  free_lists_ : FreeListMap
deriving DecidableEq, Repr

/-- Ways in which a call does not return normally. -/
inductive AllocatorError where
  /-- `throw Allocator::Exception()` in `malloc`: out of memory. -/
  | OutOfMemory
  /-- One of the two `assert`s in `free` fails. -/
  | InvalidFree
  /-- The `assert( inserted )` in `add_to_chunk_map` fails. -/
  | NotInserted
  /-- The `CHECK( size != 0 )` in the constructor fails. -/
  | CheckFailed
  /-- Undefined behaviour: dereferencing `end()`, `front()` of an empty list,
  erasing through an iterator that is not in the list. -/
  | Undefined
  /-- The step budget of a loop of the embedding is exhausted. -/
  | OutOfFuel
deriving DecidableEq, Repr

/-! ## Private member functions -/

/-- Function `next_largest_power_of_2( int64_t v )`. -/
def next_largest_power_of_2 (v : Int) : Int :=
  let v := toInt64 (v - 1)
  let v := Int.lor v (v >>> 1)
  let v := Int.lor v (v >>> 2)
  let v := Int.lor v (v >>> 4)
  let v := Int.lor v (v >>> 8)
  let v := Int.lor v (v >>> 16)
  let v := Int.lor v (v >>> 32)
  toInt64 (v + 1)

/-- Function `remove_from_free_list( it )`. -/
def remove_from_free_list (a : Allocator) (it : Nat) : Except AllocatorError Allocator :=
  match mapFind it a.chunks_ with
  | none => .error .Undefined
  | some c =>
    let fl := (mapFind c.size a.free_lists_).getD []
    if it ∈ fl then
      let fl1 := fl.erase it
      let fls := if fl1.length = 0 then mapErase c.size a.free_lists_
                 else mapPut c.size fl1 a.free_lists_
      .ok { a with free_lists_ := fls,
                   chunks_ := mapPut it { c with in_use := true } a.chunks_ }
    else .error .Undefined

/-- Function `add_to_free_list( it )`. -/
def add_to_free_list (a : Allocator) (it : Nat) : Except AllocatorError Allocator :=
  match mapFind it a.chunks_ with
  | none => .error .Undefined
  | some c =>
    let fl := (mapFind c.size a.free_lists_).getD []
    .ok { a with free_lists_ := mapPut c.size (it :: fl) a.free_lists_,
                 chunks_ := mapPut it { c with in_use := false } a.chunks_ }

/-- Function `add_to_chunk_map( ac )`; returns the iterator to the new element. -/
def add_to_chunk_map (a : Allocator) (ac : AllocatorChunk) :
    Except AllocatorError (Allocator × Nat) :=
  match mapFind ac.address a.chunks_ with
  | some _ => .error .NotInserted
  | none => .ok ({ a with chunks_ := mapPut ac.address ac a.chunks_ }, ac.address)

/-- Assignment `it->second.size = sz`. -/
def set_size (a : Allocator) (it : Nat) (sz : Nat) : Except AllocatorError Allocator :=
  match mapFind it a.chunks_ with
  | none => .error .Undefined
  | some c => .ok { a with chunks_ := mapPut it { c with size := sz } a.chunks_ }

/-- Assignment `it->second.in_use = b`. -/
def set_in_use (a : Allocator) (it : Nat) (b : Bool) : Except AllocatorError Allocator :=
  match mapFind it a.chunks_ with
  | none => .error .Undefined
  | some c => .ok { a with chunks_ := mapPut it { c with in_use := b } a.chunks_ }

/-- Function `try_merge_buddy_recursive( cmit )`; `fuel` bounds the recursion depth. -/
def try_merge_buddy_recursive : Nat → Allocator → Nat → Except AllocatorError Allocator
  | 0, _, _ => .error .OutOfFuel
  | fuel + 1, a, cmit =>
    match mapFind cmit a.chunks_ with
    | none => .error .Undefined
    | some c =>
      let address := c.address
      let buddy_address := address ^^^ c.size
      match mapFind buddy_address a.chunks_ with
      | none => .ok a
      | some b =>
        if b.size = c.size ∧ b.in_use = false then do
          let buddy_iterator := buddy_address
          let higher_iterator := if address < buddy_address then buddy_iterator else cmit
          let a ← remove_from_free_list a higher_iterator
          let a := { a with chunks_ := mapErase higher_iterator a.chunks_ }
          let lower_iterator := if address < buddy_address then cmit else buddy_iterator
          let a ← remove_from_free_list a lower_iterator
          let l ← (match mapFind lower_iterator a.chunks_ with
                   | none => .error .Undefined
                   | some l => .ok l)
          let a ← set_size a lower_iterator ((l.size * 2) % 2 ^ 64)
          let a ← add_to_free_list a lower_iterator
          try_merge_buddy_recursive fuel a lower_iterator
        else .ok a

/-! ## Public member functions -/

/-- The `while( size > 0 )` loop of the constructor. -/
def Allocator.add_chunks : Nat → Allocator → Int → Nat → Except AllocatorError Allocator
  | 0, _, _, _ => .error .OutOfFuel
  | fuel + 1, a, size, offset =>
    if size > 0 then do
      let this_chunk_offset := offset
      let this_chunk_size : Nat :=
        if Int.land size (size - 1) ≠ 0 then
          toSizeT (next_largest_power_of_2 (Int.tdiv size 2))
        else toSizeT size
      let (a, it) ← add_to_chunk_map a ⟨false, this_chunk_offset, this_chunk_size⟩
      let a ← add_to_free_list a it
      Allocator.add_chunks fuel a (toInt64 (size - this_chunk_size)) (offset + this_chunk_size)
    else .ok a

/-- Constructor `Allocator( void * base, int64_t size )`. Every pass of the loop lowers
`size` by at least one, so `size + 1` passes are enough. -/
def Allocator.new (base : Int) (size : Int) : Except AllocatorError Allocator :=
  if size = 0 then .error .CheckFailed
  else Allocator.add_chunks (size.toNat + 1) ⟨base, toSizeT size, [], []⟩ size 0

/-- Function `free( void * void_address )`. The recursion of `try_merge_buddy_recursive`
erases one chunk per call, so the number of chunks bounds its depth. -/
def Allocator.free (a : Allocator) (void_address : Int) : Except AllocatorError Allocator :=
  let address := toInt64 (void_address - a.base_)
  if address < 0 then .error .InvalidFree
  else
    let block_to_free_iterator := address.toNat
    match mapFind block_to_free_iterator a.chunks_ with
    | none => .error .InvalidFree
    | some c =>
      if c.in_use = true then do
        let a ← add_to_free_list a block_to_free_iterator
        try_merge_buddy_recursive a.chunks_.length a block_to_free_iterator
      else .error .InvalidFree

/-- The `while( chunk_size > allocation_size )` loop of `malloc`; returns the final `cmit`. -/
def Allocator.subdivide : Nat → Allocator → Nat → Int → Int →
    Except AllocatorError (Allocator × Nat)
  | 0, _, _, _, _ => .error .OutOfFuel
  | fuel + 1, a, cmit, chunk_size, allocation_size =>
    if chunk_size > allocation_size then do
      let a ← remove_from_free_list a cmit
      let chunk_size := Int.tdiv chunk_size 2
      let a ← set_size a cmit (toSizeT chunk_size)
      let a ← add_to_free_list a cmit
      let c ← (match mapFind cmit a.chunks_ with
               | none => .error .Undefined
               | some c => .ok c)
      let new_chunk_address := c.address + c.size
      let (a, cmit) ← add_to_chunk_map a ⟨false, new_chunk_address, toSizeT chunk_size⟩
      let a ← add_to_free_list a cmit
      Allocator.subdivide fuel a cmit chunk_size allocation_size
    else .ok (a, cmit)

/-- Function `malloc( size_t size )`; returns the address and the new state. A chunk size is
below `2 ^ 63` and halves on every pass of the loop, so 65 passes are enough. -/
def Allocator.malloc (a : Allocator) (size : Nat) : Except AllocatorError (Int × Allocator) :=
  let allocation_size := next_largest_power_of_2 (toInt64 size)
  match mapLowerBound (toSizeT allocation_size) a.free_lists_ with
  | none => .error .OutOfMemory
  | some (flit_first, flit_second) =>
    let chunk_size := toInt64 flit_first
    match flit_second.head? with
    | none => .error .Undefined
    | some cmit => do
      let (a, cmit) ← Allocator.subdivide 65 a cmit chunk_size allocation_size
      let a ← set_in_use a cmit true
      let a ← remove_from_free_list a cmit
      match mapFind cmit a.chunks_ with
      | none => .error .Undefined
      | some c => .ok (toInt64 (c.address + a.base_), a)

/-- Function `total_bytes()`: the sizes are accumulated in an `int64_t`. -/
def Allocator.total_bytes (a : Allocator) : Int :=
  toInt64 ((a.chunks_.map (fun p => p.2.size)).sum)

/-- Function `total_bytes_in_use()`. -/
def Allocator.total_bytes_in_use (a : Allocator) : Int :=
  toInt64 ((a.chunks_.map (fun p => if p.2.in_use then p.2.size else 0)).sum)

/-- Function `total_bytes_free()`. -/
def Allocator.total_bytes_free (a : Allocator) : Int :=
  toInt64 ((a.chunks_.map (fun p => if p.2.in_use then 0 else p.2.size)).sum)

/-! ## Embedding of NTMessage_devel.hpp -/

/-- Constant `NTMESSAGE_WORD_BITS`. -/
def NTMESSAGE_WORD_BITS : Int := 64

/-- Constant `NTMESSAGE_ADDRESS_BITS`. -/
def NTMESSAGE_ADDRESS_BITS : Int := 44

/-- A bit-field member of a struct: its name, whether its declared type is signed, the number
of bits of the declared type and the declared width. -/
structure BitField where
  name : String
  signed : Bool
  type_bits : Nat
  width : Int
deriving DecidableEq, Repr

/-- The bit-field members of `struct NTHeader`, in declaration order. -/
def NTHeader.fields : List BitField :=
  [ ⟨"dest_", false, 32, NTMESSAGE_WORD_BITS - NTMESSAGE_ADDRESS_BITS⟩,
    ⟨"addr_", true, 64, NTMESSAGE_ADDRESS_BITS⟩,
    ⟨"fp_", false, 32, 31⟩,
    ⟨"size_", false, 16, 13⟩,
    ⟨"count_", false, 16, 10⟩,
    ⟨"offset_", true, 16, 10⟩ ]

/-- The member `uint64_t raw_[2]` of the union in `NTHeader`: its size in bits. -/
def NTHeader.raw_bits : Int := 2 * 64

/-- First bit of a bit-field of `width` bits whose declared type has `type_bits` bits, when
`pos` is the first free bit, by the rule of the System V x86-64 ABI that GCC and Clang follow:
the field starts at `pos` unless it would then cross a boundary of a storage unit of its
declared type; in that case it starts at the next such boundary. -/
def bitFieldStart (pos type_bits width : Nat) : Nat :=
  if pos / type_bits = (pos + width - 1) / type_bits then pos
  else (pos / type_bits + 1) * type_bits

/-- Placement of consecutive bit-fields from the first free bit `pos`: the name, the first bit
and the last bit of each field. -/
def placeBitFields : Nat → List BitField → List (String × Nat × Nat)
  | _, [] => []
  | pos, f :: fs =>
    let start := bitFieldStart pos f.type_bits f.width.toNat
    (f.name, start, start + f.width.toNat - 1) :: placeBitFields (start + f.width.toNat) fs

/-- The first free bit after the placed bit-fields. -/
def bitFieldsEnd : Nat → List BitField → Nat
  | pos, [] => pos
  | pos, f :: fs =>
    bitFieldsEnd (bitFieldStart pos f.type_bits f.width.toNat + f.width.toNat) fs

/-- Value of `sizeof( NTHeader )` in bytes on x86-64: the larger of the two members of the
union, the struct of bit-fields and `raw_[2]`, rounded up to the alignment 8 (members of type
`int64_t` and `uint64_t`, attribute `aligned(8)`). -/
def NTHeader.sizeof : Nat :=
  let struct_bytes := (bitFieldsEnd 0 NTHeader.fields + 7) / 8
  let union_bytes := max struct_bytes (NTHeader.raw_bits.toNat / 8)
  (union_bytes + 7) / 8 * 8

/-- Everything a sending function can touch: the lines written with `LOG(INFO)` (without the
compiler-generated `__PRETTY_FUNCTION__` suffix) and the state `user` that handlers act on. -/
structure NTWorld (σ : Type) where
  log : List String
  user : σ
deriving DecidableEq, Repr

/-- The statement `LOG(INFO) << line`. -/
def NTWorld.LOG_INFO {σ : Type} (w : NTWorld σ) (line : String) : NTWorld σ :=
  { w with log := w.log ++ [line] }

/-- The three specializations of `NTMessageSpecializer<H, cast_to_voidstarvoid,
fits_in_address>::send_ntmessage( Core destination, H handler )`; every one of them logs and
calls `handler()`. -/
def NTMessageSpecializer.send_ntmessage {Core σ : Type} (sizeof_H : Nat)
    (cast_to_voidstarvoid fits_in_address : Bool) (_destination : Core) (handler : σ → σ)
    (w : NTWorld σ) : NTWorld σ :=
  match cast_to_voidstarvoid, fits_in_address with
  | true, _ =>
    let w := w.LOG_INFO "No address; handler has empty capture: "
    { w with user := handler w.user }
  | false, true =>
    let w := w.LOG_INFO
      ("No address; handler of size " ++ toString sizeof_H ++ " fits in address field: ")
    { w with user := handler w.user }
  | false, false =>
    let w := w.LOG_INFO
      ("No address; handler of size " ++ toString sizeof_H ++ " too big for address field: ")
    { w with user := handler w.user }

/-- The specializations of `NTAddressMessageSpecializer<T, H, cast_to_voidstarptr,
cast_to_voidstarref, operator_takes_ptr, operator_takes_ref>::send_ntmessage(
GlobalAddress<T> address, H handler )`; each of the four only logs. For the other
combinations the primary template applies, whose `send_ntmessage` is declared and never
defined: `none`. -/
def NTAddressMessageSpecializer.send_ntmessage {GA H σ : Type}
    (cast_to_voidstarptr cast_to_voidstarref operator_takes_ptr operator_takes_ref : Bool)
    (_address : GA) (_handler : H) (w : NTWorld σ) : Option (NTWorld σ) :=
  match cast_to_voidstarptr, cast_to_voidstarref, operator_takes_ptr, operator_takes_ref with
  | true, false, _, _ =>
    some (w.LOG_INFO "GlobalAddress; handler has pointer and empty capture: ")
  | false, true, _, _ =>
    some (w.LOG_INFO "GlobalAddress; handler has reference and empty capture: ")
  | false, false, true, false =>
    some (w.LOG_INFO "GlobalAddress; handler has pointer and non-empty capture: ")
  | false, false, false, true =>
    some (w.LOG_INFO "GlobalAddress; handler has reference and non-empty capture: ")
  | _, _, _, _ => none

/-- The three specializations of `NTPayloadMessageSpecializer<H, P, cast_to_voidstarvoid,
fits_in_address>::send_ntmessage( Core destination, P * p, size_t size, H handler )`; each
only logs. -/
def NTPayloadMessageSpecializer.send_ntmessage {Core P H σ : Type} (sizeof_H : Nat)
    (cast_to_voidstarvoid fits_in_address : Bool) (_destination : Core) (_p : P) (_size : Nat)
    (_handler : H) (w : NTWorld σ) : NTWorld σ :=
  match cast_to_voidstarvoid, fits_in_address with
  | true, _ => w.LOG_INFO "Payload with no address; handler has empty capture: "
  | false, true =>
    w.LOG_INFO ("Payload with no address; handler of size " ++ toString sizeof_H
      ++ " fits in address field: ")
  | false, false =>
    w.LOG_INFO ("Payload with no address; handler of size " ++ toString sizeof_H
      ++ " too big for address field: ")

/-- The specializations of `NTPayloadAddressMessageSpecializer<T, H, P, ...>::send_ntmessage(
GlobalAddress<T> address, P * payload, size_t count, H handler )`; each of the four only logs,
and the primary template has no definition: `none`. -/
def NTPayloadAddressMessageSpecializer.send_ntmessage {GA P H σ : Type}
    (cast_to_voidstarptr cast_to_voidstarref operator_takes_ptr operator_takes_ref : Bool)
    (_address : GA) (_payload : P) (_count : Nat) (_handler : H) (w : NTWorld σ) :
    Option (NTWorld σ) :=
  match cast_to_voidstarptr, cast_to_voidstarref, operator_takes_ptr, operator_takes_ref with
  | true, false, _, _ =>
    some (w.LOG_INFO
      "Payload with GlobalAddress; handler takes pointer and has empty capture: ")
  | false, true, _, _ =>
    some (w.LOG_INFO
      "Payload with GlobalAddress; handler takes reference and has empty capture: ")
  | false, false, true, false =>
    some (w.LOG_INFO
      "Payload with GlobalAddress; handler takes pointer and has non-empty capture: ")
  | false, false, false, true =>
    some (w.LOG_INFO
      "Payload with GlobalAddress; handler takes reference and has non-empty capture: ")
  | _, _, _, _ => none

/-- Function `send_new_ntmessage( Core destination, H handler )`: message with no address and
no payload. The defaulted template arguments of the specializer are computed here; `sizeof_H`
and `cast_to_voidstarvoid` are the facts about the handler type they depend on. -/
def send_new_ntmessage {Core σ : Type} (sizeof_H : Nat) (cast_to_voidstarvoid : Bool)
    (destination : Core) (handler : σ → σ) (w : NTWorld σ) : NTWorld σ :=
  NTMessageSpecializer.send_ntmessage sizeof_H cast_to_voidstarvoid
    (decide ((sizeof_H : Int) * 8 ≤ NTMESSAGE_ADDRESS_BITS)) destination handler w

/-- Function `send_new_ntmessage( GlobalAddress<T> address, H handler )`: message with address
and no payload. -/
def send_new_ntmessage_address {GA H σ : Type}
    (cast_to_voidstarptr cast_to_voidstarref operator_takes_ptr operator_takes_ref : Bool)
    (address : GA) (handler : H) (w : NTWorld σ) : Option (NTWorld σ) :=
  NTAddressMessageSpecializer.send_ntmessage cast_to_voidstarptr cast_to_voidstarref
    operator_takes_ptr operator_takes_ref address handler w

/-- Function `send_new_ntmessage( Core destination, P * payload, size_t count, H handler )`:
message with payload. -/
def send_new_ntmessage_payload {Core P H σ : Type} (sizeof_H : Nat)
    (cast_to_voidstarvoid : Bool) (destination : Core) (payload : P) (count : Nat)
    (handler : H) (w : NTWorld σ) : NTWorld σ :=
  NTPayloadMessageSpecializer.send_ntmessage sizeof_H cast_to_voidstarvoid
    (decide ((sizeof_H : Int) * 8 ≤ NTMESSAGE_ADDRESS_BITS)) destination payload count handler w

/-- Function `send_new_ntmessage( GlobalAddress<T> address, P * payload, size_t count,
H handler )`: message with address and payload. -/
def send_new_ntmessage_address_payload {GA P H σ : Type}
    (cast_to_voidstarptr cast_to_voidstarref operator_takes_ptr operator_takes_ref : Bool)
    (address : GA) (payload : P) (count : Nat) (handler : H) (w : NTWorld σ) :
    Option (NTWorld σ) :=
  NTPayloadAddressMessageSpecializer.send_ntmessage cast_to_voidstarptr cast_to_voidstarref
    operator_takes_ptr operator_takes_ref address payload count handler w


/-! ## Specification vocabulary: invariants and intermediate states -/

/-- The keys of an association list increase strictly: the list represents a `std::map`. -/
def KeysSorted {β : Type} (m : List (Nat × β)) : Prop := m.Pairwise (fun p q => p.1 < q.1)

/-- Sum of a weight over the values of a map. -/
def mapSum {β : Type} (f : β → Nat) (m : List (Nat × β)) : Nat := (m.map (fun p => f p.2)).sum

/-- Effect of `free_lists_[ S ].erase( slot of k )` followed by the removal of an emptied class. -/
def flRemove (S k : Nat) (fls : FreeListMap) : FreeListMap :=
  if (((mapFind S fls).getD []).erase k).length = 0 then mapErase S fls
  else mapPut S (((mapFind S fls).getD []).erase k) fls

/-- Effect of `free_lists_[ S ].push_front( k )`. -/
def flAdd (S k : Nat) (fls : FreeListMap) : FreeListMap :=
  mapPut S (k :: (mapFind S fls).getD []) fls

/-- Chunk key `k` is referenced from the free list of size class `S`. -/
def memFL (fls : FreeListMap) (S k : Nat) : Prop := ∃ l, mapFind S fls = some l ∧ k ∈ l

/-- Shape of the free-list map: sorted keys, no empty class, no repeated reference. -/
def FLOK (fls : FreeListMap) : Prop :=
  KeysSorted fls ∧ ∀ S l, mapFind S fls = some l → l ≠ [] ∧ l.Nodup

/-- The six `v |= v >> k` steps of `next_largest_power_of_2` on a non-negative value. -/
def smearOr (x : Nat) : Nat :=
  let v := x
  let v := v ||| (v >>> 1)
  let v := v ||| (v >>> 2)
  let v := v ||| (v >>> 4)
  let v := v ||| (v >>> 8)
  let v := v ||| (v >>> 16)
  let v := v ||| (v >>> 32)
  v

/-- The same six steps on the negative value `-(x + 1)`, seen on `x`. -/
def smearAnd (x : Nat) : Nat :=
  let v := x
  let v := v &&& (v >>> 1)
  let v := v &&& (v >>> 2)
  let v := v &&& (v >>> 4)
  let v := v &&& (v >>> 8)
  let v := v &&& (v >>> 16)
  let v := v &&& (v >>> 32)
  v

/-- State after one pass of the splitting loop of `malloc` on the chunk `c` found at `cmit`. -/
def splitState (a : Allocator) (cmit : Nat) (c : AllocatorChunk) (sz : Nat) : Allocator :=
  { a with
    chunks_ := mapPut (c.address + sz) ⟨false, c.address + sz, sz⟩
                 (mapPut cmit ⟨false, c.address, sz⟩ a.chunks_),
    free_lists_ := flAdd sz (c.address + sz) (flAdd sz cmit (flRemove c.size cmit a.free_lists_)) }

/-- State after the final `in_use = true; remove_from_free_list` of `malloc`. -/
def usedState (a : Allocator) (cmit : Nat) (c : AllocatorChunk) : Allocator :=
  { a with
    chunks_ := mapPut cmit { c with in_use := true } a.chunks_,
    free_lists_ := flRemove c.size cmit a.free_lists_ }

/-- State after `add_to_free_list` on the chunk `c` found at `it`. -/
def freedState (a : Allocator) (it : Nat) (c : AllocatorChunk) : Allocator :=
  { a with
    chunks_ := mapPut it { c with in_use := false } a.chunks_,
    free_lists_ := flAdd c.size it a.free_lists_ }

/-- State after one merge of `try_merge_buddy_recursive`: the chunk at `hi` is erased and the
chunk `l` at `lo` doubles. -/
def mergedState (a : Allocator) (lo hi : Nat) (l : AllocatorChunk) : Allocator :=
  { a with
    chunks_ := mapPut lo ⟨false, l.address, (l.size * 2) % 2 ^ 64⟩ (mapErase hi a.chunks_),
    free_lists_ := flAdd ((l.size * 2) % 2 ^ 64) lo
                     (flRemove l.size lo (flRemove l.size hi a.free_lists_)) }

/-- Shape of the chunk map of an allocator over `N` bytes. -/
structure ChunksOK (N : Nat) (cm : ChunkMap) : Prop where
  sorted : KeysSorted cm
  addr : ∀ k c, mapFind k cm = some c → c.address = k
  pow2 : ∀ k c, mapFind k cm = some c → ∃ j : Nat, c.size = 2 ^ j
  bound : ∀ k c, mapFind k cm = some c → k + c.size ≤ N
  disj : ∀ k1 c1 k2 c2, mapFind k1 cm = some c1 → mapFind k2 cm = some c2 → k1 < k2 →
    k1 + c1.size ≤ k2
  total : mapSum (fun c => c.size) cm = N

/-- Free-list consistency: class `S` references chunk `k` exactly when `k` is a free chunk of
size `S`. -/
def FLC (a : Allocator) : Prop :=
  ∀ S k, memFL a.free_lists_ S k ↔
    ∃ c, mapFind k a.chunks_ = some c ∧ c.size = S ∧ c.in_use = false

/-- Structural invariant of an allocator over `N` bytes. -/
structure Inv (N : Nat) (a : Allocator) : Prop where
  chunks : ChunksOK N a.chunks_
  fl : FLOK a.free_lists_
  flc : FLC a

/-- No two free chunks of equal size whose offsets differ exactly in the bit of their size. -/
def SibFree (a : Allocator) : Prop :=
  ∀ k1 c1 k2 c2, mapFind k1 a.chunks_ = some c1 → mapFind k2 a.chunks_ = some c2 →
    c1.in_use = false → c2.in_use = false → c1.size = c2.size → k1 ^^^ k2 ≠ c1.size

/-- Sibling-freedom of all pairs that do not involve the chunk at `x`. -/
def SibFreeExcept (a : Allocator) (x : Nat) : Prop :=
  ∀ k1 c1 k2 c2, mapFind k1 a.chunks_ = some c1 → mapFind k2 a.chunks_ = some c2 →
    c1.in_use = false → c2.in_use = false → c1.size = c2.size → k1 ^^^ k2 = c1.size →
    k1 = x ∨ k2 = x

/-- Contribution of a chunk to `total_bytes_in_use()`. -/
def useSize (c : AllocatorChunk) : Nat := if c.in_use then c.size else 0

/-- Contribution of a chunk to `total_bytes_free()`. -/
def freeSize (c : AllocatorChunk) : Nat := if c.in_use then 0 else c.size

/-- The chunks in use are the same in both states. -/
def SameUsed (a a' : Allocator) : Prop :=
  ∀ k c, c.in_use = true → (mapFind k a'.chunks_ = some c ↔ mapFind k a.chunks_ = some c)

/-- Loop condition of the splitting loop: every other free chunk that could serve the request
is at least as large as the chunk being split. -/
def LoopCond (a : Allocator) (cmit : Nat) (B : Int) (cs : Nat) : Prop :=
  ∀ k c', mapFind k a.chunks_ = some c' → c'.in_use = false → k ≠ cmit →
    B ≤ (c'.size : Int) → cs ≤ c'.size

/-- Size of the chunk that one pass of the constructor loop creates for remaining size `r`. -/
def ctorChunkSize (r : Int) : Nat :=
  if Int.land r (r - 1) ≠ 0 then toSizeT (next_largest_power_of_2 (Int.tdiv r 2)) else toSizeT r

/-- State after one pass of the constructor loop: a new free chunk of size `sz` at `off`. -/
def insertState (a : Allocator) (off sz : Nat) : Allocator :=
  { a with chunks_ := mapPut off ⟨false, off, sz⟩ a.chunks_,
           free_lists_ := flAdd sz off a.free_lists_ }

/-- The chunks of the list, in order, tile the range from `s` to `e` without gaps. -/
def ContigTo : Nat → ChunkMap → Nat → Prop
  | s, [], e => s = e
  | s, (k, c) :: m, e => k = s ∧ c.address = s ∧ 0 < c.size ∧ ContigTo (s + c.size) m e

/-- Loop invariant of the constructor: `off` bytes are laid out, `r` bytes remain. -/
structure CtorInv (a : Allocator) (off r : Nat) : Prop where
  inv : Inv off a
  allFree : ∀ k c, mapFind k a.chunks_ = some c → c.in_use = false
  noAdj : ∀ k c c', mapFind k a.chunks_ = some c → mapFind (k + c.size) a.chunks_ = some c' →
    c'.size ≠ c.size
  last : ∀ k c, mapFind k a.chunks_ = some c → k + c.size = off → r ≤ c.size + 1 ∧ r ≠ c.size
  align : ∀ k c, mapFind k a.chunks_ = some c →
    c.size ∣ k ∨ (c.size = 2 ∧ ∃ k1 c1, mapFind k1 a.chunks_ = some c1 ∧ c1.size = 1)
  next : r = 0 ∨ ctorChunkSize (r : Int) ∣ off ∨
    (r = 2 ∧ ∃ k1 c1, mapFind k1 a.chunks_ = some c1 ∧ c1.size = 1)
  contig : ContigTo 0 a.chunks_ off

/-- States reached from a fresh `Allocator( base, N )` by calls of `malloc` and `free` that
return normally. -/
inductive Reachable (base : Int) (N : Int) : Allocator → Prop
  | init {a : Allocator} : Allocator.new base N = .ok a → Reachable base N a
  | malloc {a a' : Allocator} {s : Nat} {p : Int} :
      Reachable base N a → Allocator.malloc a s = .ok (p, a') → Reachable base N a'
  | free {a a' : Allocator} {p : Int} :
      Reachable base N a → Allocator.free a p = .ok a' → Reachable base N a'

/-- `B` is the least power of two that is not below `s`. -/
def IsLeastPow2Ge (s B : Nat) : Prop :=
  (∃ j : Nat, B = 2 ^ j) ∧ s ≤ B ∧ ∀ i : Nat, s ≤ 2 ^ i → B ≤ 2 ^ i

/-- The chunk stored at a signed offset (`chunks_.find( address )`). -/
def chunkAt (a : Allocator) (offset : Int) : Option AllocatorChunk :=
  if offset < 0 then none else mapFind offset.toNat a.chunks_

/-- Fresh allocator over 12 bytes at base 0. -/
def fresh12 : Allocator :=
  ⟨0, 12, [(0, ⟨false, 0, 8⟩), (8, ⟨false, 8, 4⟩)], [(4, [8]), (8, [0])]⟩

/-- The allocator `fresh12` after `malloc(3)`, which returns address 8. -/
def used12 : Allocator :=
  ⟨0, 12, [(0, ⟨false, 0, 8⟩), (8, ⟨true, 8, 4⟩)], [(8, [0])]⟩

/-- Fresh allocator over 16 bytes at base 0. -/
def fresh16 : Allocator := ⟨0, 16, [(0, ⟨false, 0, 16⟩)], [(16, [0])]⟩

/-- The allocator `fresh16` after `malloc(16)`, which returns address 0. -/
def full16 : Allocator := ⟨0, 16, [(0, ⟨true, 0, 16⟩)], []⟩

/-- Fresh allocator over 5 bytes at base 0. -/
def fresh5 : Allocator :=
  ⟨0, 5, [(0, ⟨false, 0, 2⟩), (2, ⟨false, 2, 1⟩), (3, ⟨false, 3, 2⟩)], [(1, [2]), (2, [3, 0])]⟩

/-- The allocator `fresh5` after `malloc(1)`, which returns address 2. -/
def a5_1 : Allocator :=
  ⟨0, 5, [(0, ⟨false, 0, 2⟩), (2, ⟨true, 2, 1⟩), (3, ⟨false, 3, 2⟩)], [(2, [3, 0])]⟩

/-- The allocator `a5_1` after a second `malloc(1)`, which splits the chunk at offset 3 and
returns address 4. -/
def a5_2 : Allocator :=
  ⟨0, 5, [(0, ⟨false, 0, 2⟩), (2, ⟨true, 2, 1⟩), (3, ⟨false, 3, 1⟩), (4, ⟨true, 4, 1⟩)],
    [(1, [3]), (2, [0])]⟩

/-- The allocator `a5_2` after `free(2)`: the chunks at 2 and 3 merge, then those at 0 and 2. -/
def a5_3 : Allocator := ⟨0, 5, [(0, ⟨false, 0, 4⟩), (4, ⟨true, 4, 1⟩)], [(4, [0])]⟩

/-- The allocator `a5_3` after `free(4)`: nothing is in use any more. -/
def a5_4 : Allocator :=
  ⟨0, 5, [(0, ⟨false, 0, 4⟩), (4, ⟨false, 4, 1⟩)], [(1, [4]), (4, [0])]⟩

/-- The allocator `a5_3` after `malloc(3)`, which returns address 0. -/
def a5_5 : Allocator := ⟨0, 5, [(0, ⟨true, 0, 4⟩), (4, ⟨true, 4, 1⟩)], []⟩

/-- The allocator `fresh5` after `malloc(2)`, which returns address 3. -/
def a5_6 : Allocator :=
  ⟨0, 5, [(0, ⟨false, 0, 2⟩), (2, ⟨false, 2, 1⟩), (3, ⟨true, 3, 2⟩)], [(1, [2]), (2, [0])]⟩

/-- The allocator `fresh16` after `malloc(1)`, which returns address 15. -/
def a16_1 : Allocator :=
  ⟨0, 16, [(0, ⟨false, 0, 8⟩), (8, ⟨false, 8, 4⟩), (12, ⟨false, 12, 2⟩), (14, ⟨false, 14, 1⟩),
    (15, ⟨true, 15, 1⟩)], [(1, [14]), (2, [12]), (4, [8]), (8, [0])]⟩

/-- An empty log and an empty record of handler calls. -/
def world0 : NTWorld (List String) := ⟨[], []⟩

/-- A handler without arguments that records its call. -/
def recordCall : List String → List String := fun calls => calls ++ ["call"]

/-- A handler with a target argument that records its call and its argument. -/
def recordCallAt : Nat → List String → List String :=
  fun t calls => calls ++ ["call at " ++ toString t]

/-- The statements of `next_largest_power_of_2` carried out on unbounded integers: what the
function computes when neither `v--` nor `v++` leaves the 64-bit range. -/
def next_largest_power_of_2_exact (v : Int) : Int :=
  let v := v - 1
  let v := Int.lor v (v >>> 1)
  let v := Int.lor v (v >>> 2)
  let v := Int.lor v (v >>> 4)
  let v := Int.lor v (v >>> 8)
  let v := Int.lor v (v >>> 16)
  let v := Int.lor v (v >>> 32)
  v + 1

/-- Every chunk lies at an offset that is a multiple of its size. -/
def Aligned (a : Allocator) : Prop :=
  ∀ k c, mapFind k a.chunks_ = some c → c.size ∣ k

/-- The statements of one merge in `try_merge_buddy_recursive`, from the first
`remove_from_free_list` up to the recursive call: `hi` is `higher_iterator` and `lo` is
`lower_iterator`. -/
def merge_once (a : Allocator) (hi lo : Nat) : Except AllocatorError Allocator := do
  let a ← remove_from_free_list a hi
  let a := { a with chunks_ := mapErase hi a.chunks_ }
  let a ← remove_from_free_list a lo
  let l ← (match mapFind lo a.chunks_ with
           | none => .error .Undefined
           | some l => .ok l)
  let a ← set_size a lo ((l.size * 2) % 2 ^ 64)
  add_to_free_list a lo

/-- The statements of `malloc` after `flit->second.front()`: the splitting loop, the marking of
the chunk and the return value. -/
def Allocator.malloc_rest (a : Allocator) (cmit : Nat) (chunk_size allocation_size : Int) :
    Except AllocatorError (Int × Allocator) := do
  let (a, cmit) ← Allocator.subdivide 65 a cmit chunk_size allocation_size
  let a ← set_in_use a cmit true
  let a ← remove_from_free_list a cmit
  match mapFind cmit a.chunks_ with
  | none => .error .Undefined
  | some c => .ok (toInt64 (c.address + a.base_), a)

/-- Function `malloc( size_t size )` with the exit made explicit: the statements are those of
`Allocator.malloc`; an exit by `throw Allocator::Exception()` carries the members of the
object as they are at the `throw` statement, which is what a caller that catches the exception
finds; an exit by a failed `assert` or by undefined behaviour ends the program and carries no
state. -/
def Allocator.malloc_exit (a : Allocator) (size : Nat) :
    Except (AllocatorError × Option Allocator) (Int × Allocator) :=
  let allocation_size := next_largest_power_of_2 (toInt64 size)
  match mapLowerBound (toSizeT allocation_size) a.free_lists_ with
  | none => .error (.OutOfMemory, some a)
  | some (flit_first, flit_second) =>
    let chunk_size := toInt64 flit_first
    match flit_second.head? with
    | none => .error (.Undefined, none)
    | some cmit =>
      (Allocator.malloc_rest a cmit chunk_size allocation_size).mapError (fun e => (e, none))

/-- The computation does not end in `throw Allocator::Exception()`. -/
def NeverThrows {α : Type} (x : Except AllocatorError α) : Prop :=
  ∀ e, x = .error e → e ≠ .OutOfMemory

/-! ## Lemmas and theorems -/

section MapLemmas

variable {β : Type}

theorem keysSorted_nil : KeysSorted ([] : List (Nat × β)) := List.Pairwise.nil

theorem keysSorted_cons {p : Nat × β} {m : List (Nat × β)} :
    KeysSorted (p :: m) ↔ (∀ q ∈ m, p.1 < q.1) ∧ KeysSorted m := by
  unfold KeysSorted
  exact List.pairwise_cons

theorem mapFind_mapPut (k k' : Nat) (v : β) (m : List (Nat × β)) :
    mapFind k' (mapPut k v m) = if k' = k then some v else mapFind k' m := by
  induction m with
  | nil =>
    by_cases h : k' = k
    · simp [mapPut, mapFind, h]
    · have h' : ¬ k = k' := fun e => h e.symm
      simp [mapPut, mapFind, h, h']
  | cons p m ih =>
    obtain ⟨k1, v1⟩ := p
    unfold mapPut
    by_cases h1 : k < k1
    · by_cases h : k' = k
      · simp [h1, mapFind, h]
      · have h' : ¬ k = k' := fun e => h e.symm
        simp [h1, mapFind, h, h']
    · by_cases h2 : k = k1
      · subst h2
        by_cases h : k' = k
        · simp [mapFind, h]
        · have h' : ¬ k = k' := fun e => h e.symm
          simp [mapFind, h, h']
      · simp only [h1, h2, if_false]
        by_cases h3 : k1 = k'
        · subst h3
          have h' : ¬ k1 = k := fun e => h2 e.symm
          simp [mapFind, h']
        · simp [mapFind, h3, ih]

theorem mapFind_some_mem {k : Nat} {v : β} {m : List (Nat × β)} (h : mapFind k m = some v) :
    (k, v) ∈ m := by
  induction m with
  | nil => simp [mapFind] at h
  | cons p m ih =>
    obtain ⟨k1, v1⟩ := p
    unfold mapFind at h
    by_cases h1 : k1 = k
    · simp [h1] at h
      simp [h1, h]
    · simp [h1] at h
      exact List.mem_cons_of_mem _ (ih h)

theorem mapFind_none_of_lt {k : Nat} {m : List (Nat × β)} (h : ∀ q ∈ m, k < q.1) :
    mapFind k m = none := by
  induction m with
  | nil => rfl
  | cons p m ih =>
    obtain ⟨k1, v1⟩ := p
    have h1 : k < k1 := h (k1, v1) (List.mem_cons_self _ _)
    have h2 : ¬ k1 = k := by omega
    unfold mapFind
    simp only [h2, if_false]
    exact ih (fun q hq => h q (List.mem_cons_of_mem _ hq))

theorem mapFind_of_mem {k : Nat} {v : β} {m : List (Nat × β)} (hs : KeysSorted m)
    (h : (k, v) ∈ m) : mapFind k m = some v := by
  induction m with
  | nil => simp at h
  | cons p m ih =>
    obtain ⟨k1, v1⟩ := p
    rw [keysSorted_cons] at hs
    rcases List.mem_cons.mp h with h1 | h1
    · injection h1 with h2 h3
      subst h2; subst h3
      simp [mapFind]
    · have h2 : k1 < k := hs.1 (k, v) h1
      have h3 : ¬ k1 = k := by omega
      unfold mapFind
      simp only [h3, if_false]
      exact ih hs.2 h1

theorem mem_mapPut {k : Nat} {v : β} {m : List (Nat × β)} {q : Nat × β}
    (h : q ∈ mapPut k v m) : q = (k, v) ∨ q ∈ m := by
  induction m with
  | nil => simp [mapPut] at h; exact Or.inl h
  | cons p m ih =>
    obtain ⟨k1, v1⟩ := p
    unfold mapPut at h
    by_cases h1 : k < k1
    · simp only [h1, if_true] at h
      rcases List.mem_cons.mp h with h2 | h2
      · exact Or.inl h2
      · exact Or.inr h2
    · by_cases h2 : k = k1
      · subst h2
        simp only [h1, if_true, if_false] at h
        rcases List.mem_cons.mp h with h3 | h3
        · left; rw [h3]
        · exact Or.inr (List.mem_cons_of_mem _ h3)
      · simp only [h1, h2, if_false] at h
        rcases List.mem_cons.mp h with h3 | h3
        · right; rw [h3]; exact List.mem_cons_self _ _
        · rcases ih h3 with h4 | h4
          · exact Or.inl h4
          · exact Or.inr (List.mem_cons_of_mem _ h4)

theorem keysSorted_mapPut {k : Nat} {v : β} {m : List (Nat × β)} (hs : KeysSorted m) :
    KeysSorted (mapPut k v m) := by
  induction m with
  | nil => simp [mapPut, KeysSorted]
  | cons p m ih =>
    obtain ⟨k1, v1⟩ := p
    have hs' := keysSorted_cons.mp hs
    unfold mapPut
    by_cases h1 : k < k1
    · simp only [h1, if_true]
      rw [keysSorted_cons]
      refine ⟨?_, hs⟩
      intro q hq
      rcases List.mem_cons.mp hq with h2 | h2
      · rw [h2]; exact h1
      · have := hs'.1 q h2
        simp only at this ⊢
        omega
    · by_cases h2 : k = k1
      · subst h2
        simp only [h1, if_true, if_false]
        rw [keysSorted_cons]
        exact ⟨hs'.1, hs'.2⟩
      · simp only [h1, h2, if_false]
        rw [keysSorted_cons]
        refine ⟨?_, ih hs'.2⟩
        intro q hq
        rcases mem_mapPut hq with h3 | h3
        · rw [h3]; simp only; omega
        · exact hs'.1 q h3

theorem mem_mapErase {k : Nat} {m : List (Nat × β)} {q : Nat × β}
    (h : q ∈ mapErase k m) : q ∈ m := by
  induction m with
  | nil => simp [mapErase] at h
  | cons p m ih =>
    obtain ⟨k1, v1⟩ := p
    unfold mapErase at h
    by_cases h1 : k1 = k
    · simp only [h1, if_true] at h
      exact List.mem_cons_of_mem _ h
    · simp only [h1, if_false] at h
      rcases List.mem_cons.mp h with h3 | h3
      · rw [h3]; exact List.mem_cons_self _ _
      · exact List.mem_cons_of_mem _ (ih h3)

theorem keysSorted_mapErase {k : Nat} {m : List (Nat × β)} (hs : KeysSorted m) :
    KeysSorted (mapErase k m) := by
  induction m with
  | nil => simp [mapErase, KeysSorted]
  | cons p m ih =>
    obtain ⟨k1, v1⟩ := p
    have hs' := keysSorted_cons.mp hs
    unfold mapErase
    by_cases h1 : k1 = k
    · simp only [h1, if_true]
      exact hs'.2
    · simp only [h1, if_false]
      rw [keysSorted_cons]
      exact ⟨fun q hq => hs'.1 q (mem_mapErase hq), ih hs'.2⟩

theorem mapFind_mapErase {k : Nat} (k' : Nat) {m : List (Nat × β)} (hs : KeysSorted m) :
    mapFind k' (mapErase k m) = if k' = k then none else mapFind k' m := by
  induction m with
  | nil => simp [mapErase, mapFind]
  | cons p m ih =>
    obtain ⟨k1, v1⟩ := p
    have hs' := keysSorted_cons.mp hs
    unfold mapErase
    by_cases h1 : k1 = k
    · subst h1
      simp only [if_true]
      by_cases h : k' = k1
      · subst h
        simp only [if_true]
        exact mapFind_none_of_lt hs'.1
      · have h' : ¬ k1 = k' := fun e => h e.symm
        simp [mapFind, h, h']
    · simp only [h1, if_false]
      by_cases h3 : k1 = k'
      · subst h3
        simp [mapFind, h1]
      · simp [mapFind, h3, ih hs'.2]

theorem map_ext {m1 m2 : List (Nat × β)} (h1 : KeysSorted m1) (h2 : KeysSorted m2)
    (h : ∀ k, mapFind k m1 = mapFind k m2) : m1 = m2 := by
  induction m1 generalizing m2 with
  | nil =>
    cases m2 with
    | nil => rfl
    | cons q m2 =>
      have := h q.1
      simp [mapFind] at this
  | cons p m1 ih =>
    obtain ⟨k1, v1⟩ := p
    cases m2 with
    | nil =>
      have := h k1
      simp [mapFind] at this
    | cons q m2 =>
      obtain ⟨k2, v2⟩ := q
      have hs1 := keysSorted_cons.mp h1
      have hs2 := keysSorted_cons.mp h2
      have e1 : mapFind k1 ((k2, v2) :: m2) = some v1 := by
        rw [← h k1]; simp [mapFind]
      have e2 : mapFind k2 ((k1, v1) :: m1) = some v2 := by
        rw [h k2]; simp [mapFind]
      have m1' := mapFind_some_mem e1
      have m2' := mapFind_some_mem e2
      have hk : k1 = k2 := by
        rcases List.mem_cons.mp m1' with a | a
        · injection a
        · rcases List.mem_cons.mp m2' with b | b
          · injection b with b1 b2; exact b1.symm
          · have := hs2.1 _ a
            have := hs1.1 _ b
            simp only at *
            omega
      subst hk
      have hv : v1 = v2 := by
        simp [mapFind] at e1
        exact e1.symm
      subst hv
      congr 1
      apply ih hs1.2 hs2.2
      intro k
      have hk := h k
      by_cases e : k1 = k
      · subst e
        rw [mapFind_none_of_lt hs1.1, mapFind_none_of_lt hs2.1]
      · simpa [mapFind, e] using hk

theorem mapPut_mapPut (k : Nat) (v v' : β) (m : List (Nat × β)) :
    mapPut k v (mapPut k v' m) = mapPut k v m := by
  induction m with
  | nil => simp [mapPut]
  | cons p m ih =>
    obtain ⟨k1, v1⟩ := p
    by_cases h1 : k < k1
    · simp [mapPut, h1]
    · by_cases h2 : k = k1
      · subst h2
        simp [mapPut]
      · simp [mapPut, h1, h2, ih]

theorem mapPut_self {k : Nat} {v : β} {m : List (Nat × β)} (hs : KeysSorted m)
    (h : mapFind k m = some v) : mapPut k v m = m := by
  apply map_ext (keysSorted_mapPut hs) hs
  intro k'
  rw [mapFind_mapPut]
  by_cases e : k' = k
  · subst e; simp [h]
  · simp [e]

theorem mapLowerBound_some {k : Nat} {m : List (Nat × β)} {k' : Nat} {v : β}
    (hs : KeysSorted m) (h : mapLowerBound k m = some (k', v)) :
    mapFind k' m = some v ∧ k ≤ k' ∧ ∀ k2 v2, mapFind k2 m = some v2 → k ≤ k2 → k' ≤ k2 := by
  induction m with
  | nil => simp [mapLowerBound] at h
  | cons p m ih =>
    obtain ⟨k1, v1⟩ := p
    have hs' := keysSorted_cons.mp hs
    unfold mapLowerBound at h
    by_cases h1 : k ≤ k1
    · simp only [h1, if_true] at h
      injection h with h
      injection h with ha hb
      subst ha; subst hb
      refine ⟨by simp [mapFind], h1, ?_⟩
      intro k2 v2 hf _
      rcases List.mem_cons.mp (mapFind_some_mem hf) with a | a
      · injection a with a1 a2; omega
      · have := hs'.1 _ a
        simp only at this
        omega
    · simp only [h1, if_false] at h
      obtain ⟨i1, i2, i3⟩ := ih hs'.2 h
      have hne : ¬ k1 = k' := by omega
      refine ⟨by simp [mapFind, hne, i1], i2, ?_⟩
      intro k2 v2 hf hk
      have hne2 : ¬ k1 = k2 := by omega
      simp only [mapFind, hne2, if_false] at hf
      exact i3 k2 v2 hf hk

theorem mapLowerBound_none {k : Nat} {m : List (Nat × β)}
    (h : mapLowerBound k m = none) : ∀ k2 v2, mapFind k2 m = some v2 → k2 < k := by
  induction m with
  | nil => intro k2 v2 hf; simp [mapFind] at hf
  | cons p m ih =>
    obtain ⟨k1, v1⟩ := p
    unfold mapLowerBound at h
    by_cases h1 : k ≤ k1
    · simp [h1] at h
    · simp only [h1, if_false] at h
      intro k2 v2 hf
      unfold mapFind at hf
      by_cases e : k1 = k2
      · omega
      · simp only [e, if_false] at hf
        exact ih h k2 v2 hf

theorem mapLowerBound_isSome_of {k : Nat} {m : List (Nat × β)} {k2 : Nat} {v2 : β}
    (hf : mapFind k2 m = some v2) (hk : k ≤ k2) : ∃ e, mapLowerBound k m = some e := by
  cases h : mapLowerBound k m with
  | none => have := mapLowerBound_none h k2 v2 hf; omega
  | some e => exact ⟨e, rfl⟩

theorem mapSum_mapPut_of_some (f : β → Nat) {k : Nat} {v c : β} {m : List (Nat × β)}
    (hs : KeysSorted m) (h : mapFind k m = some c) :
    mapSum f (mapPut k v m) + f c = mapSum f m + f v := by
  induction m with
  | nil => simp [mapFind] at h
  | cons p m ih =>
    obtain ⟨k1, v1⟩ := p
    have hs' := keysSorted_cons.mp hs
    unfold mapFind at h
    by_cases h1 : k1 = k
    · subst h1
      simp only [if_true] at h
      injection h with h
      subst h
      simp [mapPut, mapSum]
      omega
    · simp only [h1, if_false] at h
      have := ih hs'.2 h
      unfold mapPut
      by_cases h2 : k < k1
      · exfalso
        have := hs'.1 _ (mapFind_some_mem h)
        simp only at this
        omega
      · have h3 : ¬ k = k1 := fun e => h1 e.symm
        simp only [h2, h3, if_false]
        simp only [mapSum, List.map_cons, List.sum_cons] at this ⊢
        omega

theorem mapSum_mapPut_of_none (f : β → Nat) {k : Nat} {v : β} {m : List (Nat × β)}
    (h : mapFind k m = none) :
    mapSum f (mapPut k v m) = mapSum f m + f v := by
  induction m with
  | nil => simp [mapPut, mapSum]
  | cons p m ih =>
    obtain ⟨k1, v1⟩ := p
    unfold mapFind at h
    by_cases h1 : k1 = k
    · simp [h1] at h
    · simp only [h1, if_false] at h
      have := ih h
      unfold mapPut
      by_cases h2 : k < k1
      · simp only [h2, if_true]
        simp only [mapSum, List.map_cons, List.sum_cons]
        omega
      · have h3 : ¬ k = k1 := fun e => h1 e.symm
        simp only [h2, h3, if_false]
        simp only [mapSum, List.map_cons, List.sum_cons] at this ⊢
        omega

theorem mapSum_mapErase (f : β → Nat) {k : Nat} {c : β} {m : List (Nat × β)}
    (h : mapFind k m = some c) :
    mapSum f (mapErase k m) + f c = mapSum f m := by
  induction m with
  | nil => simp [mapFind] at h
  | cons p m ih =>
    obtain ⟨k1, v1⟩ := p
    unfold mapFind at h
    by_cases h1 : k1 = k
    · subst h1
      simp only [if_true] at h
      injection h with h
      subst h
      simp [mapErase, mapSum]
      omega
    · simp only [h1, if_false] at h
      have := ih h
      unfold mapErase
      simp only [h1, if_false]
      simp only [mapSum, List.map_cons, List.sum_cons] at this ⊢
      omega

theorem length_mapErase {k : Nat} {c : β} {m : List (Nat × β)}
    (h : mapFind k m = some c) : (mapErase k m).length + 1 = m.length := by
  induction m with
  | nil => simp [mapFind] at h
  | cons p m ih =>
    obtain ⟨k1, v1⟩ := p
    unfold mapFind at h
    by_cases h1 : k1 = k
    · simp [mapErase, h1]
    · simp only [h1, if_false] at h
      have := ih h
      simp [mapErase, h1, this]

theorem length_mapPut_of_some {k : Nat} {v c : β} {m : List (Nat × β)}
    (hs : KeysSorted m) (h : mapFind k m = some c) : (mapPut k v m).length = m.length := by
  induction m with
  | nil => simp [mapFind] at h
  | cons p m ih =>
    obtain ⟨k1, v1⟩ := p
    have hs' := keysSorted_cons.mp hs
    unfold mapFind at h
    by_cases h1 : k1 = k
    · subst h1
      simp [mapPut]
    · simp only [h1, if_false] at h
      have := ih hs'.2 h
      unfold mapPut
      by_cases h2 : k < k1
      · exfalso
        have := hs'.1 _ (mapFind_some_mem h)
        simp only at this
        omega
      · have h3 : ¬ k = k1 := fun e => h1 e.symm
        simp [h2, h3, this]

theorem length_mapPut_of_none {k : Nat} {v : β} {m : List (Nat × β)}
    (h : mapFind k m = none) : (mapPut k v m).length = m.length + 1 := by
  induction m with
  | nil => simp [mapPut]
  | cons p m ih =>
    obtain ⟨k1, v1⟩ := p
    unfold mapFind at h
    by_cases h1 : k1 = k
    · simp [h1] at h
    · simp only [h1, if_false] at h
      have := ih h
      unfold mapPut
      by_cases h2 : k < k1
      · simp [h2]
      · have h3 : ¬ k = k1 := fun e => h1 e.symm
        simp [h2, h3, this]

theorem mapPut_mapErase {k : Nat} {v : β} {m : List (Nat × β)} (hs : KeysSorted m)
    (h : mapFind k m = some v) : mapPut k v (mapErase k m) = m := by
  apply map_ext (keysSorted_mapPut (keysSorted_mapErase hs)) hs
  intro k'
  rw [mapFind_mapPut, mapFind_mapErase k' hs]
  by_cases e : k' = k
  · subst e; simp [h]
  · simp [e]

theorem mapErase_mapPut {k : Nat} {v : β} {m : List (Nat × β)} (hs : KeysSorted m)
    (h : mapFind k m = none) : mapErase k (mapPut k v m) = m := by
  apply map_ext (keysSorted_mapErase (keysSorted_mapPut hs)) hs
  intro k'
  rw [mapFind_mapErase k' (keysSorted_mapPut hs), mapFind_mapPut]
  by_cases e : k' = k
  · subst e; simp [h]
  · simp [e]

end MapLemmas

theorem memFL_flAdd (fls : FreeListMap) (S k S' k' : Nat) :
    memFL (flAdd S k fls) S' k' ↔ memFL fls S' k' ∨ (S' = S ∧ k' = k) := by
  unfold memFL flAdd
  rw [mapFind_mapPut]
  by_cases e : S' = S
  · subst e
    simp only [if_true, true_and]
    constructor
    · rintro ⟨l, hl, hm⟩
      injection hl with hl
      subst hl
      rcases List.mem_cons.mp hm with h | h
      · exact Or.inr h
      · left
        cases hf : mapFind S' fls with
        | none => simp [hf] at h
        | some l0 => simp [hf] at h; exact ⟨l0, rfl, h⟩
    · rintro (⟨l, hl, hm⟩ | h)
      · exact ⟨_, rfl, by simp [hl, hm]⟩
      · exact ⟨_, rfl, by simp [h]⟩
  · simp [e]

theorem FLOK_flAdd {fls : FreeListMap} {S k : Nat} (h : FLOK fls) (hn : ¬ memFL fls S k) :
    FLOK (flAdd S k fls) := by
  refine ⟨keysSorted_mapPut h.1, ?_⟩
  intro S' l hl
  unfold flAdd at hl
  rw [mapFind_mapPut] at hl
  by_cases e : S' = S
  · subst e
    simp only [if_true] at hl
    injection hl with hl
    subst hl
    refine ⟨by simp, ?_⟩
    cases hf : mapFind S' fls with
    | none => simp
    | some l0 =>
      simp only [Option.getD_some, List.nodup_cons]
      exact ⟨fun hm => hn ⟨l0, hf, hm⟩, (h.2 S' l0 hf).2⟩
  · simp only [e, if_false] at hl
    exact h.2 S' l hl

theorem memFL_flRemove {fls : FreeListMap} (h : FLOK fls) (S k S' k' : Nat) :
    memFL (flRemove S k fls) S' k' ↔ memFL fls S' k' ∧ ¬ (S' = S ∧ k' = k) := by
  unfold memFL flRemove
  cases hf : mapFind S fls with
  | none =>
    simp only [Option.getD_none, List.erase_nil, List.length_nil, if_true]
    rw [mapFind_mapErase S' h.1]
    by_cases e : S' = S
    · subst e; simp [hf]
    · simp [e]
  | some l0 =>
    have hnd := (h.2 S l0 hf).2
    simp only [Option.getD_some]
    by_cases hl : (l0.erase k).length = 0
    · simp only [hl, if_true]
      rw [mapFind_mapErase S' h.1]
      by_cases e : S' = S
      · subst e
        simp only [if_true, hf]
        constructor
        · rintro ⟨l, hl', _⟩; cases hl'
        · rintro ⟨⟨l, hl', hm⟩, hne⟩
          injection hl' with hl'
          subst hl'
          exfalso
          have : k' ∈ l0.erase k := (List.Nodup.mem_erase_iff hnd).mpr ⟨fun e => hne ⟨trivial, e⟩, hm⟩
          rw [List.length_eq_zero] at hl
          rw [hl] at this
          simp at this
      · simp [e]
    · simp only [hl, if_false]
      rw [mapFind_mapPut]
      by_cases e : S' = S
      · subst e
        simp only [if_true, hf]
        constructor
        · rintro ⟨l, hl', hm⟩
          injection hl' with hl'
          subst hl'
          have := (List.Nodup.mem_erase_iff hnd).mp hm
          exact ⟨⟨l0, rfl, this.2⟩, fun hh => this.1 hh.2⟩
        · rintro ⟨⟨l, hl', hm⟩, hne⟩
          injection hl' with hl'
          subst hl'
          exact ⟨_, rfl, (List.Nodup.mem_erase_iff hnd).mpr ⟨fun e => hne ⟨trivial, e⟩, hm⟩⟩
      · simp [e]

theorem FLOK_flRemove {fls : FreeListMap} {S k : Nat} (h : FLOK fls) :
    FLOK (flRemove S k fls) := by
  unfold flRemove
  by_cases hl : (((mapFind S fls).getD []).erase k).length = 0
  · simp only [hl, if_true]
    refine ⟨keysSorted_mapErase h.1, ?_⟩
    intro S' l hl'
    rw [mapFind_mapErase S' h.1] at hl'
    by_cases e : S' = S
    · simp [e] at hl'
    · simp only [e, if_false] at hl'
      exact h.2 S' l hl'
  · simp only [hl, if_false]
    refine ⟨keysSorted_mapPut h.1, ?_⟩
    intro S' l hl'
    rw [mapFind_mapPut] at hl'
    by_cases e : S' = S
    · subst e
      simp only [if_true] at hl'
      injection hl' with hl'
      subst hl'
      refine ⟨fun hnil => hl (by simp [hnil]), ?_⟩
      cases hf : mapFind S' fls with
      | none => simp
      | some l0 =>
        simp only [Option.getD_some]
        exact List.Nodup.erase _ (h.2 S' l0 hf).2
    · simp only [e, if_false] at hl'
      exact h.2 S' l hl'

theorem remove_from_free_list_ok {a : Allocator} {it : Nat} {c : AllocatorChunk}
    (hc : mapFind it a.chunks_ = some c) (hm : memFL a.free_lists_ c.size it) :
    remove_from_free_list a it =
      .ok { a with free_lists_ := flRemove c.size it a.free_lists_,
                   chunks_ := mapPut it { c with in_use := true } a.chunks_ } := by
  obtain ⟨l, hl, hmem⟩ := hm
  unfold remove_from_free_list flRemove
  simp only [hc, hl, Option.getD_some, hmem, if_true]

theorem remove_from_free_list_inv {a a' : Allocator} {it : Nat}
    (h : remove_from_free_list a it = .ok a') :
    ∃ c, mapFind it a.chunks_ = some c ∧ memFL a.free_lists_ c.size it ∧
      a' = { a with free_lists_ := flRemove c.size it a.free_lists_,
                    chunks_ := mapPut it { c with in_use := true } a.chunks_ } := by
  cases hc : mapFind it a.chunks_ with
  | none => simp [remove_from_free_list, hc] at h
  | some c =>
    by_cases hm : it ∈ (mapFind c.size a.free_lists_).getD []
    · have hm' : memFL a.free_lists_ c.size it := by
        cases hf : mapFind c.size a.free_lists_ with
        | none => simp [hf] at hm
        | some l => simp [hf] at hm; exact ⟨l, hf, hm⟩
      rw [remove_from_free_list_ok hc hm'] at h
      injection h with h
      exact ⟨c, rfl, hm', h.symm⟩
    · simp [remove_from_free_list, hc, hm] at h

theorem add_to_free_list_ok {a : Allocator} {it : Nat} {c : AllocatorChunk}
    (hc : mapFind it a.chunks_ = some c) :
    add_to_free_list a it =
      .ok { a with free_lists_ := flAdd c.size it a.free_lists_,
                   chunks_ := mapPut it { c with in_use := false } a.chunks_ } := by
  unfold add_to_free_list flAdd
  simp only [hc]

theorem add_to_chunk_map_ok {a : Allocator} {ac : AllocatorChunk}
    (hc : mapFind ac.address a.chunks_ = none) :
    add_to_chunk_map a ac = .ok ({ a with chunks_ := mapPut ac.address ac a.chunks_ }, ac.address) := by
  unfold add_to_chunk_map
  simp only [hc]

theorem set_size_ok {a : Allocator} {it : Nat} {c : AllocatorChunk} (sz : Nat)
    (hc : mapFind it a.chunks_ = some c) :
    set_size a it sz = .ok { a with chunks_ := mapPut it { c with size := sz } a.chunks_ } := by
  unfold set_size
  simp only [hc]

theorem set_in_use_ok {a : Allocator} {it : Nat} {c : AllocatorChunk} (b : Bool)
    (hc : mapFind it a.chunks_ = some c) :
    set_in_use a it b = .ok { a with chunks_ := mapPut it { c with in_use := b } a.chunks_ } := by
  unfold set_in_use
  simp only [hc]

theorem toInt64_eq {x : Int} (h1 : -2 ^ 63 ≤ x) (h2 : x < 2 ^ 63) : toInt64 x = x := by
  unfold toInt64
  omega

theorem toInt64_range (x : Int) : -2 ^ 63 ≤ toInt64 x ∧ toInt64 x < 2 ^ 63 := by
  unfold toInt64
  omega

theorem toSizeT_eq {x : Int} (h1 : 0 ≤ x) (h2 : x < 2 ^ 64) : toSizeT x = x.toNat := by
  unfold toSizeT
  congr 1
  omega

theorem toSizeT_natCast {n : Nat} (h : n < 2 ^ 64) : toSizeT (n : Int) = n := by
  unfold toSizeT
  omega

theorem toSizeT_neg {x : Int} (h1 : -2 ^ 63 ≤ x) (h2 : x < 0) : 2 ^ 63 ≤ toSizeT x := by
  unfold toSizeT
  omega

theorem or_step (x y w : Nat)
    (hy : ∀ i, y.testBit i = true ↔ ∃ j, i ≤ j ∧ j < i + w ∧ x.testBit j = true) :
    ∀ i, (y ||| (y >>> w)).testBit i = true ↔ ∃ j, i ≤ j ∧ j < i + (w + w) ∧ x.testBit j = true := by
  intro i
  rw [Nat.testBit_lor, Nat.testBit_shiftRight, Bool.or_eq_true, hy, hy]
  constructor
  · rintro (⟨j, h1, h2, h3⟩ | ⟨j, h1, h2, h3⟩)
    · exact ⟨j, h1, by omega, h3⟩
    · exact ⟨j, by omega, by omega, h3⟩
  · rintro ⟨j, h1, h2, h3⟩
    by_cases h : j < i + w
    · exact Or.inl ⟨j, h1, h, h3⟩
    · exact Or.inr ⟨j, by omega, by omega, h3⟩

theorem and_step (x y w : Nat)
    (hy : ∀ i, y.testBit i = true ↔ ∀ j, i ≤ j → j < i + w → x.testBit j = true) :
    ∀ i, (y &&& (y >>> w)).testBit i = true ↔ ∀ j, i ≤ j → j < i + (w + w) → x.testBit j = true := by
  intro i
  rw [Nat.testBit_land, Nat.testBit_shiftRight, Bool.and_eq_true, hy, hy]
  constructor
  · rintro ⟨h1, h2⟩ j hj1 hj2
    by_cases h : j < i + w
    · exact h1 j hj1 h
    · exact h2 j (by omega) (by omega)
  · intro h
    exact ⟨fun j h1 h2 => h j h1 (by omega), fun j h1 h2 => h j (by omega) (by omega)⟩

theorem smearOr_testBit (x i : Nat) :
    (smearOr x).testBit i = true ↔ ∃ j, i ≤ j ∧ j < i + 64 ∧ x.testBit j = true := by
  have h0 : ∀ i, x.testBit i = true ↔ ∃ j, i ≤ j ∧ j < i + 1 ∧ x.testBit j = true := by
    intro i
    constructor
    · intro h; exact ⟨i, le_refl _, by omega, h⟩
    · rintro ⟨j, h1, h2, h3⟩
      have : j = i := by omega
      rw [← this]; exact h3
  have h1 := or_step x _ 1 h0
  have h2 := or_step x _ 2 h1
  have h3 := or_step x _ 4 h2
  have h4 := or_step x _ 8 h3
  have h5 := or_step x _ 16 h4
  have h6 := or_step x _ 32 h5
  exact h6 i

theorem smearAnd_testBit (x i : Nat) :
    (smearAnd x).testBit i = true ↔ ∀ j, i ≤ j → j < i + 64 → x.testBit j = true := by
  have h0 : ∀ i, x.testBit i = true ↔ ∀ j, i ≤ j → j < i + 1 → x.testBit j = true := by
    intro i
    constructor
    · intro h j h1 h2
      have : j = i := by omega
      rw [this]; exact h
    · intro h; exact h i (le_refl _) (by omega)
  have h1 := and_step x _ 1 h0
  have h2 := and_step x _ 2 h1
  have h3 := and_step x _ 4 h2
  have h4 := and_step x _ 8 h3
  have h5 := and_step x _ 16 h4
  have h6 := and_step x _ 32 h5
  exact h6 i

theorem testBit_top {x m : Nat} (h1 : 2 ^ m ≤ x) (h2 : x < 2 ^ (m + 1)) : x.testBit m = true := by
  rw [Nat.testBit_to_div_mod]
  have : x / 2 ^ m = 1 := by
    apply Nat.div_eq_of_lt_le
    · simpa using h1
    · rw [pow_succ] at h2
      omega
  simp [this]

theorem smearOr_eq {x m : Nat} (h1 : 2 ^ m ≤ x) (h2 : x < 2 ^ (m + 1)) (hm : m < 64) :
    smearOr x = 2 ^ (m + 1) - 1 := by
  apply Nat.eq_of_testBit_eq
  intro i
  rw [Nat.testBit_two_pow_sub_one]
  by_cases hi : i < m + 1
  · simp only [hi, decide_True]
    rw [smearOr_testBit]
    exact ⟨m, by omega, by omega, testBit_top h1 h2⟩
  · simp only [hi, decide_False]
    rw [Bool.eq_false_iff]
    intro hc
    rw [smearOr_testBit] at hc
    obtain ⟨j, hj1, _, hj3⟩ := hc
    have := Nat.testBit_implies_ge hj3
    have : 2 ^ (m + 1) ≤ 2 ^ j := Nat.pow_le_pow_right (by norm_num) (by omega)
    omega

theorem smearAnd_eq {x : Nat} (h : x < 2 ^ 63) : smearAnd x = 0 := by
  apply Nat.eq_of_testBit_eq
  intro i
  rw [Nat.zero_testBit, Bool.eq_false_iff]
  intro hc
  rw [smearAnd_testBit] at hc
  have hb : x.testBit (max i 63) = true := hc (max i 63) (by omega) (by omega)
  have := Nat.testBit_implies_ge hb
  have : 2 ^ 63 ≤ 2 ^ (max i 63) := Nat.pow_le_pow_right (by norm_num) (by omega)
  omega

theorem npo2_nonneg {v : Int} {x : Nat} (h : toInt64 (v - 1) = (x : Int)) :
    next_largest_power_of_2 v = toInt64 ((smearOr x : Nat) + 1) := by
  unfold next_largest_power_of_2
  simp only [h]
  rfl

theorem npo2_neg {v : Int} {x : Nat} (h : toInt64 (v - 1) = Int.negSucc x) :
    next_largest_power_of_2 v = toInt64 (Int.negSucc (smearAnd x) + 1) := by
  unfold next_largest_power_of_2
  simp only [h]
  rfl

/-- The three possible outcomes of `next_largest_power_of_2` on any input: `0` (non-positive
input), a power of two up to `2 ^ 62`, or the wrapped-around `2 ^ 63`. -/
theorem npo2_cases (v : Int) :
    next_largest_power_of_2 v = 0 ∨ next_largest_power_of_2 v = -2 ^ 63 ∨
      ∃ j : Nat, j ≤ 62 ∧ next_largest_power_of_2 v = 2 ^ j := by
  have hr := toInt64_range (v - 1)
  cases hw : toInt64 (v - 1) with
  | ofNat x =>
    have hx : (x : Int) < 2 ^ 63 := by
      have := hr.2; rw [hw] at this; exact this
    have hx' : x < 2 ^ 63 := by exact_mod_cast hx
    rw [npo2_nonneg hw]
    by_cases h0 : x = 0
    · subst h0
      right; right
      exact ⟨0, by omega, by decide⟩
    · obtain ⟨m, hm1, hm2⟩ : ∃ m, 2 ^ m ≤ x ∧ x < 2 ^ (m + 1) :=
        ⟨Nat.log 2 x, Nat.pow_log_le_self 2 h0, Nat.lt_pow_succ_log_self (by norm_num) x⟩
      have hm : m < 63 := by
        by_contra hc
        have : 2 ^ 63 ≤ 2 ^ m := Nat.pow_le_pow_right (by norm_num) (by omega)
        omega
      rw [smearOr_eq hm1 hm2 (by omega)]
      have hpos : 0 < 2 ^ (m + 1) := Nat.pos_pow_of_pos _ (by norm_num)
      have e : (((2 ^ (m + 1) - 1 : Nat) : Int) + 1) = ((2 ^ (m + 1) : Nat) : Int) := by omega
      rw [e]
      by_cases h62 : m = 62
      · subst h62
        right; left
        decide
      · right; right
        refine ⟨m + 1, by omega, ?_⟩
        have hle : 2 ^ (m + 1) ≤ 2 ^ 62 := Nat.pow_le_pow_right (by norm_num) (by omega)
        rw [toInt64_eq]
        · push_cast; rfl
        · have : (0 : Int) ≤ ((2 ^ (m + 1) : Nat) : Int) := Int.ofNat_nonneg _
          omega
        · have : ((2 ^ (m + 1) : Nat) : Int) ≤ ((2 ^ 62 : Nat) : Int) := by exact_mod_cast hle
          omega
  | negSucc x =>
    have hx : -2 ^ 63 ≤ Int.negSucc x := by
      have := hr.1; rw [hw] at this; exact this
    have hx' : x < 2 ^ 63 := by
      have : Int.negSucc x = -((x : Int) + 1) := Int.negSucc_eq x
      omega
    rw [npo2_neg hw, smearAnd_eq hx']
    left
    decide

/-- On a request of `1` to `2 ^ 62` bytes `next_largest_power_of_2` returns the least power of
two that is not below the request. -/
theorem npo2_spec {v : Int} (h1 : 1 ≤ v) (h2 : v ≤ 2 ^ 62) :
    ∃ j : Nat, j ≤ 62 ∧ next_largest_power_of_2 v = 2 ^ j ∧ v ≤ 2 ^ j ∧
      ∀ i : Nat, v ≤ 2 ^ i → (2 : Int) ^ j ≤ 2 ^ i := by
  obtain ⟨x, hx⟩ : ∃ x : Nat, v - 1 = (x : Int) := ⟨(v - 1).toNat, by omega⟩
  have hw : toInt64 (v - 1) = (x : Int) := by
    rw [toInt64_eq (by omega) (by omega), hx]
  have hx' : x < 2 ^ 62 := by
    have : (x : Int) < 2 ^ 62 := by omega
    exact_mod_cast this
  rw [npo2_nonneg hw]
  by_cases h0 : x = 0
  · subst h0
    refine ⟨0, by omega, by decide, by omega, ?_⟩
    intro i _
    have : (1 : Int) ≤ 2 ^ i := one_le_pow₀ (by norm_num)
    simpa using this
  · obtain ⟨m, hm1, hm2⟩ : ∃ m, 2 ^ m ≤ x ∧ x < 2 ^ (m + 1) :=
      ⟨Nat.log 2 x, Nat.pow_log_le_self 2 h0, Nat.lt_pow_succ_log_self (by norm_num) x⟩
    have hm : m < 62 := by
      by_contra hc
      have : 2 ^ 62 ≤ 2 ^ m := Nat.pow_le_pow_right (by norm_num) (by omega)
      omega
    rw [smearOr_eq hm1 hm2 (by omega)]
    have hpos : 0 < 2 ^ (m + 1) := Nat.pos_pow_of_pos _ (by norm_num)
    have e : (((2 ^ (m + 1) - 1 : Nat) : Int) + 1) = ((2 ^ (m + 1) : Nat) : Int) := by omega
    rw [e]
    have hle : 2 ^ (m + 1) ≤ 2 ^ 62 := Nat.pow_le_pow_right (by norm_num) (by omega)
    have hle' : ((2 ^ (m + 1) : Nat) : Int) ≤ ((2 ^ 62 : Nat) : Int) := by exact_mod_cast hle
    have hnn : (0 : Int) ≤ ((2 ^ (m + 1) : Nat) : Int) := Int.ofNat_nonneg _
    have hc : ((2 ^ (m + 1) : Nat) : Int) = (2 : Int) ^ (m + 1) := by push_cast; rfl
    refine ⟨m + 1, by omega, ?_, ?_, ?_⟩
    · rw [toInt64_eq (by omega) (by omega), hc]
    · rw [← hc]
      have : (x : Int) < ((2 ^ (m + 1) : Nat) : Int) := by exact_mod_cast hm2
      omega
    · intro i hi
      have hi' : x < 2 ^ i := by
        have : (x : Int) < ((2 ^ i : Nat) : Int) := by push_cast; omega
        exact_mod_cast this
      have : m < i := by
        by_contra hc2
        have : 2 ^ i ≤ 2 ^ m := Nat.pow_le_pow_right (by norm_num) (by omega)
        omega
      exact pow_le_pow_right₀ (by norm_num) (by omega)

theorem mapErase_mapPut_same {β : Type} {k : Nat} {v : β} {m : List (Nat × β)}
    (hs : KeysSorted m) : mapErase k (mapPut k v m) = mapErase k m := by
  apply map_ext (keysSorted_mapErase (keysSorted_mapPut hs)) (keysSorted_mapErase hs)
  intro k'
  rw [mapFind_mapErase k' (keysSorted_mapPut hs), mapFind_mapErase k' hs, mapFind_mapPut]
  by_cases e : k' = k
  · simp [e]
  · simp [e]

theorem mapPut_comm_erase {β : Type} {k k2 : Nat} {v : β} {m : List (Nat × β)}
    (hs : KeysSorted m) (hne : k ≠ k2) :
    mapPut k v (mapErase k2 m) = mapErase k2 (mapPut k v m) := by
  apply map_ext (keysSorted_mapPut (keysSorted_mapErase hs))
    (keysSorted_mapErase (keysSorted_mapPut hs))
  intro k'
  rw [mapFind_mapErase k' (keysSorted_mapPut hs), mapFind_mapPut, mapFind_mapPut,
    mapFind_mapErase k' hs]
  by_cases e : k' = k
  · subst e; simp [hne]
  · simp [e]

theorem subdivide_step {a : Allocator} {cmit : Nat} {c : AllocatorChunk} {cs B : Int}
    (fuel : Nat) (hgt : cs > B)
    (hc : mapFind cmit a.chunks_ = some c) (hm : memFL a.free_lists_ c.size cmit)
    (hnew : mapFind (c.address + toSizeT (Int.tdiv cs 2)) a.chunks_ = none) :
    Allocator.subdivide (fuel + 1) a cmit cs B =
      Allocator.subdivide fuel (splitState a cmit c (toSizeT (Int.tdiv cs 2)))
        (c.address + toSizeT (Int.tdiv cs 2)) (Int.tdiv cs 2) B := by
  have hne : ¬ (c.address + toSizeT (Int.tdiv cs 2) = cmit) := by
    intro e
    rw [e, hc] at hnew
    cases hnew
  rw [Allocator.subdivide]
  simp only [hgt, if_true]
  rw [remove_from_free_list_ok hc hm]
  simp only [bind, Except.bind]
  rw [set_size_ok _ (by simp [mapFind_mapPut] : mapFind cmit _ = some { c with in_use := true })]
  simp only []
  rw [add_to_free_list_ok (by simp [mapFind_mapPut] :
    mapFind cmit _ = some { in_use := true, address := c.address, size := toSizeT (Int.tdiv cs 2) })]
  simp only [mapFind_mapPut, if_true, mapPut_mapPut]
  rw [add_to_chunk_map_ok (by simp [mapFind_mapPut, hne, hnew])]
  simp only []
  rw [add_to_free_list_ok (by simp [mapFind_mapPut] :
    mapFind (c.address + toSizeT (Int.tdiv cs 2)) _ =
      some { in_use := false, address := c.address + toSizeT (Int.tdiv cs 2),
             size := toSizeT (Int.tdiv cs 2) })]
  simp only [mapPut_mapPut]
  rfl

theorem subdivide_stop {a : Allocator} {cmit : Nat} {cs B : Int} (fuel : Nat) (h : ¬ cs > B) :
    Allocator.subdivide (fuel + 1) a cmit cs B = .ok (a, cmit) := by
  rw [Allocator.subdivide]
  simp only [h, if_false]

theorem try_merge_stop_none {a : Allocator} {cmit : Nat} {c : AllocatorChunk} (fuel : Nat)
    (hc : mapFind cmit a.chunks_ = some c)
    (hb : mapFind (c.address ^^^ c.size) a.chunks_ = none) :
    try_merge_buddy_recursive (fuel + 1) a cmit = .ok a := by
  rw [try_merge_buddy_recursive]
  simp only [hc, hb]

theorem try_merge_stop_some {a : Allocator} {cmit : Nat} {c b : AllocatorChunk} (fuel : Nat)
    (hc : mapFind cmit a.chunks_ = some c)
    (hb : mapFind (c.address ^^^ c.size) a.chunks_ = some b)
    (hn : ¬ (b.size = c.size ∧ b.in_use = false)) :
    try_merge_buddy_recursive (fuel + 1) a cmit = .ok a := by
  rw [try_merge_buddy_recursive]
  simp only [hc, hb, hn, if_false]

theorem try_merge_step {a : Allocator} {cmit lo hi : Nat} {c b l h : AllocatorChunk} (fuel : Nat)
    (hs : KeysSorted a.chunks_) (hfl : FLOK a.free_lists_)
    (hc : mapFind cmit a.chunks_ = some c)
    (hb : mapFind (c.address ^^^ c.size) a.chunks_ = some b)
    (hsz : b.size = c.size) (hfree : b.in_use = false)
    (hcase : (c.address < c.address ^^^ c.size ∧ lo = cmit ∧ hi = c.address ^^^ c.size ∧
                l = c ∧ h = b) ∨
             (¬ c.address < c.address ^^^ c.size ∧ lo = c.address ^^^ c.size ∧ hi = cmit ∧
                l = b ∧ h = c))
    (hne : lo ≠ hi)
    (hml : memFL a.free_lists_ l.size lo) (hmh : memFL a.free_lists_ h.size hi) :
    try_merge_buddy_recursive (fuel + 1) a cmit =
      try_merge_buddy_recursive fuel (mergedState a lo hi l) lo := by
  have hl : mapFind lo a.chunks_ = some l := by
    rcases hcase with ⟨_, e1, _, e3, _⟩ | ⟨_, e1, _, e3, _⟩
    · rw [e1, e3]; exact hc
    · rw [e1, e3]; exact hb
  have hh : mapFind hi a.chunks_ = some h := by
    rcases hcase with ⟨_, _, e2, _, e4⟩ | ⟨_, _, e2, _, e4⟩
    · rw [e2, e4]; exact hb
    · rw [e2, e4]; exact hc
  have hlh : h.size = l.size := by
    rcases hcase with ⟨_, _, _, e3, e4⟩ | ⟨_, _, _, e3, e4⟩
    · rw [e3, e4]; exact hsz
    · rw [e3, e4]; exact hsz.symm
  have ehi : (if c.address < c.address ^^^ c.size then c.address ^^^ c.size else cmit) = hi := by
    rcases hcase with ⟨e0, _, e2, _, _⟩ | ⟨e0, _, e2, _, _⟩
    · simp only [e0, if_true]; exact e2.symm
    · simp only [e0, if_false]; exact e2.symm
  have elo : (if c.address < c.address ^^^ c.size then cmit else c.address ^^^ c.size) = lo := by
    rcases hcase with ⟨e0, e1, _, _, _⟩ | ⟨e0, e1, _, _, _⟩
    · simp only [e0, if_true]; exact e1.symm
    · simp only [e0, if_false]; exact e1.symm
  rw [try_merge_buddy_recursive]
  simp only [hc, hb, hsz, hfree, and_self, if_true, ehi, elo]
  rw [remove_from_free_list_ok hh hmh]
  simp only [bind, Except.bind]
  rw [mapErase_mapPut_same hs]
  have hl2 : mapFind lo (mapErase hi a.chunks_) = some l := by
    rw [mapFind_mapErase lo hs]; simp [hne, hl]
  have hml2 : memFL (flRemove h.size hi a.free_lists_) l.size lo := by
    rw [memFL_flRemove hfl]
    exact ⟨hml, fun e => hne e.2⟩
  rw [remove_from_free_list_ok (show mapFind lo
      ({ a with free_lists_ := flRemove h.size hi a.free_lists_,
                chunks_ := mapErase hi a.chunks_ } : Allocator).chunks_ = some l from hl2) hml2]
  simp only [mapFind_mapPut, if_true]
  rw [set_size_ok _ (by simp [mapFind_mapPut] : mapFind lo _ = some { l with in_use := true })]
  simp only []
  rw [add_to_free_list_ok (by simp [mapFind_mapPut] :
    mapFind lo _ = some { in_use := true, address := l.address, size := (l.size * 2) % 2 ^ 64 })]
  simp only [mapPut_mapPut, hlh]
  rfl

theorem free_eq {a : Allocator} {p : Int} {c : AllocatorChunk}
    (hp : 0 ≤ toInt64 (p - a.base_))
    (hc : mapFind (toInt64 (p - a.base_)).toNat a.chunks_ = some c) (hu : c.in_use = true)
    (hs : KeysSorted a.chunks_) :
    Allocator.free a p =
      try_merge_buddy_recursive a.chunks_.length
        (freedState a (toInt64 (p - a.base_)).toNat c) (toInt64 (p - a.base_)).toNat := by
  unfold Allocator.free
  have : ¬ toInt64 (p - a.base_) < 0 := by omega
  simp only [this, if_false, hc, hu, if_true]
  rw [add_to_free_list_ok hc]
  simp only [bind, Except.bind, freedState]
  rw [length_mapPut_of_some hs hc]

theorem free_invalid {a : Allocator} {p : Int}
    (h : toInt64 (p - a.base_) < 0 ∨
         mapFind (toInt64 (p - a.base_)).toNat a.chunks_ = none ∨
         ∃ c, mapFind (toInt64 (p - a.base_)).toNat a.chunks_ = some c ∧ c.in_use = false) :
    Allocator.free a p = .error .InvalidFree := by
  unfold Allocator.free
  by_cases h0 : toInt64 (p - a.base_) < 0
  · simp [h0]
  · simp only [h0, if_false]
    rcases h with h | h | ⟨c, h1, h2⟩
    · exact absurd h h0
    · simp [h]
    · simp [h1, h2]

theorem ChunksOK.size_pos {N : Nat} {cm : ChunkMap} (h : ChunksOK N cm) {k : Nat}
    {c : AllocatorChunk} (hc : mapFind k cm = some c) : 0 < c.size := by
  obtain ⟨j, hj⟩ := h.pow2 k c hc
  rw [hj]
  exact Nat.pos_pow_of_pos _ (by norm_num)

theorem ChunksOK_flag {N : Nat} {cm : ChunkMap} (h : ChunksOK N cm) {k : Nat}
    {c : AllocatorChunk} (hc : mapFind k cm = some c) (b : Bool) :
    ChunksOK N (mapPut k { c with in_use := b } cm) := by
  have view : ∀ k' c', mapFind k' (mapPut k { c with in_use := b } cm) = some c' →
      ∃ c0, mapFind k' cm = some c0 ∧ c'.address = c0.address ∧ c'.size = c0.size := by
    intro k' c' h'
    rw [mapFind_mapPut] at h'
    by_cases e : k' = k
    · subst e
      simp only [if_true] at h'
      injection h' with h'
      subst h'
      exact ⟨c, hc, rfl, rfl⟩
    · simp only [e, if_false] at h'
      exact ⟨c', h', rfl, rfl⟩
  refine ⟨keysSorted_mapPut h.sorted, ?_, ?_, ?_, ?_, ?_⟩
  · intro k' c' h'
    obtain ⟨c0, h0, e1, _⟩ := view k' c' h'
    rw [e1]; exact h.addr k' c0 h0
  · intro k' c' h'
    obtain ⟨c0, h0, _, e2⟩ := view k' c' h'
    rw [e2]; exact h.pow2 k' c0 h0
  · intro k' c' h'
    obtain ⟨c0, h0, _, e2⟩ := view k' c' h'
    rw [e2]; exact h.bound k' c0 h0
  · intro k1 c1 k2 c2 h1 h2 hlt
    obtain ⟨d1, g1, _, e1⟩ := view k1 c1 h1
    obtain ⟨d2, g2, _, _⟩ := view k2 c2 h2
    rw [e1]; exact h.disj k1 d1 k2 d2 g1 g2 hlt
  · have := mapSum_mapPut_of_some (fun c => c.size) (v := { c with in_use := b }) h.sorted hc
    have t := h.total
    simp only at this
    omega

theorem ChunksOK_split {N : Nat} {cm : ChunkMap} (h : ChunksOK N cm) {k sz : Nat}
    {c : AllocatorChunk} (hc : mapFind k cm = some c) (hsz : c.size = 2 * sz)
    (hp : ∃ j : Nat, sz = 2 ^ j) :
    ChunksOK N (mapPut (c.address + sz) ⟨false, c.address + sz, sz⟩
      (mapPut k ⟨false, c.address, sz⟩ cm)) := by
  have hk : c.address = k := h.addr k c hc
  have hpos : 0 < sz := by
    obtain ⟨j, hj⟩ := hp
    rw [hj]; exact Nat.pos_pow_of_pos _ (by norm_num)
  have hb := h.bound k c hc
  have view : ∀ k' c', mapFind k' (mapPut (c.address + sz) ⟨false, c.address + sz, sz⟩
      (mapPut k ⟨false, c.address, sz⟩ cm)) = some c' →
      (k' = k + sz ∧ c' = ⟨false, k + sz, sz⟩) ∨ (k' = k ∧ c' = ⟨false, k, sz⟩) ∨
      (k' ≠ k ∧ k' ≠ k + sz ∧ mapFind k' cm = some c') := by
    intro k' c' h'
    rw [mapFind_mapPut, mapFind_mapPut, hk] at h'
    by_cases e1 : k' = k + sz
    · simp only [e1, if_true] at h'
      injection h' with h'
      exact Or.inl ⟨e1, h'.symm⟩
    · simp only [e1, if_false] at h'
      by_cases e2 : k' = k
      · simp only [e2, if_true] at h'
        injection h' with h'
        exact Or.inr (Or.inl ⟨e2, h'.symm⟩)
      · simp only [e2, if_false] at h'
        exact Or.inr (Or.inr ⟨e2, e1, h'⟩)
  have hnone : mapFind (k + sz) cm = none := by
    cases hf : mapFind (k + sz) cm with
    | none => rfl
    | some d =>
      have := h.disj k c (k + sz) d hc hf (by omega)
      omega
  refine ⟨keysSorted_mapPut (keysSorted_mapPut h.sorted), ?_, ?_, ?_, ?_, ?_⟩
  · intro k' c' h'
    rcases view k' c' h' with ⟨e, rfl⟩ | ⟨e, rfl⟩ | ⟨_, _, h0⟩
    · exact e.symm
    · exact e.symm
    · exact h.addr k' c' h0
  · intro k' c' h'
    rcases view k' c' h' with ⟨e, rfl⟩ | ⟨e, rfl⟩ | ⟨_, _, h0⟩
    · exact hp
    · exact hp
    · exact h.pow2 k' c' h0
  · intro k' c' h'
    rcases view k' c' h' with ⟨e, rfl⟩ | ⟨e, rfl⟩ | ⟨_, _, h0⟩
    · simp only; omega
    · simp only; omega
    · exact h.bound k' c' h0
  · intro k1 c1 k2 c2 h1 h2 hlt
    rcases view k1 c1 h1 with ⟨e1, rfl⟩ | ⟨e1, rfl⟩ | ⟨n1, n1', g1⟩ <;>
    rcases view k2 c2 h2 with ⟨e2, rfl⟩ | ⟨e2, rfl⟩ | ⟨n2, n2', g2⟩ <;> (try simp only)
    · omega
    · omega
    · have := h.disj k c k2 c2 hc g2 (by omega)
      omega
    · omega
    · omega
    · have := h.disj k c k2 c2 hc g2 (by omega)
      omega
    · by_cases hlt' : k1 < k
      · have := h.disj k1 c1 k c g1 hc hlt'
        omega
      · have := h.disj k c k1 c1 hc g1 (by omega)
        omega
    · have := h.disj k1 c1 k c g1 hc (by omega)
      omega
    · exact h.disj k1 c1 k2 c2 g1 g2 hlt
  · have s1 := mapSum_mapPut_of_some (fun c => c.size) (v := ⟨false, c.address, sz⟩) h.sorted hc
    have hnone' : mapFind (c.address + sz) (mapPut k ⟨false, c.address, sz⟩ cm) = none := by
      rw [mapFind_mapPut, hk]
      have : ¬ k + sz = k := by omega
      simp only [this, if_false]
      exact hnone
    have s2 := mapSum_mapPut_of_none (fun c => c.size)
      (v := ⟨false, c.address + sz, sz⟩) hnone'
    have t := h.total
    simp only at s1 s2
    omega

theorem ChunksOK_merge {N : Nat} {cm : ChunkMap} (h : ChunksOK N cm) {lo hi : Nat}
    {l hh : AllocatorChunk} (hl : mapFind lo cm = some l) (hh' : mapFind hi cm = some hh)
    (hadj : hi = lo + l.size) (hsz : hh.size = l.size) (hN : N < 2 ^ 64) :
    ChunksOK N (mapPut lo ⟨false, l.address, (l.size * 2) % 2 ^ 64⟩ (mapErase hi cm)) := by
  have hk : l.address = lo := h.addr lo l hl
  have hpos : 0 < l.size := h.size_pos hl
  have hbh := h.bound hi hh hh'
  have hmod : (l.size * 2) % 2 ^ 64 = l.size * 2 := by
    apply Nat.mod_eq_of_lt
    omega
  rw [hmod, hk]
  have view : ∀ k' c', mapFind k' (mapPut lo ⟨false, lo, l.size * 2⟩ (mapErase hi cm)) = some c' →
      (k' = lo ∧ c' = ⟨false, lo, l.size * 2⟩) ∨
      (k' ≠ lo ∧ k' ≠ hi ∧ mapFind k' cm = some c') := by
    intro k' c' h'
    rw [mapFind_mapPut, mapFind_mapErase k' h.sorted] at h'
    by_cases e1 : k' = lo
    · simp only [e1, if_true] at h'
      injection h' with h'
      exact Or.inl ⟨e1, h'.symm⟩
    · simp only [e1, if_false] at h'
      by_cases e2 : k' = hi
      · simp [e2] at h'
      · simp only [e2, if_false] at h'
        exact Or.inr ⟨e1, e2, h'⟩
  refine ⟨keysSorted_mapPut (keysSorted_mapErase h.sorted), ?_, ?_, ?_, ?_, ?_⟩
  · intro k' c' h'
    rcases view k' c' h' with ⟨e, rfl⟩ | ⟨_, _, h0⟩
    · exact e.symm
    · exact h.addr k' c' h0
  · intro k' c' h'
    rcases view k' c' h' with ⟨e, rfl⟩ | ⟨_, _, h0⟩
    · obtain ⟨j, hj⟩ := h.pow2 lo l hl
      exact ⟨j + 1, by simp only [hj, pow_succ]⟩
    · exact h.pow2 k' c' h0
  · intro k' c' h'
    rcases view k' c' h' with ⟨e, rfl⟩ | ⟨_, _, h0⟩
    · simp only; omega
    · exact h.bound k' c' h0
  · intro k1 c1 k2 c2 h1 h2 hlt
    rcases view k1 c1 h1 with ⟨e1, rfl⟩ | ⟨n1, n1', g1⟩ <;>
    rcases view k2 c2 h2 with ⟨e2, rfl⟩ | ⟨n2, n2', g2⟩ <;> (try simp only)
    · omega
    · have a1 := h.disj lo l k2 c2 hl g2 (by omega)
      have a2 := h.disj hi hh k2 c2 hh' g2 (by omega)
      omega
    · have a1 := h.disj k1 c1 lo l g1 hl (by omega)
      omega
    · exact h.disj k1 c1 k2 c2 g1 g2 hlt
  · have s1 := mapSum_mapErase (fun c => c.size) hh'
    have hl2 : mapFind lo (mapErase hi cm) = some l := by
      rw [mapFind_mapErase lo h.sorted]
      have : ¬ lo = hi := by omega
      simp [this, hl]
    have s2 := mapSum_mapPut_of_some (fun c => c.size) (v := ⟨false, lo, l.size * 2⟩)
      (keysSorted_mapErase h.sorted) hl2
    have t := h.total
    simp only at s1 s2
    omega

theorem ChunksOK_insert {off : Nat} {cm : ChunkMap} (h : ChunksOK off cm) {sz : Nat}
    (hp : ∃ j : Nat, sz = 2 ^ j) :
    ChunksOK (off + sz) (mapPut off ⟨false, off, sz⟩ cm) := by
  have hnone : mapFind off cm = none := by
    cases hf : mapFind off cm with
    | none => rfl
    | some d =>
      have := h.bound off d hf
      have := h.size_pos hf
      omega
  have view : ∀ k' c', mapFind k' (mapPut off ⟨false, off, sz⟩ cm) = some c' →
      (k' = off ∧ c' = ⟨false, off, sz⟩) ∨ (k' ≠ off ∧ mapFind k' cm = some c') := by
    intro k' c' h'
    rw [mapFind_mapPut] at h'
    by_cases e1 : k' = off
    · simp only [e1, if_true] at h'
      injection h' with h'
      exact Or.inl ⟨e1, h'.symm⟩
    · simp only [e1, if_false] at h'
      exact Or.inr ⟨e1, h'⟩
  refine ⟨keysSorted_mapPut h.sorted, ?_, ?_, ?_, ?_, ?_⟩
  · intro k' c' h'
    rcases view k' c' h' with ⟨e, rfl⟩ | ⟨_, h0⟩
    · exact e.symm
    · exact h.addr k' c' h0
  · intro k' c' h'
    rcases view k' c' h' with ⟨e, rfl⟩ | ⟨_, h0⟩
    · exact hp
    · exact h.pow2 k' c' h0
  · intro k' c' h'
    rcases view k' c' h' with ⟨e, rfl⟩ | ⟨_, h0⟩
    · simp only; omega
    · have := h.bound k' c' h0
      omega
  · intro k1 c1 k2 c2 h1 h2 hlt
    rcases view k1 c1 h1 with ⟨e1, rfl⟩ | ⟨n1, g1⟩ <;>
    rcases view k2 c2 h2 with ⟨e2, rfl⟩ | ⟨n2, g2⟩ <;> (try simp only)
    · omega
    · have := h.bound k2 c2 g2
      have := h.size_pos g2
      omega
    · have := h.bound k1 c1 g1
      omega
    · exact h.disj k1 c1 k2 c2 g1 g2 hlt
  · have s2 := mapSum_mapPut_of_none (fun c => c.size) (v := ⟨false, off, sz⟩) hnone
    have t := h.total
    simp only at s2
    omega

/-- The buddy address `k ^ 2^j` is `k + 2^j` when bit `j` of `k` is clear and `k - 2^j` when it
is set. -/
theorem xor_two_pow (j : Nat) : ∀ k : Nat,
    (k ^^^ 2 ^ j = k + 2 ^ j ∧ k % 2 ^ (j + 1) < 2 ^ j) ∨
    ((k ^^^ 2 ^ j) + 2 ^ j = k ∧ 2 ^ j ≤ k % 2 ^ (j + 1)) := by
  induction j with
  | zero =>
    intro k
    have h1 : (k ^^^ 2 ^ 0) / 2 = k / 2 := by
      rw [Nat.xor_div_two]; simp
    have h2 : (k ^^^ 2 ^ 0) % 2 = (k + 1) % 2 := by
      rw [Nat.xor_mod_two_eq]; simp
    simp only [pow_zero, zero_add, pow_one] at h1 h2 ⊢
    omega
  | succ j ih =>
    intro k
    have h1 : (k ^^^ 2 ^ (j + 1)) / 2 = k / 2 ^^^ 2 ^ j := by
      rw [Nat.xor_div_two, pow_succ]; simp
    have h2 : (k ^^^ 2 ^ (j + 1)) % 2 = k % 2 := by
      rw [Nat.xor_mod_two_eq, pow_succ]; omega
    have hm : k % 2 ^ (j + 1 + 1) = k % 2 + 2 * (k / 2 % 2 ^ (j + 1)) := by
      rw [pow_succ 2 (j + 1), mul_comm, Nat.mod_mul]
    have hp : 2 ^ (j + 1) = 2 * 2 ^ j := by rw [pow_succ]; ring
    have ih' := ih (k / 2)
    generalize k ^^^ 2 ^ (j + 1) = x at h1 h2 ⊢
    generalize k / 2 ^^^ 2 ^ j = y at h1 ih'
    generalize k % 2 ^ (j + 1 + 1) = r at hm ⊢
    generalize k / 2 % 2 ^ (j + 1) = t at hm ih'
    generalize 2 ^ (j + 1) = q at hp ih' ⊢
    generalize 2 ^ j = p at hp ih' ⊢
    omega

theorem xor_two_pow_adj (j k : Nat) : k ^^^ 2 ^ j = k + 2 ^ j ∨ (k ^^^ 2 ^ j) + 2 ^ j = k := by
  rcases xor_two_pow j k with ⟨h, _⟩ | ⟨h, _⟩
  · exact Or.inl h
  · exact Or.inr h

theorem xor_eq_iff {k1 k2 s : Nat} : k1 ^^^ k2 = s ↔ k2 = k1 ^^^ s := by
  constructor
  · intro h; rw [← h, Nat.xor_cancel_left]
  · intro h; rw [h, Nat.xor_cancel_left]

theorem Inv_used {N : Nat} {a : Allocator} (h : Inv N a) {cmit : Nat} {c : AllocatorChunk}
    (hc : mapFind cmit a.chunks_ = some c) : Inv N (usedState a cmit c) := by
  refine ⟨ChunksOK_flag h.chunks hc true, FLOK_flRemove h.fl, ?_⟩
  intro S k
  unfold usedState
  simp only
  rw [memFL_flRemove h.fl, mapFind_mapPut, h.flc S k]
  by_cases e : k = cmit
  · subst e
    simp only [if_true]
    constructor
    · rintro ⟨⟨c', h1, h2, h3⟩, hn⟩
      rw [hc] at h1
      injection h1 with h1
      subst h1
      exact absurd ⟨h2.symm, trivial⟩ hn
    · rintro ⟨c', h1, h2, h3⟩
      injection h1 with h1
      subst h1
      simp at h3
  · simp [e]

theorem Inv_freed {N : Nat} {a : Allocator} (h : Inv N a) {it : Nat} {c : AllocatorChunk}
    (hc : mapFind it a.chunks_ = some c) (hu : c.in_use = true) :
    Inv N (freedState a it c) := by
  have hnm : ¬ memFL a.free_lists_ c.size it := by
    intro hm
    obtain ⟨c', h1, _, h3⟩ := (h.flc _ _).mp hm
    rw [hc] at h1
    injection h1 with h1
    subst h1
    rw [hu] at h3
    cases h3
  refine ⟨ChunksOK_flag h.chunks hc false, FLOK_flAdd h.fl hnm, ?_⟩
  intro S k
  unfold freedState
  simp only
  rw [memFL_flAdd, mapFind_mapPut, h.flc S k]
  by_cases e : k = it
  · subst e
    simp only [if_true, and_true]
    constructor
    · rintro (⟨c', h1, h2, h3⟩ | h1)
      · rw [hc] at h1
        injection h1 with h1
        subst h1
        rw [hu] at h3
        cases h3
      · exact ⟨_, rfl, h1.symm, rfl⟩
    · rintro ⟨c', h1, h2, h3⟩
      injection h1 with h1
      subst h1
      exact Or.inr h2.symm
  · simp [e]

theorem Inv_split {N : Nat} {a : Allocator} (h : Inv N a) {cmit sz : Nat} {c : AllocatorChunk}
    (hc : mapFind cmit a.chunks_ = some c) (hsz : c.size = 2 * sz)
    (hp : ∃ j : Nat, sz = 2 ^ j) : Inv N (splitState a cmit c sz) := by
  have hk : c.address = cmit := h.chunks.addr cmit c hc
  have hpos : 0 < sz := by
    obtain ⟨j, hj⟩ := hp
    rw [hj]; exact Nat.pos_pow_of_pos _ (by norm_num)
  have hnone : mapFind (cmit + sz) a.chunks_ = none := by
    cases hf' : mapFind (cmit + sz) a.chunks_ with
    | none => rfl
    | some d =>
      have := h.chunks.disj cmit c (cmit + sz) d hc hf' (by omega)
      omega
  have f1 : FLOK (flRemove c.size cmit a.free_lists_) := FLOK_flRemove h.fl
  have n1 : ¬ memFL (flRemove c.size cmit a.free_lists_) sz cmit := by
    rw [memFL_flRemove h.fl, h.flc]
    rintro ⟨⟨c', h1, h2, _⟩, _⟩
    rw [hc] at h1
    injection h1 with h1
    subst h1
    omega
  have f2 : FLOK (flAdd sz cmit (flRemove c.size cmit a.free_lists_)) := FLOK_flAdd f1 n1
  have n2 : ¬ memFL (flAdd sz cmit (flRemove c.size cmit a.free_lists_)) sz (cmit + sz) := by
    rw [memFL_flAdd, memFL_flRemove h.fl, h.flc]
    rintro (⟨⟨c', h1, _, _⟩, _⟩ | ⟨_, h1⟩)
    · rw [hnone] at h1; cases h1
    · omega
  refine ⟨ChunksOK_split h.chunks hc hsz hp, ?_, ?_⟩
  · unfold splitState
    simp only
    rw [hk]
    exact FLOK_flAdd f2 n2
  · intro S k
    unfold splitState
    simp only
    rw [hk, memFL_flAdd, memFL_flAdd, memFL_flRemove h.fl, mapFind_mapPut, mapFind_mapPut,
      h.flc S k]
    by_cases e1 : k = cmit + sz
    · subst e1
      have e2 : ¬ cmit + sz = cmit := by omega
      simp only [if_true, hnone, e2, and_false, and_true, or_false, false_and, false_or]
      constructor
      · rintro (⟨⟨c', h1, _⟩, _⟩ | h1)
        · cases h1
        · exact ⟨_, rfl, h1.symm, rfl⟩
      · rintro ⟨c', h1, h2, _⟩
        injection h1 with h1
        subst h1
        exact Or.inr h2.symm
    · simp only [e1, if_false, and_false, or_false]
      by_cases e2 : k = cmit
      · subst e2
        simp only [if_true, and_true, hc]
        constructor
        · rintro (⟨⟨c', h1, h2, _⟩, hn⟩ | h1)
          · injection h1 with h1
            subst h1
            exact absurd h2.symm hn
          · exact ⟨_, rfl, h1.symm, rfl⟩
        · rintro ⟨c', h1, h2, _⟩
          injection h1 with h1
          subst h1
          exact Or.inr h2.symm
      · simp [e2]

theorem Inv_merged {N : Nat} {a : Allocator} (h : Inv N a) (hN : N < 2 ^ 64) {lo hi : Nat}
    {l hh : AllocatorChunk} (hl : mapFind lo a.chunks_ = some l)
    (hh' : mapFind hi a.chunks_ = some hh) (hadj : hi = lo + l.size) (hsz : hh.size = l.size) :
    Inv N (mergedState a lo hi l) := by
  have hpos : 0 < l.size := h.chunks.size_pos hl
  have hbh := h.chunks.bound hi hh hh'
  have hmod : (l.size * 2) % 2 ^ 64 = l.size * 2 := by
    apply Nat.mod_eq_of_lt
    omega
  have hne : ¬ lo = hi := by omega
  have f1 : FLOK (flRemove l.size hi a.free_lists_) := FLOK_flRemove h.fl
  have f2 : FLOK (flRemove l.size lo (flRemove l.size hi a.free_lists_)) := FLOK_flRemove f1
  have n2 : ¬ memFL (flRemove l.size lo (flRemove l.size hi a.free_lists_)) (l.size * 2) lo := by
    rw [memFL_flRemove f1, memFL_flRemove h.fl, h.flc]
    rintro ⟨⟨⟨c', h1, h2, _⟩, _⟩, _⟩
    rw [hl] at h1
    injection h1 with h1
    subst h1
    omega
  refine ⟨ChunksOK_merge h.chunks hl hh' hadj hsz hN, ?_, ?_⟩
  · unfold mergedState
    simp only
    rw [hmod]
    exact FLOK_flAdd f2 n2
  · intro S k
    unfold mergedState
    simp only
    rw [hmod, memFL_flAdd, memFL_flRemove f1, memFL_flRemove h.fl, mapFind_mapPut,
      mapFind_mapErase k h.chunks.sorted, h.flc S k]
    by_cases e1 : k = lo
    · subst e1
      simp only [if_true, and_true, hl, hne, and_false, not_false_eq_true]
      constructor
      · rintro (⟨⟨c', h1, h2, _⟩, hn⟩ | h1)
        · injection h1 with h1
          subst h1
          exact absurd h2.symm hn
        · exact ⟨_, rfl, h1.symm, rfl⟩
      · rintro ⟨c', h1, h2, _⟩
        injection h1 with h1
        subst h1
        exact Or.inr h2.symm
    · simp only [e1, if_false, and_false, or_false, not_false_eq_true, and_true]
      by_cases e2 : k = hi
      · subst e2
        simp only [if_true, hh', and_true]
        constructor
        · rintro ⟨⟨c', h1, h2, _⟩, hn⟩
          injection h1 with h1
          subst h1
          rw [hsz] at h2
          exact absurd h2.symm hn
        · rintro ⟨c', h1, _⟩
          cases h1
      · simp [e2]

theorem SameUsed.refl (a : Allocator) : SameUsed a a := fun _ _ _ => Iff.rfl

theorem SameUsed.trans {a b c : Allocator} (h1 : SameUsed a b) (h2 : SameUsed b c) :
    SameUsed a c := fun k x hx => (h2 k x hx).trans (h1 k x hx)

theorem mapSum_use_free (cm : ChunkMap) :
    mapSum useSize cm + mapSum freeSize cm = mapSum (fun c => c.size) cm := by
  induction cm with
  | nil => rfl
  | cons p m ih =>
    simp only [mapSum, List.map_cons, List.sum_cons, useSize, freeSize] at ih ⊢
    split <;> omega

theorem mapSum_le {β : Type} (f : β → Nat) {k : Nat} {c : β} {m : List (Nat × β)}
    (h : mapFind k m = some c) : f c ≤ mapSum f m := by
  have := mapSum_mapErase f h
  omega

/-! ### Effect of the four state changes on the byte counts and on the chunks in use -/

theorem used_useSum {N : Nat} {a : Allocator} (h : Inv N a) {cmit : Nat} {c : AllocatorChunk}
    (hc : mapFind cmit a.chunks_ = some c) (hf : c.in_use = false) :
    mapSum useSize (usedState a cmit c).chunks_ = mapSum useSize a.chunks_ + c.size := by
  have := mapSum_mapPut_of_some useSize (v := { c with in_use := true }) h.chunks.sorted hc
  simp only [useSize, hf] at this
  simpa [usedState, useSize] using this

theorem freed_useSum {N : Nat} {a : Allocator} (h : Inv N a) {it : Nat} {c : AllocatorChunk}
    (hc : mapFind it a.chunks_ = some c) (hu : c.in_use = true) :
    mapSum useSize (freedState a it c).chunks_ + c.size = mapSum useSize a.chunks_ := by
  have := mapSum_mapPut_of_some useSize (v := { c with in_use := false }) h.chunks.sorted hc
  simp only [useSize, hu] at this
  simpa [freedState, useSize] using this

theorem split_useSum {N : Nat} {a : Allocator} (h : Inv N a) {cmit sz : Nat}
    {c : AllocatorChunk} (hc : mapFind cmit a.chunks_ = some c) (hf : c.in_use = false)
    (hsz : c.size = 2 * sz) (hpos : 0 < sz) :
    mapSum useSize (splitState a cmit c sz).chunks_ = mapSum useSize a.chunks_ := by
  have hk : c.address = cmit := h.chunks.addr cmit c hc
  have hnone : mapFind (cmit + sz) a.chunks_ = none := by
    cases hf' : mapFind (cmit + sz) a.chunks_ with
    | none => rfl
    | some d =>
      have := h.chunks.disj cmit c (cmit + sz) d hc hf' (by omega)
      omega
  have s1 := mapSum_mapPut_of_some useSize (v := ⟨false, c.address, sz⟩) h.chunks.sorted hc
  have hnone' : mapFind (c.address + sz) (mapPut cmit ⟨false, c.address, sz⟩ a.chunks_) = none := by
    rw [mapFind_mapPut, hk]
    have : ¬ cmit + sz = cmit := by omega
    simp only [this, if_false]
    exact hnone
  have s2 := mapSum_mapPut_of_none useSize (v := ⟨false, c.address + sz, sz⟩) hnone'
  simp only [useSize, hf, Bool.false_eq_true, if_false] at s1 s2
  simp only [splitState]
  omega

theorem merged_useSum {N : Nat} {a : Allocator} (h : Inv N a) {lo hi : Nat}
    {l hh : AllocatorChunk} (hl : mapFind lo a.chunks_ = some l)
    (hh' : mapFind hi a.chunks_ = some hh) (hne : lo ≠ hi)
    (hfl : l.in_use = false) (hfh : hh.in_use = false) :
    mapSum useSize (mergedState a lo hi l).chunks_ = mapSum useSize a.chunks_ := by
  have s1 := mapSum_mapErase useSize hh'
  have hl2 : mapFind lo (mapErase hi a.chunks_) = some l := by
    rw [mapFind_mapErase lo h.chunks.sorted]
    simp [hne, hl]
  have s2 := mapSum_mapPut_of_some useSize
    (v := ⟨false, l.address, (l.size * 2) % 2 ^ 64⟩) (keysSorted_mapErase h.chunks.sorted) hl2
  simp only [useSize, hfl, hfh, Bool.false_eq_true, if_false] at s1 s2
  simp only [mergedState]
  omega

theorem split_sameUsed {N : Nat} {a : Allocator} (h : Inv N a) {cmit sz : Nat}
    {c : AllocatorChunk} (hc : mapFind cmit a.chunks_ = some c) (hf : c.in_use = false)
    (hsz : c.size = 2 * sz) (hpos : 0 < sz) : SameUsed a (splitState a cmit c sz) := by
  have hk : c.address = cmit := h.chunks.addr cmit c hc
  have hnone : mapFind (cmit + sz) a.chunks_ = none := by
    cases hf' : mapFind (cmit + sz) a.chunks_ with
    | none => rfl
    | some d =>
      have := h.chunks.disj cmit c (cmit + sz) d hc hf' (by omega)
      omega
  intro k x hx
  simp only [splitState, mapFind_mapPut, hk]
  by_cases e1 : k = cmit + sz
  · subst e1
    simp only [if_true, hnone]
    constructor
    · intro e; injection e with e; subst e; cases hx
    · intro e; cases e
  · simp only [e1, if_false]
    by_cases e2 : k = cmit
    · subst e2
      simp only [if_true, hc]
      constructor
      · intro e; injection e with e; subst e; cases hx
      · intro e; injection e with e; subst e; rw [hf] at hx; cases hx
    · simp [e2]

theorem merged_sameUsed {N : Nat} {a : Allocator} (h : Inv N a) {lo hi : Nat}
    {l hh : AllocatorChunk} (hl : mapFind lo a.chunks_ = some l)
    (hh' : mapFind hi a.chunks_ = some hh)
    (hfl : l.in_use = false) (hfh : hh.in_use = false) :
    SameUsed a (mergedState a lo hi l) := by
  intro k x hx
  simp only [mergedState, mapFind_mapPut]
  rw [mapFind_mapErase k h.chunks.sorted]
  by_cases e1 : k = lo
  · subst e1
    simp only [if_true, hl]
    constructor
    · intro e; injection e with e; subst e; cases hx
    · intro e; injection e with e; subst e; rw [hfl] at hx; cases hx
  · simp only [e1, if_false]
    by_cases e2 : k = hi
    · subst e2
      simp only [if_true, hh']
      constructor
      · intro e; cases e
      · intro e; injection e with e; subst e; rw [hfh] at hx; cases hx
    · simp [e2]

theorem split_view {N : Nat} {a : Allocator} (h : Inv N a) {cmit sz : Nat}
    {c : AllocatorChunk} (hc : mapFind cmit a.chunks_ = some c) (k : Nat) :
    mapFind k (splitState a cmit c sz).chunks_ =
      if k = cmit + sz then some ⟨false, cmit + sz, sz⟩
      else if k = cmit then some ⟨false, cmit, sz⟩ else mapFind k a.chunks_ := by
  have hk : c.address = cmit := h.chunks.addr cmit c hc
  simp only [splitState, mapFind_mapPut, hk]

theorem split_loopCond {N : Nat} {a : Allocator} (h : Inv N a) {cmit sz : Nat}
    {c : AllocatorChunk} {B : Int} (hc : mapFind cmit a.chunks_ = some c)
    (hsz : c.size = 2 * sz) (hl : LoopCond a cmit B c.size) :
    LoopCond (splitState a cmit c sz) (cmit + sz) B sz := by
  intro k c' hf hfree hne hB
  rw [split_view h hc] at hf
  simp only [hne, if_false] at hf
  by_cases e : k = cmit
  · simp only [e, if_true] at hf
    injection hf with hf
    subst hf
    exact le_refl _
  · simp only [e, if_false] at hf
    have := hl k c' hf hfree e hB
    omega

theorem split_sibFreeExcept {N : Nat} {a : Allocator} (h : Inv N a) {cmit sz : Nat}
    {c : AllocatorChunk} {B : Int} (hc : mapFind cmit a.chunks_ = some c)
    (hsz : c.size = 2 * sz) (hpos : 0 < sz) (hB : B ≤ (sz : Int))
    (hl : LoopCond a cmit B c.size) (hsib : SibFreeExcept a cmit) :
    SibFreeExcept (splitState a cmit c sz) (cmit + sz) := by
  intro k1 c1 k2 c2 h1 h2 f1 f2 hs hx
  by_contra hcon
  have n1 : ¬ k1 = cmit + sz := fun e => hcon (Or.inl e)
  have n2 : ¬ k2 = cmit + sz := fun e => hcon (Or.inr e)
  rw [split_view h hc] at h1 h2
  simp only [n1, n2, if_false] at h1 h2
  by_cases e1 : k1 = cmit
  · simp only [e1, if_true] at h1
    injection h1 with h1
    subst h1
    by_cases e2 : k2 = cmit
    · rw [e1, e2, Nat.xor_self] at hx
      simp only at hx
      omega
    · simp only [e2, if_false] at h2
      simp only at hs
      have := hl k2 c2 h2 f2 e2 (by omega)
      omega
  · simp only [e1, if_false] at h1
    by_cases e2 : k2 = cmit
    · simp only [e2, if_true] at h2
      injection h2 with h2
      subst h2
      simp only at hs
      have := hl k1 c1 h1 f1 e1 (by omega)
      omega
    · simp only [e2, if_false] at h2
      rcases hsib k1 c1 k2 c2 h1 h2 f1 f2 hs hx with e | e
      · exact e1 e
      · exact e2 e

theorem subdivide_fail {a : Allocator} {cmit : Nat} {c : AllocatorChunk} {cs B : Int}
    (fuel : Nat) (hgt : cs > B)
    (hc : mapFind cmit a.chunks_ = some c) (hm : memFL a.free_lists_ c.size cmit)
    (hk : c.address = cmit) (h0 : toSizeT (Int.tdiv cs 2) = 0) :
    Allocator.subdivide (fuel + 1) a cmit cs B = .error .NotInserted := by
  rw [Allocator.subdivide]
  simp only [hgt, if_true]
  rw [remove_from_free_list_ok hc hm]
  simp only [bind, Except.bind]
  rw [set_size_ok _ (by simp [mapFind_mapPut] : mapFind cmit _ = some { c with in_use := true })]
  simp only []
  rw [add_to_free_list_ok (by simp [mapFind_mapPut] :
    mapFind cmit _ = some { in_use := true, address := c.address, size := toSizeT (Int.tdiv cs 2) })]
  simp only [mapFind_mapPut, if_true, mapPut_mapPut, h0, hk]
  unfold add_to_chunk_map
  simp [mapFind_mapPut]

theorem tdiv_two_pow (j : Nat) : Int.tdiv (((2 ^ (j + 1) : Nat) : Int)) 2 = ((2 ^ j : Nat) : Int) := by
  rw [Int.tdiv_eq_ediv (Int.ofNat_nonneg _) (by norm_num)]
  rw [pow_succ]
  push_cast
  omega

theorem two_pow_lt_two_pow63 {j N : Nat} (h1 : 2 ^ j ≤ N) (h2 : N < 2 ^ 63) : j < 63 := by
  by_contra hc
  have : 2 ^ 63 ≤ 2 ^ j := Nat.pow_le_pow_right (by norm_num) (by omega)
  omega

theorem int_two_pow_le_of_lt {b j : Nat} (h : (2 : Int) ^ b < ((2 ^ (j + 1) : Nat) : Int)) :
    (2 : Int) ^ b ≤ ((2 ^ j : Nat) : Int) := by
  have h' : (2 : Nat) ^ b < 2 ^ (j + 1) := by exact_mod_cast h
  have hb : b < j + 1 := (Nat.pow_lt_pow_iff_right (by norm_num)).mp h'
  have : (2 : Nat) ^ b ≤ 2 ^ j := Nat.pow_le_pow_right (by norm_num) (by omega)
  exact_mod_cast this

/-- The splitting loop of `malloc`, started on a free chunk of size `2 ^ j` that is not
smaller than the requested size class `B`: it fails on `assert( inserted )` when `B = 0` and
otherwise ends on a free chunk of size exactly `B`. -/
theorem subdivide_spec {N : Nat} (hN : N < 2 ^ 63) {B : Int}
    (hB : B = 0 ∨ ∃ b : Nat, B = 2 ^ b) :
    ∀ (fuel j : Nat) (a : Allocator) (cmit : Nat) (c : AllocatorChunk),
      Inv N a → mapFind cmit a.chunks_ = some c → c.in_use = false → c.size = 2 ^ j →
      j < fuel → B ≤ (c.size : Int) → LoopCond a cmit B c.size → SibFreeExcept a cmit →
      (B = 0 ∧ Allocator.subdivide fuel a cmit (c.size : Int) B = .error .NotInserted) ∨
      (∃ a' cmit' c', Allocator.subdivide fuel a cmit (c.size : Int) B = .ok (a', cmit') ∧
        Inv N a' ∧ mapFind cmit' a'.chunks_ = some c' ∧ c'.in_use = false ∧
        (c'.size : Int) = B ∧ SibFreeExcept a' cmit' ∧
        mapSum useSize a'.chunks_ = mapSum useSize a.chunks_ ∧
        SameUsed a a' ∧ a'.base_ = a.base_ ∧ a'.size_ = a.size_) := by
  intro fuel
  induction fuel with
  | zero => intro j a cmit c _ _ _ _ hj; omega
  | succ fuel ih =>
    intro j a cmit c hinv hc hfree hsize hj hle hloop hsib
    have hk : c.address = cmit := hinv.chunks.addr cmit c hc
    have hmem : memFL a.free_lists_ c.size cmit := (hinv.flc _ _).mpr ⟨c, hc, rfl, hfree⟩
    by_cases hgt : (c.size : Int) > B
    · cases j with
      | zero =>
        left
        have h1 : c.size = 1 := by simpa using hsize
        have hB0 : B = 0 := by
          rcases hB with h | ⟨b, h⟩
          · exact h
          · have : (1 : Int) ≤ 2 ^ b := one_le_pow₀ (by norm_num)
            rw [h1] at hgt
            omega
        refine ⟨hB0, subdivide_fail fuel hgt hc hmem hk ?_⟩
        rw [h1]
        decide
      | succ j =>
        have hcast : (c.size : Int) = ((2 ^ (j + 1) : Nat) : Int) := by rw [hsize]
        have htd : Int.tdiv (c.size : Int) 2 = ((2 ^ j : Nat) : Int) := by
          rw [hcast, tdiv_two_pow]
        have hcN : c.size ≤ N := by
          have := hinv.chunks.bound cmit c hc
          omega
        have hj63 : j + 1 < 63 := two_pow_lt_two_pow63 (by rw [← hsize]; exact hcN) hN
        have hlt64 : 2 ^ j < 2 ^ 64 := Nat.pow_lt_pow_right (by norm_num) (by omega)
        have hsz : toSizeT (Int.tdiv (c.size : Int) 2) = 2 ^ j := by
          rw [htd, toSizeT_natCast hlt64]
        have hc2 : c.size = 2 * 2 ^ j := by rw [hsize, pow_succ]; ring
        have hpos : 0 < 2 ^ j := Nat.pos_pow_of_pos _ (by norm_num)
        have hnone : mapFind (c.address + 2 ^ j) a.chunks_ = none := by
          rw [hk]
          cases hf' : mapFind (cmit + 2 ^ j) a.chunks_ with
          | none => rfl
          | some d =>
            have := hinv.chunks.disj cmit c (cmit + 2 ^ j) d hc hf' (by omega)
            omega
        have hstep := subdivide_step (B := B) fuel hgt hc hmem (by rw [hsz]; exact hnone)
        rw [hsz, htd, hk] at hstep
        have hBle : B ≤ ((2 ^ j : Nat) : Int) := by
          rcases hB with h | ⟨b, h⟩
          · rw [h]; exact Int.ofNat_nonneg _
          · rw [h]
            apply int_two_pow_le_of_lt
            rw [← h, ← hcast]
            exact hgt
        have hinv1 : Inv N (splitState a cmit c (2 ^ j)) := Inv_split hinv hc hc2 ⟨j, rfl⟩
        have hc1 : mapFind (cmit + 2 ^ j) (splitState a cmit c (2 ^ j)).chunks_ =
            some ⟨false, cmit + 2 ^ j, 2 ^ j⟩ := by
          rw [split_view hinv hc]; simp
        have := ih j (splitState a cmit c (2 ^ j)) (cmit + 2 ^ j) ⟨false, cmit + 2 ^ j, 2 ^ j⟩
          hinv1 hc1 rfl rfl (by omega) hBle (split_loopCond hinv hc hc2 hloop)
          (split_sibFreeExcept hinv hc hc2 hpos hBle hloop hsib)
        simp only at this
        rcases this with ⟨h0, herr⟩ | ⟨a', cmit', c', hok, i1, i2, i3, i4, i5, i6, i7, i8, i9⟩
        · left
          exact ⟨h0, by rw [hstep]; exact herr⟩
        · right
          refine ⟨a', cmit', c', by rw [hstep]; exact hok, i1, i2, i3, i4, i5, ?_, ?_, ?_, ?_⟩
          · rw [i6, split_useSum hinv hc hfree hc2 hpos]
          · exact SameUsed.trans (split_sameUsed hinv hc hfree hc2 hpos) i7
          · rw [i8]; rfl
          · rw [i9]; rfl
    · right
      refine ⟨a, cmit, c, subdivide_stop fuel hgt, hinv, hc, hfree, by omega, hsib, rfl,
        SameUsed.refl a, rfl, rfl⟩

theorem sibFree_of_except {a : Allocator} {cmit : Nat} {c : AllocatorChunk}
    (hsib : SibFreeExcept a cmit) (hc : mapFind cmit a.chunks_ = some c)
    (hno : ∀ b, mapFind (cmit ^^^ c.size) a.chunks_ = some b →
      ¬ (b.size = c.size ∧ b.in_use = false)) : SibFree a := by
  intro k1 c1 k2 c2 h1 h2 f1 f2 hs hx
  rcases hsib k1 c1 k2 c2 h1 h2 f1 f2 hs hx with e | e
  · subst e
    rw [hc] at h1
    injection h1 with h1
    subst h1
    have : k2 = k1 ^^^ c.size := xor_eq_iff.mp hx
    rw [this] at h2
    exact hno c2 h2 ⟨hs.symm, f2⟩
  · subst e
    rw [hc] at h2
    injection h2 with h2
    subst h2
    have : k1 = k2 ^^^ c.size := by
      rw [Nat.xor_comm] at hx
      rw [hs] at hx
      exact xor_eq_iff.mp hx
    rw [this] at h1
    exact hno c1 h1 ⟨hs, f1⟩

theorem merged_view {N : Nat} {a : Allocator} (h : Inv N a) {lo hi : Nat} {l : AllocatorChunk}
    (k : Nat) :
    mapFind k (mergedState a lo hi l).chunks_ =
      if k = lo then some ⟨false, l.address, (l.size * 2) % 2 ^ 64⟩
      else if k = hi then none else mapFind k a.chunks_ := by
  simp only [mergedState, mapFind_mapPut]
  rw [mapFind_mapErase k h.chunks.sorted]

theorem merged_sibFreeExcept {N : Nat} {a : Allocator} (h : Inv N a) {cmit lo hi : Nat}
    {l : AllocatorChunk} (hcm : cmit = lo ∨ cmit = hi) (hsib : SibFreeExcept a cmit) :
    SibFreeExcept (mergedState a lo hi l) lo := by
  intro k1 c1 k2 c2 h1 h2 f1 f2 hs hx
  by_contra hcon
  have n1 : ¬ k1 = lo := fun e => hcon (Or.inl e)
  have n2 : ¬ k2 = lo := fun e => hcon (Or.inr e)
  rw [merged_view h] at h1 h2
  simp only [n1, n2, if_false] at h1 h2
  by_cases e1 : k1 = hi
  · simp [e1] at h1
  · by_cases e2 : k2 = hi
    · simp [e2] at h2
    · simp only [e1, e2, if_false] at h1 h2
      rcases hsib k1 c1 k2 c2 h1 h2 f1 f2 hs hx with e | e <;> rcases hcm with g | g <;> omega

theorem length_pos_of_find {β : Type} {k : Nat} {c : β} {m : List (Nat × β)}
    (h : mapFind k m = some c) : 0 < m.length := by
  have := length_mapErase h
  omega

/-- The recursion `try_merge_buddy_recursive`, started on a free chunk with at least as much
fuel as there are chunks, returns; the result is sibling-free. -/
theorem try_merge_spec {N : Nat} (hN : N < 2 ^ 63) :
    ∀ (fuel : Nat) (a : Allocator) (cmit : Nat) (c : AllocatorChunk),
      Inv N a → mapFind cmit a.chunks_ = some c → c.in_use = false → SibFreeExcept a cmit →
      a.chunks_.length ≤ fuel →
      ∃ a', try_merge_buddy_recursive fuel a cmit = .ok a' ∧ Inv N a' ∧ SibFree a' ∧
        mapSum useSize a'.chunks_ = mapSum useSize a.chunks_ ∧ SameUsed a a' ∧
        a'.base_ = a.base_ ∧ a'.size_ = a.size_ := by
  intro fuel
  induction fuel with
  | zero =>
    intro a cmit c _ hc _ _ hlen
    have := length_pos_of_find hc
    omega
  | succ fuel ih =>
    intro a cmit c hinv hc hfree hsib hlen
    have hk : c.address = cmit := hinv.chunks.addr cmit c hc
    obtain ⟨j, hj⟩ := hinv.chunks.pow2 cmit c hc
    cases hb : mapFind (c.address ^^^ c.size) a.chunks_ with
    | none =>
      refine ⟨a, try_merge_stop_none fuel hc hb, hinv, ?_, rfl, SameUsed.refl a, rfl, rfl⟩
      apply sibFree_of_except hsib hc
      intro b hb'
      rw [hk] at hb
      rw [hb] at hb'
      cases hb'
    | some b =>
      by_cases hcond : b.size = c.size ∧ b.in_use = false
      · have hmc : memFL a.free_lists_ c.size cmit := (hinv.flc _ _).mpr ⟨c, hc, rfl, hfree⟩
        have hmb : memFL a.free_lists_ b.size (c.address ^^^ c.size) :=
          (hinv.flc _ _).mpr ⟨b, hb, rfl, hcond.2⟩
        have hadj := xor_two_pow_adj j cmit
        rw [← hj, ← hk] at hadj
        have hpos : 0 < c.size := hinv.chunks.size_pos hc
        have key : ∃ lo hi l h, mapFind lo a.chunks_ = some l ∧ mapFind hi a.chunks_ = some h ∧
            hi = lo + l.size ∧ h.size = l.size ∧ l.in_use = false ∧ h.in_use = false ∧
            (cmit = lo ∨ cmit = hi) ∧
            try_merge_buddy_recursive (fuel + 1) a cmit =
              try_merge_buddy_recursive fuel (mergedState a lo hi l) lo := by
          rcases hadj with e | e
          · refine ⟨cmit, c.address ^^^ c.size, c, b, hc, hb, by rw [e, hk], hcond.1, hfree,
              hcond.2, Or.inl rfl, ?_⟩
            apply try_merge_step fuel hinv.chunks.sorted hinv.fl hc hb hcond.1 hcond.2
              (Or.inl ⟨by omega, rfl, rfl, rfl, rfl⟩) (by omega) hmc hmb
          · refine ⟨c.address ^^^ c.size, cmit, b, c, hb, hc, by rw [hcond.1, ← hk]; omega,
              hcond.1.symm, hcond.2, hfree, Or.inr rfl, ?_⟩
            apply try_merge_step fuel hinv.chunks.sorted hinv.fl hc hb hcond.1 hcond.2
              (Or.inr ⟨by omega, rfl, rfl, rfl, rfl⟩) (by omega) hmb hmc
        obtain ⟨lo, hi, l, h, hl, hh, hadj', hsz, hfl, hfh, hcm, hstep⟩ := key
        have hposl : 0 < l.size := hinv.chunks.size_pos hl
        have hne : lo ≠ hi := by omega
        have hinv1 : Inv N (mergedState a lo hi l) :=
          Inv_merged hinv (by omega) hl hh hadj' hsz
        have hc1 : mapFind lo (mergedState a lo hi l).chunks_ =
            some ⟨false, l.address, (l.size * 2) % 2 ^ 64⟩ := by
          rw [merged_view hinv]; simp
        have hlen1 : (mergedState a lo hi l).chunks_.length ≤ fuel := by
          have hl2 : mapFind lo (mapErase hi a.chunks_) = some l := by
            rw [mapFind_mapErase lo hinv.chunks.sorted]
            simp [hne, hl]
          have e1 := length_mapPut_of_some (v := (⟨false, l.address, (l.size * 2) % 2 ^ 64⟩ :
            AllocatorChunk)) (keysSorted_mapErase hinv.chunks.sorted) hl2
          have e2 := length_mapErase hh
          simp only [mergedState]
          omega
        obtain ⟨a', hok, i1, i2, i3, i4, i5, i6⟩ := ih (mergedState a lo hi l) lo _ hinv1 hc1 rfl
          (merged_sibFreeExcept hinv hcm hsib) hlen1
        refine ⟨a', by rw [hstep]; exact hok, i1, i2, ?_, ?_, ?_, ?_⟩
        · rw [i3, merged_useSum hinv hl hh hne hfl hfh]
        · exact SameUsed.trans (merged_sameUsed hinv hl hh hfl hfh) i4
        · rw [i5]; rfl
        · rw [i6]; rfl
      · refine ⟨a, try_merge_stop_some fuel hc hb hcond, hinv, ?_, rfl, SameUsed.refl a, rfl, rfl⟩
        apply sibFree_of_except hsib hc
        intro b' hb'
        rw [hk] at hb
        rw [hb] at hb'
        injection hb' with hb'
        subst hb'
        exact hcond

theorem sibFreeExcept_of_sibFree {a : Allocator} (h : SibFree a) (x : Nat) :
    SibFreeExcept a x := by
  intro k1 c1 k2 c2 h1 h2 f1 f2 hs hx
  exact absurd hx (h k1 c1 k2 c2 h1 h2 f1 f2 hs)

theorem freed_sibFreeExcept {a : Allocator} (h : SibFree a) {it : Nat} {c : AllocatorChunk} :
    SibFreeExcept (freedState a it c) it := by
  intro k1 c1 k2 c2 h1 h2 f1 f2 hs hx
  by_contra hcon
  have n1 : ¬ k1 = it := fun e => hcon (Or.inl e)
  have n2 : ¬ k2 = it := fun e => hcon (Or.inr e)
  simp only [freedState, mapFind_mapPut, n1, n2, if_false] at h1 h2
  exact h k1 c1 k2 c2 h1 h2 f1 f2 hs hx

theorem used_sibFree {a : Allocator} {cmit : Nat} {c : AllocatorChunk}
    (h : SibFreeExcept a cmit) : SibFree (usedState a cmit c) := by
  intro k1 c1 k2 c2 h1 h2 f1 f2 hs hx
  simp only [usedState, mapFind_mapPut] at h1 h2
  by_cases e1 : k1 = cmit
  · simp only [e1, if_true] at h1
    injection h1 with h1
    subst h1
    cases f1
  · by_cases e2 : k2 = cmit
    · simp only [e2, if_true] at h2
      injection h2 with h2
      subst h2
      cases f2
    · simp only [e1, e2, if_false] at h1 h2
      rcases h k1 c1 k2 c2 h1 h2 f1 f2 hs hx with e | e
      · exact e1 e
      · exact e2 e

/-- A successful `free`: the call returns, and the resulting state keeps the invariants. -/
theorem free_ok {N : Nat} (hN : N < 2 ^ 63) {a : Allocator} (hinv : Inv N a) (hsib : SibFree a)
    {p : Int} {c : AllocatorChunk} (hp : 0 ≤ toInt64 (p - a.base_))
    (hc : mapFind (toInt64 (p - a.base_)).toNat a.chunks_ = some c) (hu : c.in_use = true) :
    ∃ a', Allocator.free a p = .ok a' ∧ Inv N a' ∧ SibFree a' ∧
      mapSum useSize a'.chunks_ + c.size = mapSum useSize a.chunks_ ∧
      SameUsed (freedState a (toInt64 (p - a.base_)).toNat c) a' ∧
      a'.base_ = a.base_ ∧ a'.size_ = a.size_ := by
  rw [free_eq hp hc hu hinv.chunks.sorted]
  have hinv1 := Inv_freed hinv hc hu
  have hc1 : mapFind (toInt64 (p - a.base_)).toNat
      (freedState a (toInt64 (p - a.base_)).toNat c).chunks_ = some { c with in_use := false } := by
    simp [freedState, mapFind_mapPut]
  have hlen : (freedState a (toInt64 (p - a.base_)).toNat c).chunks_.length ≤ a.chunks_.length := by
    simp only [freedState]
    rw [length_mapPut_of_some hinv.chunks.sorted hc]
  obtain ⟨a', hok, i1, i2, i3, i4, i5, i6⟩ := try_merge_spec hN _ _ _ _ hinv1 hc1 rfl
    (freed_sibFreeExcept hsib) hlen
  refine ⟨a', hok, i1, i2, ?_, i4, ?_, ?_⟩
  · rw [i3]; exact freed_useSum hinv hc hu
  · rw [i5]; rfl
  · rw [i6]; rfl

theorem malloc_oom {a : Allocator} {s : Nat}
    (h : mapLowerBound (toSizeT (next_largest_power_of_2 (toInt64 s))) a.free_lists_ = none) :
    Allocator.malloc a s = .error .OutOfMemory := by
  unfold Allocator.malloc
  simp only [h]

/-- Result of `malloc` when `lower_bound` finds a size class: with request class `B = 0` the
splitting loop runs into `assert( inserted )`; otherwise the call returns the chunk `cmit` of
size exactly `B`, carved out of an intermediate state `a1` that has the same chunks in use. -/
theorem malloc_found {N : Nat} (hN : N < 2 ^ 63) {a : Allocator} (hinv : Inv N a)
    (hsib : SibFree a) {s S : Nat} {l : FreeList}
    (hlb : mapLowerBound (toSizeT (next_largest_power_of_2 (toInt64 s))) a.free_lists_
      = some (S, l)) :
    (next_largest_power_of_2 (toInt64 s) = 0 ∧ Allocator.malloc a s = .error .NotInserted) ∨
    (∃ (a1 : Allocator) (cmit : Nat) (c' : AllocatorChunk), Allocator.malloc a s
        = .ok (toInt64 ((cmit : Int) + a.base_), usedState a1 cmit c') ∧
      Inv N a1 ∧ mapFind cmit a1.chunks_ = some c' ∧ c'.in_use = false ∧
      (c'.size : Int) = next_largest_power_of_2 (toInt64 s) ∧ SibFreeExcept a1 cmit ∧
      mapSum useSize a1.chunks_ = mapSum useSize a.chunks_ ∧ SameUsed a a1 ∧
      a1.base_ = a.base_ ∧ a1.size_ = a.size_) := by
  obtain ⟨hfind, hle, hmin⟩ := mapLowerBound_some hinv.fl.1 hlb
  have hlne := (hinv.fl.2 S l hfind).1
  obtain ⟨cmit, rest, hl⟩ : ∃ cmit rest, l = cmit :: rest := by
    cases l with
    | nil => exact absurd rfl hlne
    | cons x r => exact ⟨x, r, rfl⟩
  have hmem : memFL a.free_lists_ S cmit := ⟨l, hfind, by rw [hl]; exact List.mem_cons_self _ _⟩
  obtain ⟨c, hc, hcs, hcf⟩ := (hinv.flc _ _).mp hmem
  have hbound := hinv.chunks.bound cmit c hc
  have hSN : S < 2 ^ 63 := by omega
  obtain ⟨j, hj⟩ := hinv.chunks.pow2 cmit c hc
  have hj63 : j < 63 := two_pow_lt_two_pow63 (N := S) (by rw [← hj, hcs]) hSN
  generalize hBdef : next_largest_power_of_2 (toInt64 s) = B at hlb hle hmin ⊢
  have hB : (B = 0 ∨ ∃ b : Nat, B = 2 ^ b) ∧ toSizeT B = B.toNat ∧ 0 ≤ B := by
    rcases npo2_cases (toInt64 s) with h | h | ⟨b, hb, h⟩
    · rw [hBdef] at h
      subst h
      exact ⟨Or.inl rfl, by decide, le_refl _⟩
    · rw [hBdef] at h
      exfalso
      have : 2 ^ 63 ≤ toSizeT B := toSizeT_neg (by rw [h]) (by rw [h]; norm_num)
      omega
    · rw [hBdef] at h
      have hpos : (0 : Int) < 2 ^ b := by positivity
      have hlt : (2 : Int) ^ b < 2 ^ 64 := by
        have : (2 : Int) ^ b ≤ 2 ^ 62 := pow_le_pow_right₀ (by norm_num) hb
        have : (2 : Int) ^ 62 < 2 ^ 64 := by norm_num
        omega
      exact ⟨Or.inr ⟨b, h⟩, by rw [h]; exact toSizeT_eq (le_of_lt hpos) hlt, by rw [h]; omega⟩
  obtain ⟨hB1, hB2, hB3⟩ := hB
  have hBS : B ≤ (c.size : Int) := by
    rw [hcs]
    rw [hB2] at hle
    omega
  have hloop : LoopCond a cmit B c.size := by
    intro k c' hk hf _ hBc
    obtain ⟨l', hl', _⟩ := (hinv.flc c'.size k).mpr ⟨c', hk, rfl, hf⟩
    have := hmin c'.size l' hl' (by rw [hB2]; omega)
    omega
  have hcs64 : toInt64 (S : Int) = (c.size : Int) := by
    rw [hcs]
    apply toInt64_eq <;> omega
  have hspec := subdivide_spec hN hB1 65 j a cmit c hinv hc hcf hj (by omega) hBS hloop
    (sibFreeExcept_of_sibFree hsib cmit)
  rcases hspec with ⟨h0, herr⟩ | ⟨a1, cmit1, c1, hok, i1, i2, i3, i4, i5, i6, i7, i8, i9⟩
  · left
    refine ⟨h0, ?_⟩
    unfold Allocator.malloc
    simp only [hBdef, hlb, hl, List.head?_cons, hcs64]
    simp only [herr]
    rfl
  · right
    refine ⟨a1, cmit1, c1, ?_, i1, i2, i3, i4, i5, i6, i7, i8, i9⟩
    have hm1 : memFL a1.free_lists_ c1.size cmit1 := (i1.flc _ _).mpr ⟨c1, i2, rfl, i3⟩
    have hk1 : c1.address = cmit1 := i1.chunks.addr cmit1 c1 i2
    unfold Allocator.malloc
    simp only [hBdef, hlb, hl, List.head?_cons, hcs64]
    simp only [hok]
    simp only [bind, Except.bind]
    rw [set_in_use_ok true i2]
    simp only []
    rw [remove_from_free_list_ok (a := { a1 with chunks_ := mapPut cmit1 { c1 with in_use := true } a1.chunks_ })
      (c := { c1 with in_use := true }) (by simp [mapFind_mapPut]) hm1]
    simp only [mapFind_mapPut, if_true, mapPut_mapPut]
    have e : toInt64 ((c1.address : Int) + a1.base_) = toInt64 ((cmit1 : Int) + a.base_) := by
      rw [hk1, i8]
    rw [e]
    rfl

theorem land_pred_eq_zero_iff {n : Nat} (hn : 0 < n) :
    n &&& (n - 1) = 0 ↔ ∃ j : Nat, n = 2 ^ j := by
  constructor
  · intro h
    obtain ⟨m, hm1, hm2⟩ : ∃ m, 2 ^ m ≤ n ∧ n < 2 ^ (m + 1) :=
      ⟨Nat.log 2 n, Nat.pow_log_le_self 2 (by omega), Nat.lt_pow_succ_log_self (by norm_num) n⟩
    refine ⟨m, ?_⟩
    by_contra hne
    have h1 : n.testBit m = true := testBit_top hm1 hm2
    have h2 : (n - 1).testBit m = true := testBit_top (by omega) (by omega)
    have h3 : (n &&& (n - 1)).testBit m = true := by
      rw [Nat.testBit_and, h1, h2]; rfl
    rw [h] at h3
    simp at h3
  · rintro ⟨j, rfl⟩
    rw [Nat.and_pow_two_sub_one_eq_mod]
    exact Nat.mod_self _

theorem int_land_natCast (n : Nat) (hn : 0 < n) :
    Int.land (n : Int) ((n : Int) - 1) = ((n &&& (n - 1) : Nat) : Int) := by
  have : (n : Int) - 1 = ((n - 1 : Nat) : Int) := by omega
  rw [this]
  rfl

/-- What the constructor loop takes from a remaining size `r`: a power of two `cs` with
either `cs = r`, or `cs + 2 ≤ r ≤ 2 * cs + 1` and `r ≠ 2 * cs`. -/
theorem ctorChunkSize_spec {r : Nat} (h0 : 0 < r) (h1 : r < 2 ^ 63) :
    (∃ j : Nat, ctorChunkSize (r : Int) = 2 ^ j) ∧
    (ctorChunkSize (r : Int) = r ∨
      (ctorChunkSize (r : Int) + 2 ≤ r ∧ r ≤ 2 * ctorChunkSize (r : Int) + 1 ∧
        r ≠ 2 * ctorChunkSize (r : Int))) := by
  have hr64 : r < 2 ^ 64 := by omega
  unfold ctorChunkSize
  rw [int_land_natCast r h0]
  by_cases hp : r &&& (r - 1) = 0
  · have hp' : ¬ (((r &&& (r - 1) : Nat) : Int) ≠ 0) := by
      rw [hp]; simp
    rw [if_neg hp']
    rw [toSizeT_natCast hr64]
    exact ⟨(land_pred_eq_zero_iff h0).mp hp, Or.inl rfl⟩
  · have hp' : (((r &&& (r - 1) : Nat) : Int) ≠ 0) := by
      intro e
      exact hp (by exact_mod_cast e)
    rw [if_pos hp']
    have hnp : ¬ ∃ j : Nat, r = 2 ^ j := fun e => hp ((land_pred_eq_zero_iff h0).mpr e)
    have hr3 : 3 ≤ r := by
      by_contra hc
      have : r = 1 ∨ r = 2 := by omega
      rcases this with e | e
      · exact hnp ⟨0, by rw [e]; rfl⟩
      · exact hnp ⟨1, by rw [e]; rfl⟩
    have htd : Int.tdiv (r : Int) 2 = ((r / 2 : Nat) : Int) := by
      rw [Int.tdiv_eq_ediv (Int.ofNat_nonneg _) (by norm_num)]
      omega
    rw [htd]
    obtain ⟨j, hj62, hj, hle, hmin⟩ := npo2_spec (v := ((r / 2 : Nat) : Int)) (by omega) (by omega)
    rw [hj]
    have hcast : ((2 : Int) ^ j) = ((2 ^ j : Nat) : Int) := by push_cast; rfl
    have hlt : 2 ^ j < 2 ^ 64 := Nat.pow_lt_pow_right (by norm_num) (by omega)
    rw [hcast, toSizeT_natCast hlt]
    have hle' : r / 2 ≤ 2 ^ j := by
      rw [hcast] at hle
      exact_mod_cast hle
    refine ⟨⟨j, rfl⟩, Or.inr ⟨?_, by omega, ?_⟩⟩
    · cases j with
      | zero => simp; omega
      | succ i =>
        have : ¬ (r / 2 ≤ 2 ^ i) := by
          intro hc
          have hc' : ((r / 2 : Nat) : Int) ≤ (2 : Int) ^ i := by
            have : ((r / 2 : Nat) : Int) ≤ ((2 ^ i : Nat) : Int) := by exact_mod_cast hc
            simpa using this
          have := hmin i hc'
          have h2 : (2 : Int) ^ i < 2 ^ (i + 1) := by
            rw [pow_succ]
            have : (0 : Int) < 2 ^ i := by positivity
            omega
          omega
        rw [pow_succ]
        omega
    · intro e
      exact hnp ⟨j + 1, by rw [e, pow_succ]; ring⟩

theorem add_chunks_step {a : Allocator} {size : Int} {off : Nat} (fuel : Nat) (hgt : size > 0)
    (hnone : mapFind off a.chunks_ = none) :
    Allocator.add_chunks (fuel + 1) a size off =
      Allocator.add_chunks fuel (insertState a off (ctorChunkSize size))
        (toInt64 (size - ctorChunkSize size)) (off + ctorChunkSize size) := by
  have e : (if size.land (size - 1) ≠ 0 then toSizeT (next_largest_power_of_2 (size.tdiv 2))
      else toSizeT size) = ctorChunkSize size := rfl
  rw [Allocator.add_chunks]
  simp only [hgt, if_true]
  rw [e]
  rw [@add_to_chunk_map_ok a ⟨false, off, ctorChunkSize size⟩ hnone]
  simp only [bind, Except.bind]
  rw [add_to_free_list_ok (by simp [mapFind_mapPut] :
    mapFind off _ = some ⟨false, off, ctorChunkSize size⟩)]
  simp only [mapPut_mapPut]
  rfl

theorem add_chunks_stop {a : Allocator} {size : Int} {off : Nat} (fuel : Nat) (h : ¬ size > 0) :
    Allocator.add_chunks (fuel + 1) a size off = .ok a := by
  rw [Allocator.add_chunks]
  simp only [h, if_false]

theorem contigTo_le {s e : Nat} {m : ChunkMap} (h : ContigTo s m e) : s ≤ e := by
  induction m generalizing s with
  | nil => simp [ContigTo] at h; omega
  | cons p m ih =>
    obtain ⟨k, c⟩ := p
    simp only [ContigTo] at h
    have := ih h.2.2.2
    omega

theorem contigTo_append {s e sz : Nat} {m : ChunkMap} (h : ContigTo s m e) (hsz : 0 < sz) :
    mapPut e ⟨false, e, sz⟩ m = m ++ [(e, ⟨false, e, sz⟩)] ∧
    ContigTo s (m ++ [(e, ⟨false, e, sz⟩)]) (e + sz) := by
  induction m generalizing s with
  | nil =>
    simp only [ContigTo] at h
    subst h
    simp [mapPut, ContigTo, hsz]
  | cons p m ih =>
    obtain ⟨k, c⟩ := p
    simp only [ContigTo] at h
    obtain ⟨h1, h2, h3, h4⟩ := h
    have hle := contigTo_le h4
    have n1 : ¬ e < k := by omega
    have n2 : ¬ e = k := by omega
    obtain ⟨i1, i2⟩ := ih h4
    constructor
    · simp only [mapPut, n1, n2, if_false, i1, List.cons_append]
    · simp only [List.cons_append, ContigTo]
      exact ⟨h1, h2, h3, i2⟩

theorem contigTo_offset {s e : Nat} {l1 l2 : ChunkMap} {p : Nat × AllocatorChunk}
    (h : ContigTo s (l1 ++ p :: l2) e) :
    p.2.address = s + (l1.map (fun q => q.2.size)).sum := by
  induction l1 generalizing s with
  | nil =>
    obtain ⟨k, c⟩ := p
    simp only [List.nil_append, ContigTo] at h
    simp [h.2.1]
  | cons q l1 ih =>
    obtain ⟨k, c⟩ := q
    simp only [List.cons_append, ContigTo] at h
    have := ih h.2.2.2
    simp only [List.map_cons, List.sum_cons]
    omega

theorem two_pow_dvd_of_lt {x y : Nat} (hx : ∃ i : Nat, x = 2 ^ i) (hy : ∃ j : Nat, y = 2 ^ j)
    (h : x < y) : x ∣ y := by
  obtain ⟨i, rfl⟩ := hx
  obtain ⟨j, rfl⟩ := hy
  have : i < j := (Nat.pow_lt_pow_iff_right (by norm_num)).mp h
  exact pow_dvd_pow 2 (by omega)

theorem two_pow_succ_eq {x y : Nat} (hx : ∃ i : Nat, x = 2 ^ i) (hy : ∃ j : Nat, y = 2 ^ j)
    (h : y = x + 1) : x = 1 := by
  obtain ⟨i, rfl⟩ := hx
  obtain ⟨j, rfl⟩ := hy
  cases i with
  | zero => rfl
  | succ i =>
    cases j with
    | zero => simp at h
    | succ j =>
      rw [pow_succ, pow_succ] at h
      omega

theorem CtorInv_insert {a : Allocator} {off r : Nat} (h : CtorInv a off r) (h0 : 0 < r)
    (h1 : r < 2 ^ 63) :
    CtorInv (insertState a off (ctorChunkSize (r : Int))) (off + ctorChunkSize (r : Int))
      (r - ctorChunkSize (r : Int)) := by
  obtain ⟨hp, hspec⟩ := ctorChunkSize_spec h0 h1
  have hnext := h.next
  generalize ctorChunkSize (r : Int) = cs at hp hspec hnext ⊢
  have hpos : 0 < cs := by
    obtain ⟨j, hj⟩ := hp
    rw [hj]; exact Nat.pos_pow_of_pos _ (by norm_num)
  have hlt : ∀ k c, mapFind k a.chunks_ = some c → k < off := by
    intro k c hc
    have := h.inv.chunks.bound k c hc
    have := h.inv.chunks.size_pos hc
    omega
  have hnone : ∀ k, off ≤ k → mapFind k a.chunks_ = none := by
    intro k hk
    cases hf : mapFind k a.chunks_ with
    | none => rfl
    | some d => have := hlt k d hf; omega
  have view : ∀ k, mapFind k (insertState a off cs).chunks_ =
      if k = off then some ⟨false, off, cs⟩ else mapFind k a.chunks_ := by
    intro k
    simp only [insertState, mapFind_mapPut]
  have hnm : ¬ memFL a.free_lists_ cs off := by
    intro hm
    obtain ⟨c', h1', _⟩ := (h.inv.flc _ _).mp hm
    rw [hnone off (le_refl _)] at h1'
    cases h1'
  have hex : (∃ k1 c1, mapFind k1 a.chunks_ = some c1 ∧ c1.size = 1) →
      ∃ k1 c1, mapFind k1 (insertState a off cs).chunks_ = some c1 ∧ c1.size = 1 := by
    rintro ⟨k1, c1, e1, e2⟩
    refine ⟨k1, c1, ?_, e2⟩
    rw [view]
    have : ¬ k1 = off := by have := hlt k1 c1 e1; omega
    simp only [this, if_false]
    exact e1
  refine ⟨⟨ChunksOK_insert h.inv.chunks hp, FLOK_flAdd h.inv.fl hnm, ?_⟩, ?_, ?_, ?_, ?_, ?_, ?_⟩
  · intro S k
    rw [view]
    simp only [insertState]
    rw [memFL_flAdd, h.inv.flc S k]
    by_cases e : k = off
    · subst e
      simp only [if_true, and_true, hnone k (le_refl _)]
      constructor
      · rintro (⟨c', h1', _⟩ | h1')
        · cases h1'
        · exact ⟨_, rfl, h1'.symm, rfl⟩
      · rintro ⟨c', h1', h2', _⟩
        injection h1' with h1'
        subst h1'
        exact Or.inr h2'.symm
    · simp [e]
  · intro k c hc
    rw [view] at hc
    by_cases e : k = off
    · simp only [e, if_true] at hc
      injection hc with hc
      subst hc
      rfl
    · simp only [e, if_false] at hc
      exact h.allFree k c hc
  · intro k c c' hc hc'
    rw [view] at hc hc'
    by_cases e : k = off
    · simp only [e, if_true] at hc
      injection hc with hc
      subst hc
      have n : ¬ off + cs = off := by omega
      simp only [e, n, if_false] at hc'
      rw [hnone (off + cs) (by omega)] at hc'
      cases hc'
    · simp only [e, if_false] at hc
      by_cases e2 : k + c.size = off
      · simp only [e2, if_true] at hc'
        injection hc' with hc'
        subst hc'
        have hl := h.last k c hc e2
        simp only
        clear hp hex view hnone hlt hnext
        omega
      · simp only [e2, if_false] at hc'
        exact h.noAdj k c c' hc hc'
  · intro k c hc hk
    rw [view] at hc
    by_cases e : k = off
    · simp only [e, if_true] at hc
      injection hc with hc
      subst hc
      simp only
      omega
    · simp only [e, if_false] at hc
      have := h.inv.chunks.bound k c hc
      omega
  · intro k c hc
    rw [view] at hc
    by_cases e : k = off
    · simp only [e, if_true] at hc
      injection hc with hc
      subst hc
      subst e
      simp only
      rcases hnext with n | n | ⟨n1, n2⟩
      · omega
      · exact Or.inl n
      · right
        exact ⟨by omega, hex n2⟩
    · simp only [e, if_false] at hc
      rcases h.align k c hc with n | ⟨n1, n2⟩
      · exact Or.inl n
      · exact Or.inr ⟨n1, hex n2⟩
  · by_cases hr : r - cs = 0
    · exact Or.inl hr
    · right
      have hr' : 0 < r - cs := by omega
      obtain ⟨hp', hspec'⟩ := ctorChunkSize_spec hr' (by omega)
      generalize ctorChunkSize ((r - cs : Nat) : Int) = cs' at hp' hspec' ⊢
      have hdvd : cs ∣ off := by
        rcases hnext with n | n | ⟨n1, _⟩
        · omega
        · exact n
        · omega
      by_cases hlt' : cs' < cs
      · left
        exact dvd_add (dvd_trans (two_pow_dvd_of_lt hp' hp hlt') hdvd)
          (two_pow_dvd_of_lt hp' hp hlt')
      · right
        have hcs' : cs' = cs + 1 := by omega
        have hcs1 : cs = 1 := two_pow_succ_eq hp hp' hcs'
        refine ⟨by omega, off, ⟨false, off, cs⟩, ?_, hcs1⟩
        rw [view]
        simp
  · have := contigTo_append h.contig hpos
    simp only [insertState]
    rw [this.1]
    exact this.2

/-- The constructor loop returns once the remaining size is used up. -/
theorem add_chunks_spec : ∀ (fuel : Nat) (a : Allocator) (r off : Nat),
    CtorInv a off r → off + r < 2 ^ 63 → r < fuel →
    ∃ a', Allocator.add_chunks fuel a (r : Int) off = .ok a' ∧ CtorInv a' (off + r) 0 ∧
      a'.base_ = a.base_ ∧ a'.size_ = a.size_ := by
  intro fuel
  induction fuel with
  | zero => intro a r off _ _ h; omega
  | succ fuel ih =>
    intro a r off hinv hlt hf
    by_cases h0 : r = 0
    · subst h0
      exact ⟨a, add_chunks_stop fuel (by simp), hinv, rfl, rfl⟩
    · have hpos : 0 < r := by omega
      have hgt : (r : Int) > 0 := by omega
      have hnone : mapFind off a.chunks_ = none := by
        cases hf' : mapFind off a.chunks_ with
        | none => rfl
        | some d =>
          have := hinv.inv.chunks.bound off d hf'
          have := hinv.inv.chunks.size_pos hf'
          omega
      obtain ⟨_, hspec⟩ := ctorChunkSize_spec hpos (by omega)
      have hle : ctorChunkSize (r : Int) ≤ r := by omega
      have hcs : 0 < ctorChunkSize (r : Int) := by omega
      have e : toInt64 ((r : Int) - (ctorChunkSize (r : Int) : Int)) =
          ((r - ctorChunkSize (r : Int) : Nat) : Int) := by
        rw [toInt64_eq] <;> omega
      rw [add_chunks_step fuel hgt hnone, e]
      obtain ⟨a', hok, i1, i2, i3⟩ := ih (insertState a off (ctorChunkSize (r : Int)))
        (r - ctorChunkSize (r : Int)) (off + ctorChunkSize (r : Int))
        (CtorInv_insert hinv hpos (by omega)) (by omega) (by omega)
      refine ⟨a', hok, ?_, by rw [i2]; rfl, by rw [i3]; rfl⟩
      have : off + ctorChunkSize (r : Int) + (r - ctorChunkSize (r : Int)) = off + r := by omega
      rw [this] at i1
      exact i1

theorem CtorInv_empty (base : Int) (sz r : Nat) : CtorInv ⟨base, sz, [], []⟩ 0 r := by
  refine ⟨⟨⟨keysSorted_nil, ?_, ?_, ?_, ?_, rfl⟩, ⟨keysSorted_nil, ?_⟩, ?_⟩, ?_, ?_, ?_, ?_, ?_, rfl⟩
  · intro k c h; simp [mapFind] at h
  · intro k c h; simp [mapFind] at h
  · intro k c h; simp [mapFind] at h
  · intro k1 c1 k2 c2 h; simp [mapFind] at h
  · intro S l h; simp [mapFind] at h
  · intro S k
    constructor
    · rintro ⟨l, h, _⟩; simp [mapFind] at h
    · rintro ⟨c, h, _⟩; simp [mapFind] at h
  · intro k c h; simp [mapFind] at h
  · intro k c c' h; simp [mapFind] at h
  · intro k c h; simp [mapFind] at h
  · intro k c h; simp [mapFind] at h
  · right; left; exact dvd_zero _

/-- The constructor returns on every size `0 < n < 2 ^ 63`. -/
theorem new_spec (base : Int) {n : Nat} (h0 : 0 < n) (h1 : n < 2 ^ 63) :
    ∃ a, Allocator.new base (n : Int) = .ok a ∧ CtorInv a n 0 ∧ a.base_ = base ∧
      a.size_ = n := by
  unfold Allocator.new
  have hne : ¬ (n : Int) = 0 := by omega
  simp only [hne, if_false, Int.toNat_ofNat]
  obtain ⟨a, hok, i1, i2, i3⟩ := add_chunks_spec (n + 1) ⟨base, toSizeT (n : Int), [], []⟩ n 0
    (CtorInv_empty base _ n) (by omega) (by omega)
  rw [Nat.zero_add] at i1
  refine ⟨a, hok, i1, i2, ?_⟩
  rw [i3]
  exact toSizeT_natCast (by omega)

theorem sibFree_of_noAdj {N : Nat} {a : Allocator} (hinv : Inv N a)
    (hno : ∀ k c c', mapFind k a.chunks_ = some c → mapFind (k + c.size) a.chunks_ = some c' →
      c'.size ≠ c.size) : SibFree a := by
  intro k1 c1 k2 c2 h1 h2 _ _ hs hx
  obtain ⟨j, hj⟩ := hinv.chunks.pow2 k1 c1 h1
  have e : k2 = k1 ^^^ c1.size := xor_eq_iff.mp hx
  rcases xor_two_pow_adj j k1 with h | h
  · rw [← hj] at h
    rw [h] at e
    rw [e] at h2
    exact hno k1 c1 c2 h1 h2 hs.symm
  · rw [← hj] at h
    rw [← e] at h
    rw [hs] at h
    rw [← h] at h1
    exact hno k2 c2 c1 h2 h1 hs

/-- Every way `free` can return normally. -/
theorem free_inv {N : Nat} (hN : N < 2 ^ 63) {a a' : Allocator} (hinv : Inv N a)
    (hsib : SibFree a) {p : Int} (h : Allocator.free a p = .ok a') :
    ∃ c, 0 ≤ toInt64 (p - a.base_) ∧
      mapFind (toInt64 (p - a.base_)).toNat a.chunks_ = some c ∧ c.in_use = true ∧
      Inv N a' ∧ SibFree a' ∧
      mapSum useSize a'.chunks_ + c.size = mapSum useSize a.chunks_ ∧
      SameUsed (freedState a (toInt64 (p - a.base_)).toNat c) a' ∧
      a'.base_ = a.base_ ∧ a'.size_ = a.size_ := by
  by_cases h0 : toInt64 (p - a.base_) < 0
  · rw [free_invalid (Or.inl h0)] at h; cases h
  · cases hc : mapFind (toInt64 (p - a.base_)).toNat a.chunks_ with
    | none => rw [free_invalid (Or.inr (Or.inl hc))] at h; cases h
    | some c =>
      cases hu : c.in_use with
      | false => rw [free_invalid (Or.inr (Or.inr ⟨c, hc, hu⟩))] at h; cases h
      | true =>
        obtain ⟨a'', hok, i1, i2, i3, i4, i5, i6⟩ := free_ok hN hinv hsib (by omega) hc hu
        rw [hok] at h
        injection h with h
        subst h
        exact ⟨c, by omega, rfl, hu, i1, i2, i3, i4, i5, i6⟩

/-- Every way `malloc` can return normally. -/
theorem malloc_inv {N : Nat} (hN : N < 2 ^ 63) {a a' : Allocator} (hinv : Inv N a)
    (hsib : SibFree a) {s : Nat} {p : Int} (h : Allocator.malloc a s = .ok (p, a')) :
    ∃ (a1 : Allocator) (cmit : Nat) (c' : AllocatorChunk),
      p = toInt64 ((cmit : Int) + a.base_) ∧ a' = usedState a1 cmit c' ∧
      Inv N a1 ∧ mapFind cmit a1.chunks_ = some c' ∧ c'.in_use = false ∧
      (c'.size : Int) = next_largest_power_of_2 (toInt64 s) ∧ SibFreeExcept a1 cmit ∧
      mapSum useSize a1.chunks_ = mapSum useSize a.chunks_ ∧ SameUsed a a1 ∧
      a1.base_ = a.base_ ∧ a1.size_ = a.size_ := by
  cases hlb : mapLowerBound (toSizeT (next_largest_power_of_2 (toInt64 s))) a.free_lists_ with
  | none => rw [malloc_oom hlb] at h; cases h
  | some e =>
    obtain ⟨S, l⟩ := e
    rcases malloc_found hN hinv hsib hlb with ⟨_, herr⟩ |
      ⟨a1, cmit, c', hok, i1, i2, i3, i4, i5, i6, i7, i8, i9⟩
    · rw [herr] at h; cases h
    · rw [hok] at h
      injection h with h
      injection h with h1 h2
      exact ⟨a1, cmit, c', h1.symm, h2.symm, i1, i2, i3, i4, i5, i6, i7, i8, i9⟩

/-- Invariants of every reachable state. -/
theorem reachable_inv {base N : Int} (h0 : 0 < N) (h1 : N < 2 ^ 63) {a : Allocator}
    (h : Reachable base N a) : Inv N.toNat a ∧ SibFree a ∧ a.base_ = base := by
  have hN : N.toNat < 2 ^ 63 := by omega
  induction h with
  | init hnew =>
    have hcast : N = ((N.toNat : Nat) : Int) := by omega
    rw [hcast] at hnew
    obtain ⟨a0, hok, i1, i2, _⟩ := new_spec base (n := N.toNat) (by omega) hN
    rw [hok] at hnew
    injection hnew with hnew
    subst hnew
    exact ⟨i1.inv, sibFree_of_noAdj i1.inv i1.noAdj, i2⟩
  | malloc _ hm ih =>
    obtain ⟨hinv, hsib, hb⟩ := ih
    obtain ⟨a1, cmit, c', _, e2, i1, i2, _, _, i5, _, _, i8, _⟩ := malloc_inv hN hinv hsib hm
    subst e2
    exact ⟨Inv_used i1 i2, used_sibFree i5, by simp only [usedState]; rw [i8, hb]⟩
  | free _ hf ih =>
    obtain ⟨hinv, hsib, hb⟩ := ih
    obtain ⟨c, _, _, _, i1, i2, _, _, i5, _⟩ := free_inv hN hinv hsib hf
    exact ⟨i1, i2, by rw [i5, hb]⟩

theorem toInt64_sub_add {k : Nat} (hk : k < 2 ^ 63) (b : Int) :
    toInt64 (toInt64 ((k : Int) + b) - b) = (k : Int) := by
  unfold toInt64
  omega

theorem toInt64_natCast {s : Nat} (h : s < 2 ^ 63) : toInt64 (s : Int) = (s : Int) := by
  apply toInt64_eq <;> omega

theorem useSum_le_total {N : Nat} {a : Allocator} (h : Inv N a) :
    mapSum useSize a.chunks_ + mapSum freeSize a.chunks_ = N := by
  rw [mapSum_use_free, h.chunks.total]

theorem total_bytes_in_use_def (a : Allocator) :
    a.total_bytes_in_use = toInt64 ((mapSum useSize a.chunks_ : Nat) : Int) := by
  unfold Allocator.total_bytes_in_use
  congr 1
  generalize a.chunks_ = m
  induction m with
  | nil => rfl
  | cons p m ih =>
    simp only [List.map_cons, List.sum_cons, mapSum, useSize] at ih ⊢
    rw [ih]
    split <;> simp

theorem total_bytes_free_def (a : Allocator) :
    a.total_bytes_free = toInt64 ((mapSum freeSize a.chunks_ : Nat) : Int) := by
  unfold Allocator.total_bytes_free
  congr 1
  generalize a.chunks_ = m
  induction m with
  | nil => rfl
  | cons p m ih =>
    simp only [List.map_cons, List.sum_cons, mapSum, freeSize] at ih ⊢
    rw [ih]
    split <;> simp

theorem total_bytes_def (a : Allocator) :
    a.total_bytes = toInt64 ((mapSum (fun c => c.size) a.chunks_ : Nat) : Int) := by
  unfold Allocator.total_bytes
  congr 1
  generalize a.chunks_ = m
  induction m with
  | nil => rfl
  | cons p m ih =>
    simp only [List.map_cons, List.sum_cons, mapSum] at ih ⊢
    rw [ih]
    simp

theorem total_bytes_in_use_eq {N : Nat} (hN : N < 2 ^ 63) {a : Allocator} (h : Inv N a) :
    a.total_bytes_in_use = (mapSum useSize a.chunks_ : Nat) := by
  have := useSum_le_total h
  rw [total_bytes_in_use_def]
  apply toInt64_eq <;> omega

theorem total_bytes_free_eq {N : Nat} (hN : N < 2 ^ 63) {a : Allocator} (h : Inv N a) :
    a.total_bytes_free = (mapSum freeSize a.chunks_ : Nat) := by
  have := useSum_le_total h
  rw [total_bytes_free_def]
  apply toInt64_eq <;> omega

theorem total_bytes_eq {N : Nat} (hN : N < 2 ^ 63) {a : Allocator} (h : Inv N a) :
    a.total_bytes = (N : Int) := by
  have := h.chunks.total
  rw [total_bytes_def, this]
  apply toInt64_eq <;> omega

/-- C1: in every state reached from a fresh `Allocator(base, N)` by successful `malloc` and
`free` calls (the fresh state included), `total_bytes_in_use() + total_bytes_free()
= total_bytes() = N`. -/
theorem C1_bytes_conserved {base N : Int} {a : Allocator} (h0 : 0 < N) (h1 : N < 2 ^ 63)
    (hr : Reachable base N a) :
    a.total_bytes_in_use + a.total_bytes_free = a.total_bytes ∧ a.total_bytes = N := by
  have hN : N.toNat < 2 ^ 63 := by omega
  obtain ⟨hinv, _, _⟩ := reachable_inv h0 h1 hr
  rw [total_bytes_in_use_eq hN hinv, total_bytes_free_eq hN hinv, total_bytes_eq hN hinv]
  have := useSum_le_total hinv
  omega

theorem isLeastPow2Ge_of_npo2 {s B : Nat} (hs1 : 1 ≤ s) (hs2 : s ≤ 2 ^ 62)
    (h : (B : Int) = next_largest_power_of_2 (toInt64 (s : Int))) : IsLeastPow2Ge s B := by
  have hs64 : toInt64 (s : Int) = (s : Int) :=
    toInt64_natCast (lt_of_le_of_lt hs2 (by norm_num))
  have h1' : (1 : Int) ≤ (s : Int) := by exact_mod_cast hs1
  have h2' : (s : Int) ≤ 2 ^ 62 := by exact_mod_cast hs2
  obtain ⟨j, _, hj, hle, hmin⟩ := npo2_spec h1' h2'
  rw [hs64, hj] at h
  have hsz : B = 2 ^ j := by exact_mod_cast h
  refine ⟨⟨j, hsz⟩, ?_, ?_⟩
  · rw [hsz]
    exact_mod_cast hle
  · intro i hi
    rw [hsz]
    have h2 : (s : Int) ≤ (2 : Int) ^ i := by exact_mod_cast hi
    have := hmin i h2
    exact_mod_cast this

/-- C2: in a reachable state, a successful `malloc(s)` with `1 ≤ s ≤ 2^62` returns an address
whose offset holds a chunk that is in use and whose size is exactly the least power of two not
below `s`; `total_bytes_in_use()` grows and `total_bytes_free()` shrinks by exactly that size. -/
theorem C2_malloc_effect {base N : Int} {a a' : Allocator} {s : Nat} {p : Int}
    (h0 : 0 < N) (h1 : N < 2 ^ 63) (hr : Reachable base N a) (hs1 : 1 ≤ s) (hs2 : s ≤ 2 ^ 62)
    (hm : a.malloc s = .ok (p, a')) :
    ∃ c, chunkAt a' (toInt64 (p - base)) = some c ∧ c.in_use = true ∧
      IsLeastPow2Ge s c.size ∧
      a'.total_bytes_in_use = a.total_bytes_in_use + c.size ∧
      a'.total_bytes_free = a.total_bytes_free - c.size := by
  have hN : N.toNat < 2 ^ 63 := by omega
  obtain ⟨hinv, hsib, hb⟩ := reachable_inv h0 h1 hr
  obtain ⟨hinv', _, _⟩ := reachable_inv h0 h1 (Reachable.malloc hr hm)
  obtain ⟨a1, cmit, c', e1, e2, i1, i2, i3, i4, _, i6, _, _, _⟩ := malloc_inv hN hinv hsib hm
  have hbound := i1.chunks.bound cmit c' i2
  have hcm : cmit < 2 ^ 63 := lt_of_le_of_lt (Nat.le_add_right _ _) (lt_of_le_of_lt hbound hN)
  have hoff : toInt64 (p - base) = (cmit : Int) := by
    rw [e1, hb]
    exact toInt64_sub_add hcm base
  have hfind : mapFind cmit a'.chunks_ = some { c' with in_use := true } := by
    rw [e2]
    simp [usedState, mapFind_mapPut]
  have u1 := useSum_le_total hinv
  have u2 := useSum_le_total hinv'
  have u3 : mapSum useSize a'.chunks_ = mapSum useSize a.chunks_ + c'.size := by
    rw [e2, used_useSum i1 i2 i3, i6]
  refine ⟨{ c' with in_use := true }, ?_, rfl, isLeastPow2Ge_of_npo2 hs1 hs2 i4, ?_, ?_⟩
  · unfold chunkAt
    rw [hoff]
    simp [hfind]
  · rw [total_bytes_in_use_eq hN hinv', total_bytes_in_use_eq hN hinv, u3]
    push_cast
    rfl
  · rw [total_bytes_free_eq hN hinv', total_bytes_free_eq hN hinv]
    simp only
    clear hm hr e1 e2 hoff hfind i4 i6 hinv hinv' hsib i1 i2 i3 hb
    omega

/-- C8 (sibling-free invariant): in every reachable state there are no two free chunks of
equal size whose offsets XOR to that size. -/
theorem C8_sibling_free {base N : Int} {a : Allocator} (h0 : 0 < N) (h1 : N < 2 ^ 63)
    (hr : Reachable base N a) :
    ∀ p1 ∈ a.chunks_, ∀ p2 ∈ a.chunks_,
      ¬ (p1.2.in_use = false ∧ p2.2.in_use = false ∧ p1.2.size = p2.2.size ∧
          p1.2.address ^^^ p2.2.address = p1.2.size) := by
  obtain ⟨hinv, hsib, _⟩ := reachable_inv h0 h1 hr
  rintro ⟨k1, c1⟩ hp1 ⟨k2, c2⟩ hp2 ⟨f1, f2, hs, hx⟩
  have g1 := mapFind_of_mem hinv.chunks.sorted hp1
  have g2 := mapFind_of_mem hinv.chunks.sorted hp2
  simp only at f1 f2 hs hx
  rw [hinv.chunks.addr k1 c1 g1, hinv.chunks.addr k2 c2 g2] at hx
  exact hsib k1 c1 k2 c2 g1 g2 f1 f2 hs hx

theorem ctorChunkSize_pow2 {j : Nat} (hj : j < 63) :
    ctorChunkSize ((2 ^ j : Nat) : Int) = 2 ^ j := by
  have hpos : 0 < 2 ^ j := Nat.pos_pow_of_pos _ (by norm_num)
  have hlt : 2 ^ j < 2 ^ 64 := Nat.pow_lt_pow_right (by norm_num) (by omega)
  unfold ctorChunkSize
  rw [int_land_natCast _ hpos, (land_pred_eq_zero_iff hpos).mpr ⟨j, rfl⟩]
  simp only [Nat.cast_zero, ne_eq, not_true_eq_false, if_false]
  exact toSizeT_natCast hlt

/-- A region whose size is a power of two becomes one free chunk. -/
theorem new_pow2 (base : Int) {j : Nat} (hj : j < 63) :
    Allocator.new base ((2 ^ j : Nat) : Int) =
      .ok ⟨base, 2 ^ j, [(0, ⟨false, 0, 2 ^ j⟩)], [(2 ^ j, [0])]⟩ := by
  have hpos : 0 < 2 ^ j := Nat.pos_pow_of_pos _ (by norm_num)
  have hlt : 2 ^ j < 2 ^ 64 := Nat.pow_lt_pow_right (by norm_num) (by omega)
  have hne : ¬ ((2 ^ j : Nat) : Int) = 0 := by
    have : (0 : Int) < ((2 ^ j : Nat) : Int) := by exact_mod_cast hpos
    omega
  have hgt : ((2 ^ j : Nat) : Int) > 0 := by exact_mod_cast hpos
  obtain ⟨f, hf⟩ : ∃ f, 2 ^ j = f + 1 := ⟨2 ^ j - 1, by omega⟩
  unfold Allocator.new
  rw [if_neg hne, Int.toNat_ofNat, toSizeT_natCast hlt]
  rw [add_chunks_step _ hgt (by rfl), ctorChunkSize_pow2 hj]
  have e : toInt64 (((2 ^ j : Nat) : Int) - ((2 ^ j : Nat) : Int)) = 0 := by
    rw [sub_self]; decide
  rw [e, hf, add_chunks_stop f (by decide)]
  rfl

theorem no_free_of_freeSum_zero {N : Nat} {a : Allocator} (hinv : Inv N a)
    (h : mapSum freeSize a.chunks_ = 0) :
    ∀ p ∈ a.chunks_, p.2.in_use = true := by
  rintro ⟨k, c⟩ hp
  have hf := mapFind_of_mem hinv.chunks.sorted hp
  have hle := mapSum_le freeSize hf
  have hpos := hinv.chunks.size_pos hf
  cases hu : c.in_use with
  | true => rfl
  | false =>
    simp only [freeSize, hu] at hle
    simp at hle
    omega

theorem malloc_oom_iff {N : Nat} (hN : N < 2 ^ 63) {a : Allocator} (hinv : Inv N a)
    (hsib : SibFree a) (s : Nat) :
    a.malloc s = .error .OutOfMemory ↔
      ¬ ∃ p ∈ a.chunks_, p.2.in_use = false ∧
        toSizeT (next_largest_power_of_2 (toInt64 s)) ≤ p.2.size := by
  constructor
  · intro hm
    rintro ⟨⟨k, c⟩, hp, hfree, hle⟩
    have hf := mapFind_of_mem hinv.chunks.sorted hp
    obtain ⟨l, hl, _⟩ := (hinv.flc c.size k).mpr ⟨c, hf, rfl, hfree⟩
    obtain ⟨⟨S, l'⟩, hlb⟩ := mapLowerBound_isSome_of hl hle
    rcases malloc_found hN hinv hsib hlb with ⟨_, herr⟩ | ⟨a1, cmit, c', hok, _⟩
    · rw [herr] at hm; cases hm
    · rw [hok] at hm; cases hm
  · intro hno
    cases hlb : mapLowerBound (toSizeT (next_largest_power_of_2 (toInt64 s))) a.free_lists_ with
    | none => exact malloc_oom hlb
    | some e =>
      exfalso
      obtain ⟨S, l⟩ := e
      obtain ⟨hfind, hle, _⟩ := mapLowerBound_some hinv.fl.1 hlb
      have hlne := (hinv.fl.2 S l hfind).1
      obtain ⟨k, hk⟩ : ∃ k, k ∈ l := by
        cases l with
        | nil => exact absurd rfl hlne
        | cons x r => exact ⟨x, List.mem_cons_self _ _⟩
      obtain ⟨c, hc, hcs, hcf⟩ := (hinv.flc S k).mp ⟨l, hfind, hk⟩
      exact hno ⟨(k, c), mapFind_some_mem hc, hcf, by simp only [hcs]; exact hle⟩

theorem npo2_pow2 {j : Nat} (hj : j ≤ 62) :
    next_largest_power_of_2 (toInt64 ((2 ^ j : Nat) : Int)) = ((2 ^ j : Nat) : Int) := by
  have hs62 : 2 ^ j ≤ 2 ^ 62 := Nat.pow_le_pow_right (by norm_num) hj
  have hs64 : toInt64 ((2 ^ j : Nat) : Int) = ((2 ^ j : Nat) : Int) :=
    toInt64_natCast (lt_of_le_of_lt hs62 (by norm_num))
  have h1' : (1 : Int) ≤ ((2 ^ j : Nat) : Int) := by
    have : 1 ≤ 2 ^ j := Nat.pos_pow_of_pos _ (by norm_num)
    exact_mod_cast this
  have h2' : ((2 ^ j : Nat) : Int) ≤ 2 ^ 62 := by exact_mod_cast hs62
  obtain ⟨i, _, hi, hle, hmin⟩ := npo2_spec h1' h2'
  rw [hs64, hi]
  have hc : ((2 ^ j : Nat) : Int) = (2 : Int) ^ j := by push_cast; rfl
  have := hmin j (le_of_eq hc)
  rw [hc] at hle ⊢
  exact le_antisymm this hle

/-- In a reachable state `malloc(s)` throws `Allocator::Exception` (out of memory) exactly
when the chunk map holds no free chunk whose size reaches the size class that the code
computes, `next_largest_power_of_2(s)` read as `size_t`; and on a fresh allocator whose size
`N` is a power of two, `malloc(N)` succeeds and every `malloc` after it throws. -/
theorem malloc_throws_iff_no_class {base N : Int} {a : Allocator} (h0 : 0 < N) (h1 : N < 2 ^ 63)
    (hr : Reachable base N a) (s : Nat) :
    (a.malloc s = .error .OutOfMemory ↔
      ¬ ∃ p ∈ a.chunks_, p.2.in_use = false ∧
        toSizeT (next_largest_power_of_2 (toInt64 s)) ≤ p.2.size) ∧
    ((∃ j : Nat, N = 2 ^ j) → ∀ a0, Allocator.new base N = .ok a0 →
      ∃ p a1, a0.malloc N.toNat = .ok (p, a1) ∧
        ∀ s', a1.malloc s' = .error .OutOfMemory) := by
  have hN : N.toNat < 2 ^ 63 := by omega
  obtain ⟨hinv, hsib, _⟩ := reachable_inv h0 h1 hr
  refine ⟨malloc_oom_iff hN hinv hsib s, ?_⟩
  rintro ⟨j, hj⟩ a0 hnew
  have hNn : N.toNat = 2 ^ j := by
    have : ((N.toNat : Nat) : Int) = ((2 ^ j : Nat) : Int) := by
      rw [Int.toNat_of_nonneg (le_of_lt h0), hj]; push_cast; rfl
    exact_mod_cast this
  have hj63 : j < 63 := two_pow_lt_two_pow63 (N := N.toNat) (by rw [hNn]) hN
  have hcast : N = ((2 ^ j : Nat) : Int) := by rw [hj]; push_cast; rfl
  have hr0 : Reachable base N a0 := Reachable.init hnew
  obtain ⟨hinv0, hsib0, _⟩ := reachable_inv h0 h1 hr0
  have hnew' := hnew
  rw [hcast, new_pow2 base hj63] at hnew'
  injection hnew' with hnew'
  have hlt : 2 ^ j < 2 ^ 64 := Nat.pow_lt_pow_right (by norm_num) (by omega)
  have hlb : mapLowerBound
      (toSizeT (next_largest_power_of_2 (toInt64 ((2 ^ j : Nat) : Int)))) a0.free_lists_
      = some (2 ^ j, [0]) := by
    rw [npo2_pow2 (by omega), toSizeT_natCast hlt, ← hnew']
    simp [mapLowerBound]
  have huse0 : mapSum useSize a0.chunks_ = 0 := by
    rw [← hnew']
    simp [mapSum, useSize]
  rw [hNn]
  rcases malloc_found hN hinv0 hsib0 hlb with ⟨hz, _⟩ |
    ⟨a1, cmit, c', hok, i1, i2, i3, i4, _, i6, _, _, _⟩
  · exfalso
    rw [npo2_pow2 (by omega)] at hz
    have : (0 : Int) < ((2 ^ j : Nat) : Int) := by
      have : 0 < 2 ^ j := Nat.pos_pow_of_pos _ (by norm_num)
      exact_mod_cast this
    rw [hz] at this
    exact absurd this (lt_irrefl _)
  · refine ⟨_, _, hok, ?_⟩
    intro s'
    obtain ⟨hinv1, hsib1, _⟩ := reachable_inv h0 h1 (Reachable.malloc hr0 hok)
    rw [malloc_oom_iff hN hinv1 hsib1 s']
    rintro ⟨q, hq, hfree, _⟩
    have hsz : c'.size = 2 ^ j := by
      rw [npo2_pow2 (by omega)] at i4
      exact_mod_cast i4
    have u2 := useSum_le_total hinv1
    have u3 : mapSum useSize (usedState a1 cmit c').chunks_ = 2 ^ j := by
      rw [used_useSum i1 i2 i3, i6, huse0, hsz, Nat.zero_add]
    have hz : mapSum freeSize (usedState a1 cmit c').chunks_ = 0 := by
      rw [u3, hNn] at u2
      exact Nat.add_left_cancel u2
    have := no_free_of_freeSum_zero hinv1 hz q hq
    rw [hfree] at this
    cases this

/-- C10: for `0 < N` the constructor returns; all chunks it creates are free and referenced
from the free list of their size, each size is a power of two, each chunk's offset is the sum
of the sizes of the chunks before it (so the layout starts at offset 0 without gaps), and the
sizes sum to `N`. -/
theorem C10_constructor (base : Int) {N : Int} (h0 : 0 < N) (h1 : N < 2 ^ 63) :
    ∃ a, Allocator.new base N = .ok a ∧
      (∀ p ∈ a.chunks_, p.2.in_use = false ∧ (∃ j : Nat, p.2.size = 2 ^ j) ∧
        p.2.address = p.1 ∧ memFL a.free_lists_ p.2.size p.1) ∧
      (∀ l1 p l2, a.chunks_ = l1 ++ p :: l2 →
        p.2.address = (l1.map (fun q => q.2.size)).sum) ∧
      (((a.chunks_.map (fun q => q.2.size)).sum : Nat) : Int) = N := by
  have hN : N.toNat < 2 ^ 63 := by omega
  have hcast : N = ((N.toNat : Nat) : Int) := by omega
  obtain ⟨a, hok, hinv, _, _⟩ := new_spec base (n := N.toNat) (by omega) hN
  rw [← hcast] at hok
  refine ⟨a, hok, ?_, ?_, ?_⟩
  · rintro ⟨k, c⟩ hp
    have hf := mapFind_of_mem hinv.inv.chunks.sorted hp
    have hfree := hinv.allFree k c hf
    exact ⟨hfree, hinv.inv.chunks.pow2 k c hf, hinv.inv.chunks.addr k c hf,
      (hinv.inv.flc c.size k).mpr ⟨c, hf, rfl, hfree⟩⟩
  · intro l1 p l2 hl
    have := hinv.contig
    rw [hl] at this
    have := contigTo_offset this
    omega
  · have := hinv.inv.chunks.total
    unfold mapSum at this
    rw [this]
    exact hcast.symm

set_option maxRecDepth 100000 in

theorem new_0_12 : Allocator.new 0 12 = .ok fresh12 := by rfl

set_option maxRecDepth 100000 in

theorem malloc_fresh12_3 : fresh12.malloc 3 = .ok (8, used12) := by rfl

set_option maxRecDepth 100000 in

theorem free_used12_8 : used12.free 8 = .ok fresh12 := by rfl

set_option maxRecDepth 100000 in

theorem new_0_16 : Allocator.new 0 16 = .ok fresh16 := by rfl

set_option maxRecDepth 100000 in

theorem malloc_fresh16_16 : fresh16.malloc 16 = .ok (0, full16) := by rfl

set_option maxRecDepth 100000 in

theorem malloc_full16_1 : full16.malloc 1 = .error .OutOfMemory := by rfl

set_option maxRecDepth 100000 in

theorem new_0_5 : Allocator.new 0 5 = .ok fresh5 := by rfl

theorem reach_fresh12 : Reachable 0 12 fresh12 := Reachable.init new_0_12

theorem reach_used12 : Reachable 0 12 used12 := Reachable.malloc reach_fresh12 malloc_fresh12_3

theorem reach_fresh16 : Reachable 0 16 fresh16 := Reachable.init new_0_16

theorem reach_full16 : Reachable 0 16 full16 := Reachable.malloc reach_fresh16 malloc_fresh16_16

theorem int12_lt : (12 : Int) < 2 ^ 63 := by norm_num

theorem int16_lt : (16 : Int) < 2 ^ 63 := by norm_num

theorem C1_witness :
    (0 : Int) < 12 ∧ (12 : Int) < 2 ^ 63 ∧ Reachable 0 12 used12 ∧
      (used12.total_bytes_in_use + used12.total_bytes_free = used12.total_bytes ∧
        used12.total_bytes = 12) :=
  ⟨by decide, int12_lt, reach_used12, C1_bytes_conserved (by decide) int12_lt reach_used12⟩

theorem C2_witness :
    (0 : Int) < 12 ∧ (12 : Int) < 2 ^ 63 ∧ Reachable 0 12 fresh12 ∧ 1 ≤ 3 ∧ 3 ≤ 2 ^ 62 ∧
      fresh12.malloc 3 = .ok (8, used12) ∧
      ∃ c, chunkAt used12 (toInt64 (8 - 0)) = some c ∧ c.in_use = true ∧
        IsLeastPow2Ge 3 c.size ∧
        used12.total_bytes_in_use = fresh12.total_bytes_in_use + c.size ∧
        used12.total_bytes_free = fresh12.total_bytes_free - c.size :=
  ⟨by decide, int12_lt, reach_fresh12, by decide, by norm_num, malloc_fresh12_3,
    C2_malloc_effect (by decide) int12_lt reach_fresh12 (by decide) (by norm_num)
      malloc_fresh12_3⟩

theorem malloc_throws_iff_no_class_at_full16 :
    (0 : Int) < 16 ∧ (16 : Int) < 2 ^ 63 ∧ Reachable 0 16 full16 ∧
    ((full16.malloc 1 = .error .OutOfMemory ↔
      ¬ ∃ p ∈ full16.chunks_, p.2.in_use = false ∧
        toSizeT (next_largest_power_of_2 (toInt64 (1 : Nat))) ≤ p.2.size) ∧
    ((∃ j : Nat, (16 : Int) = 2 ^ j) → ∀ a0, Allocator.new 0 16 = .ok a0 →
      ∃ p a1, a0.malloc (16 : Int).toNat = .ok (p, a1) ∧
        ∀ s', a1.malloc s' = .error .OutOfMemory)) :=
  ⟨by decide, int16_lt, reach_full16, malloc_throws_iff_no_class (by decide) int16_lt reach_full16 1⟩

theorem C8_witness :
    (0 : Int) < 12 ∧ (12 : Int) < 2 ^ 63 ∧ Reachable 0 12 fresh12 ∧
    ∀ p1 ∈ fresh12.chunks_, ∀ p2 ∈ fresh12.chunks_,
      ¬ (p1.2.in_use = false ∧ p2.2.in_use = false ∧ p1.2.size = p2.2.size ∧
          p1.2.address ^^^ p2.2.address = p1.2.size) :=
  ⟨by decide, int12_lt, reach_fresh12, C8_sibling_free (by decide) int12_lt reach_fresh12⟩

theorem C10_witness :
    (0 : Int) < 12 ∧ (12 : Int) < 2 ^ 63 ∧
    Allocator.new 0 12 = .ok ⟨0, 12, [(0, ⟨false, 0, 8⟩), (8, ⟨false, 8, 4⟩)],
      [(4, [8]), (8, [0])]⟩ ∧
    ∃ a, Allocator.new 0 12 = .ok a ∧
      (∀ p ∈ a.chunks_, p.2.in_use = false ∧ (∃ j : Nat, p.2.size = 2 ^ j) ∧
        p.2.address = p.1 ∧ memFL a.free_lists_ p.2.size p.1) ∧
      (∀ l1 p l2, a.chunks_ = l1 ++ p :: l2 →
        p.2.address = (l1.map (fun q => q.2.size)).sum) ∧
      (((a.chunks_.map (fun q => q.2.size)).sum : Nat) : Int) = 12 :=
  ⟨by decide, int12_lt, new_0_12, C10_constructor 0 (by decide) int12_lt⟩

set_option maxRecDepth 100000 in

theorem malloc_fresh5_1 : fresh5.malloc 1 = .ok (2, a5_1) := by rfl

set_option maxRecDepth 100000 in

theorem malloc_a5_1_1 : a5_1.malloc 1 = .ok (4, a5_2) := by rfl

set_option maxRecDepth 100000 in

theorem free_a5_2_2 : a5_2.free 2 = .ok a5_3 := by rfl

set_option maxRecDepth 100000 in

theorem free_a5_3_4 : a5_3.free 4 = .ok a5_4 := by rfl

set_option maxRecDepth 100000 in

theorem malloc_a5_3_3 : a5_3.malloc 3 = .ok (0, a5_5) := by rfl

set_option maxRecDepth 100000 in

theorem malloc_fresh5_2 : fresh5.malloc 2 = .ok (3, a5_6) := by rfl

/-- C5 (code at the failing input): on `Allocator(0, 5)` the calls `malloc(1)`, `malloc(1)`,
`free(2)`, `free(4)` all return, no allocation is live afterwards, and the chunk map is
`{0,4}, {4,1}` instead of the constructor's `{0,2}, {2,1}, {3,2}`. -/
theorem C5_not_canonical_at_5 :
    Allocator.new 0 5 = .ok fresh5 ∧ fresh5.malloc 1 = .ok (2, a5_1) ∧
    a5_1.malloc 1 = .ok (4, a5_2) ∧ a5_2.free 2 = .ok a5_3 ∧ a5_3.free 4 = .ok a5_4 ∧
    (∀ p ∈ a5_4.chunks_, p.2.in_use = false) ∧ a5_4.chunks_ ≠ fresh5.chunks_ :=
  ⟨new_0_5, malloc_fresh5_1, malloc_a5_1_1, free_a5_2_2, free_a5_3_4, by decide, by decide⟩

/-- C7 (code at the failing input): on `Allocator(0, 5)`, `malloc(2)` returns address 3,
which is not a multiple of `next_largest_power_of_2(2) = 2`. -/
theorem C7_misaligned_at_5 :
    Allocator.new 0 5 = .ok fresh5 ∧ fresh5.malloc 2 = .ok (3, a5_6) ∧
    next_largest_power_of_2 2 = 2 ∧ ((3 : Int) - 0) % next_largest_power_of_2 2 = 1 :=
  ⟨new_0_5, malloc_fresh5_2, by decide, by decide⟩

/-- C9 (code at the failing input): on `Allocator(0, 5)` the largest chunk the constructor
creates has size 2, yet after `malloc(1)`, `malloc(1)`, `free(2)` the request `malloc(3)`, of
size class 4, is served at address 0. -/
theorem C9_served_above_largest_at_5 :
    Allocator.new 0 5 = .ok fresh5 ∧ (∀ p ∈ fresh5.chunks_, p.2.size ≤ 2) ∧
    fresh5.malloc 1 = .ok (2, a5_1) ∧ a5_1.malloc 1 = .ok (4, a5_2) ∧
    a5_2.free 2 = .ok a5_3 ∧ next_largest_power_of_2 3 = 4 ∧
    a5_3.malloc 3 = .ok (0, a5_5) :=
  ⟨new_0_5, by decide, malloc_fresh5_1, malloc_a5_1_1, free_a5_2_2, by decide, malloc_a5_3_3⟩

theorem mapFind_flAdd (S k S' : Nat) (fls : FreeListMap) :
    mapFind S' (flAdd S k fls) =
      if S' = S then some (k :: (mapFind S fls).getD []) else mapFind S' fls := by
  unfold flAdd
  rw [mapFind_mapPut]

theorem mapFind_flRemove_ne {S S' : Nat} (k : Nat) {fls : FreeListMap} (hs : KeysSorted fls)
    (hne : S' ≠ S) : mapFind S' (flRemove S k fls) = mapFind S' fls := by
  unfold flRemove
  by_cases h : (((mapFind S fls).getD []).erase k).length = 0
  · simp only [h, if_true]
    rw [mapFind_mapErase S' hs]
    simp [hne]
  · simp only [h, if_false]
    rw [mapFind_mapPut]
    simp [hne]

/-- Erasing the reference that was just pushed restores the free-list map. -/
theorem flRemove_flAdd {S k : Nat} {fls : FreeListMap} (hs : KeysSorted fls)
    (hne : ∀ l, mapFind S fls = some l → l ≠ []) : flRemove S k (flAdd S k fls) = fls := by
  unfold flRemove
  rw [mapFind_flAdd]
  simp only [if_true, Option.getD_some, List.erase_cons_head]
  cases hf : mapFind S fls with
  | none =>
    simp only [Option.getD_none, List.length_nil, if_true]
    unfold flAdd
    exact mapErase_mapPut hs hf
  | some l =>
    have hl := hne l hf
    have hlen : ¬ l.length = 0 := by
      intro e
      exact hl (List.length_eq_zero.mp e)
    simp only [Option.getD_some, hlen, if_false]
    unfold flAdd
    rw [mapPut_mapPut]
    exact mapPut_self hs hf

/-- Pushing back the reference that was erased from the front restores the free-list map. -/
theorem flAdd_flRemove_front {S k : Nat} {rest : List Nat} {fls : FreeListMap}
    (hs : KeysSorted fls) (hf : mapFind S fls = some (k :: rest)) :
    flAdd S k (flRemove S k fls) = fls := by
  unfold flRemove
  simp only [hf, Option.getD_some, List.erase_cons_head]
  by_cases h : rest.length = 0
  · have hr : rest = [] := List.length_eq_zero.mp h
    simp only [h, if_true]
    unfold flAdd
    rw [mapFind_mapErase S hs]
    simp only [if_true, Option.getD_none]
    rw [← hr]
    exact mapPut_mapErase hs hf
  · simp only [h, if_false]
    unfold flAdd
    rw [mapFind_mapPut]
    simp only [if_true, Option.getD_some]
    rw [mapPut_mapPut]
    exact mapPut_self hs hf

theorem allocator_eq {a b : Allocator} (h1 : a.base_ = b.base_) (h2 : a.size_ = b.size_)
    (h3 : a.chunks_ = b.chunks_) (h4 : a.free_lists_ = b.free_lists_) : a = b := by
  cases a
  cases b
  simp only at h1 h2 h3 h4
  subst h1; subst h2; subst h3; subst h4
  rfl

/-- Marking the front chunk of its class in use and freeing it again restores the state. -/
theorem freed_used_eq {N : Nat} {a : Allocator} (hinv : Inv N a) {cmit : Nat}
    {c : AllocatorChunk} {rest : List Nat} (hc : mapFind cmit a.chunks_ = some c)
    (hfree : c.in_use = false) (hfront : mapFind c.size a.free_lists_ = some (cmit :: rest)) :
    freedState (usedState a cmit c) cmit { c with in_use := true } = a := by
  apply allocator_eq
  · rfl
  · rfl
  · simp only [freedState, usedState, mapPut_mapPut]
    have : ({ in_use := false, address := c.address, size := c.size } : AllocatorChunk) = c := by
      cases c
      simp only at hfree
      subst hfree
      rfl
    rw [this]
    exact mapPut_self hinv.chunks.sorted hc
  · simp only [freedState, usedState]
    exact flAdd_flRemove_front hinv.fl.1 hfront

/-- Merging the two halves that one pass of the splitting loop created restores the state. -/
theorem merged_split_eq {N : Nat} {a : Allocator} (hinv : Inv N a) {cmit sz : Nat}
    {c : AllocatorChunk} {rest : List Nat} (hc : mapFind cmit a.chunks_ = some c)
    (hfree : c.in_use = false) (hsz : c.size = 2 * sz) (hpos : 0 < sz) (hlt : sz * 2 < 2 ^ 64)
    (hfront : mapFind c.size a.free_lists_ = some (cmit :: rest))
    (hnone : mapFind sz a.free_lists_ = none) :
    mergedState (splitState a cmit c sz) cmit (cmit + sz) ⟨false, cmit, sz⟩ = a := by
  have hk : c.address = cmit := hinv.chunks.addr cmit c hc
  have hmod : (sz * 2) % 2 ^ 64 = sz * 2 := Nat.mod_eq_of_lt hlt
  have hcn : mapFind (cmit + sz) a.chunks_ = none := by
    cases hf' : mapFind (cmit + sz) a.chunks_ with
    | none => rfl
    | some d =>
      have := hinv.chunks.disj cmit c (cmit + sz) d hc hf' (by omega)
      omega
  have hceq : (⟨false, cmit, sz * 2⟩ : AllocatorChunk) = c := by
    cases c
    simp only at hfree hk hsz
    subst hfree; subst hk
    rw [hsz, Nat.mul_comm]
  apply allocator_eq
  · rfl
  · rfl
  · simp only [mergedState, splitState, hk, hmod]
    have hs1 : KeysSorted (mapPut (cmit + sz) (⟨false, cmit + sz, sz⟩ : AllocatorChunk)
        (mapPut cmit ⟨false, cmit, sz⟩ a.chunks_)) :=
      keysSorted_mapPut (keysSorted_mapPut hinv.chunks.sorted)
    apply map_ext (keysSorted_mapPut (keysSorted_mapErase hs1)) hinv.chunks.sorted
    intro k
    rw [mapFind_mapPut, mapFind_mapErase k hs1, mapFind_mapPut, mapFind_mapPut]
    by_cases e1 : k = cmit
    · subst e1
      simp only [if_true]
      rw [hc, hceq]
    · simp only [e1, if_false]
      by_cases e2 : k = cmit + sz
      · subst e2
        simp only [if_true]
        exact hcn.symm
      · simp only [e2, if_false]
  · simp only [mergedState, splitState, hk, hmod]
    have hs0 : KeysSorted (flRemove c.size cmit a.free_lists_) := (FLOK_flRemove hinv.fl).1
    have hne : sz ≠ c.size := by omega
    have hn0 : mapFind sz (flRemove c.size cmit a.free_lists_) = none := by
      rw [mapFind_flRemove_ne cmit hinv.fl.1 hne]; exact hnone
    have hs1 : KeysSorted (flAdd sz cmit (flRemove c.size cmit a.free_lists_)) :=
      keysSorted_mapPut hs0
    have e1 : flRemove sz (cmit + sz)
        (flAdd sz (cmit + sz) (flAdd sz cmit (flRemove c.size cmit a.free_lists_))) =
        flAdd sz cmit (flRemove c.size cmit a.free_lists_) := by
      apply flRemove_flAdd hs1
      intro l hl
      rw [mapFind_flAdd] at hl
      simp only [if_true] at hl
      injection hl with hl
      rw [← hl]
      simp
    have e2 : flRemove sz cmit (flAdd sz cmit (flRemove c.size cmit a.free_lists_)) =
        flRemove c.size cmit a.free_lists_ := by
      apply flRemove_flAdd hs0
      intro l hl
      rw [hn0] at hl
      cases hl
    rw [e1, e2]
    have e3 : sz * 2 = c.size := by omega
    rw [e3]
    exact flAdd_flRemove_front hinv.fl.1 hfront

theorem xor_add_pow_of_dvd {j k : Nat} (h : 2 ^ (j + 1) ∣ k) : (k + 2 ^ j) ^^^ 2 ^ j = k := by
  have hmod : (k + 2 ^ j) % 2 ^ (j + 1) = 2 ^ j := by
    obtain ⟨q, hq⟩ := h
    rw [hq, Nat.mul_add_mod]
    apply Nat.mod_eq_of_lt
    rw [pow_succ]
    have : 0 < 2 ^ j := Nat.pos_pow_of_pos _ (by norm_num)
    omega
  rcases xor_two_pow j (k + 2 ^ j) with ⟨_, h2⟩ | ⟨h1, _⟩
  · rw [hmod] at h2
    omega
  · omega

/-- What `malloc` knows after `lower_bound` has found the class `(S, l)`: the front chunk of
the class, the shape of the request class `B`, and that no class lies between `B` and `S`. -/
theorem malloc_pre {N : Nat} (hN : N < 2 ^ 63) {a : Allocator} (hinv : Inv N a)
    {s S : Nat} {l : FreeList}
    (hlb : mapLowerBound (toSizeT (next_largest_power_of_2 (toInt64 s))) a.free_lists_
      = some (S, l)) :
    ∃ (cmit : Nat) (rest : List Nat) (c : AllocatorChunk) (j : Nat),
      l = cmit :: rest ∧ mapFind cmit a.chunks_ = some c ∧ c.in_use = false ∧ c.size = S ∧
      c.size = 2 ^ j ∧ j < 63 ∧ mapFind c.size a.free_lists_ = some (cmit :: rest) ∧
      (next_largest_power_of_2 (toInt64 s) = 0 ∨
        ∃ b : Nat, next_largest_power_of_2 (toInt64 s) = 2 ^ b) ∧
      next_largest_power_of_2 (toInt64 s) ≤ (c.size : Int) ∧
      toInt64 (S : Int) = (c.size : Int) ∧
      LoopCond a cmit (next_largest_power_of_2 (toInt64 s)) c.size ∧
      (∀ S' : Nat, next_largest_power_of_2 (toInt64 s) ≤ (S' : Int) → S' < c.size →
        mapFind S' a.free_lists_ = none) := by
  obtain ⟨hfind, hle, hmin⟩ := mapLowerBound_some hinv.fl.1 hlb
  have hlne := (hinv.fl.2 S l hfind).1
  obtain ⟨cmit, rest, hl⟩ : ∃ cmit rest, l = cmit :: rest := by
    cases l with
    | nil => exact absurd rfl hlne
    | cons x r => exact ⟨x, r, rfl⟩
  have hmem : memFL a.free_lists_ S cmit := ⟨l, hfind, by rw [hl]; exact List.mem_cons_self _ _⟩
  obtain ⟨c, hc, hcs, hcf⟩ := (hinv.flc _ _).mp hmem
  have hbound := hinv.chunks.bound cmit c hc
  have hSN : S < 2 ^ 63 := by omega
  obtain ⟨j, hj⟩ := hinv.chunks.pow2 cmit c hc
  have hj63 : j < 63 := two_pow_lt_two_pow63 (N := S) (by rw [← hj, hcs]) hSN
  generalize hBdef : next_largest_power_of_2 (toInt64 s) = B at hlb hle hmin ⊢
  have hB : (B = 0 ∨ ∃ b : Nat, B = 2 ^ b) ∧ toSizeT B = B.toNat ∧ 0 ≤ B := by
    rcases npo2_cases (toInt64 s) with h | h | ⟨b, hb, h⟩
    · rw [hBdef] at h
      subst h
      exact ⟨Or.inl rfl, by decide, le_refl _⟩
    · rw [hBdef] at h
      exfalso
      have : 2 ^ 63 ≤ toSizeT B := toSizeT_neg (by rw [h]) (by rw [h]; norm_num)
      omega
    · rw [hBdef] at h
      have hpos : (0 : Int) < 2 ^ b := by positivity
      have hlt : (2 : Int) ^ b < 2 ^ 64 := by
        have : (2 : Int) ^ b ≤ 2 ^ 62 := pow_le_pow_right₀ (by norm_num) hb
        have : (2 : Int) ^ 62 < 2 ^ 64 := by norm_num
        omega
      exact ⟨Or.inr ⟨b, h⟩, by rw [h]; exact toSizeT_eq (le_of_lt hpos) hlt, by rw [h]; omega⟩
  obtain ⟨hB1, hB2, hB3⟩ := hB
  have hBS : B ≤ (c.size : Int) := by
    rw [hcs]
    rw [hB2] at hle
    omega
  have hloop : LoopCond a cmit B c.size := by
    intro k c' hk hf _ hBc
    obtain ⟨l', hl', _⟩ := (hinv.flc c'.size k).mpr ⟨c', hk, rfl, hf⟩
    have := hmin c'.size l' hl' (by rw [hB2]; omega)
    omega
  have hnc : ∀ S' : Nat, B ≤ (S' : Int) → S' < c.size → mapFind S' a.free_lists_ = none := by
    intro S' h1 h2
    cases hf : mapFind S' a.free_lists_ with
    | none => rfl
    | some l' =>
      have := hmin S' l' hf (by rw [hB2]; omega)
      omega
  have hcs64 : toInt64 (S : Int) = (c.size : Int) := by
    rw [hcs]
    exact toInt64_natCast hSN
  exact ⟨cmit, rest, c, j, hl, hc, hcf, hcs, hj, hj63, by rw [hcs, hfind, hl], hB1, hBS,
    hcs64, hloop, hnc⟩

/-- The tail of `malloc` once the splitting loop has returned `(a1, cmit1)`. -/
theorem malloc_of_subdivide {N : Nat} {a a1 : Allocator} {s S cmit cmit1 : Nat}
    {rest : List Nat} {c c1 : AllocatorChunk}
    (hlb : mapLowerBound (toSizeT (next_largest_power_of_2 (toInt64 s))) a.free_lists_
      = some (S, cmit :: rest))
    (hcs64 : toInt64 (S : Int) = (c.size : Int))
    (hok : Allocator.subdivide 65 a cmit (c.size : Int)
      (next_largest_power_of_2 (toInt64 s)) = .ok (a1, cmit1))
    (i1 : Inv N a1) (i2 : mapFind cmit1 a1.chunks_ = some c1) (i3 : c1.in_use = false)
    (i8 : a1.base_ = a.base_) :
    Allocator.malloc a s = .ok (toInt64 ((cmit1 : Int) + a.base_), usedState a1 cmit1 c1) := by
  have hm1 : memFL a1.free_lists_ c1.size cmit1 := (i1.flc _ _).mpr ⟨c1, i2, rfl, i3⟩
  have hk1 : c1.address = cmit1 := i1.chunks.addr cmit1 c1 i2
  unfold Allocator.malloc
  simp only [hlb, List.head?_cons, hcs64]
  simp only [hok]
  simp only [bind, Except.bind]
  rw [set_in_use_ok true i2]
  simp only []
  rw [remove_from_free_list_ok (a := { a1 with chunks_ := mapPut cmit1 { c1 with in_use := true } a1.chunks_ })
    (c := { c1 with in_use := true }) (by simp [mapFind_mapPut]) hm1]
  simp only [mapFind_mapPut, if_true, mapPut_mapPut]
  have e : toInt64 ((c1.address : Int) + a1.base_) = toInt64 ((cmit1 : Int) + a.base_) := by
    rw [hk1, i8]
  rw [e]
  rfl

/-- Splitting a front chunk down to the request class and merging back from the piece that
`malloc` hands out: the merge recursion undoes every split and then continues from the
original chunk in the original state. -/
theorem roundtrip_aux {N : Nat} (hN : N < 2 ^ 63) {B : Int} (hB : ∃ b : Nat, B = 2 ^ b) :
    ∀ (fuel j : Nat) (a : Allocator) (cmit : Nat) (c : AllocatorChunk) (rest : List Nat),
      Inv N a → mapFind cmit a.chunks_ = some c → c.in_use = false → c.size = 2 ^ j →
      j < fuel → B ≤ (c.size : Int) →
      mapFind c.size a.free_lists_ = some (cmit :: rest) →
      (∀ S : Nat, B ≤ (S : Int) → S < c.size → mapFind S a.free_lists_ = none) →
      (B < (c.size : Int) → c.size ∣ cmit) →
      ∃ (a' : Allocator) (cmit' : Nat) (c' : AllocatorChunk) (rest' : List Nat) (d : Nat),
        Allocator.subdivide fuel a cmit (c.size : Int) B = .ok (a', cmit') ∧
        Inv N a' ∧ mapFind cmit' a'.chunks_ = some c' ∧ c'.in_use = false ∧
        mapFind c'.size a'.free_lists_ = some (cmit' :: rest') ∧
        a'.base_ = a.base_ ∧
        a'.chunks_.length = a.chunks_.length + d ∧
        ∀ m, try_merge_buddy_recursive (m + d) a' cmit' = try_merge_buddy_recursive m a cmit := by
  intro fuel
  induction fuel with
  | zero => intro j a cmit c rest _ _ _ _ hj; omega
  | succ fuel ih =>
    intro j a cmit c rest hinv hc hfree hsize hj hle hfront hnc halign
    have hk : c.address = cmit := hinv.chunks.addr cmit c hc
    have hmem : memFL a.free_lists_ c.size cmit := (hinv.flc _ _).mpr ⟨c, hc, rfl, hfree⟩
    by_cases hgt : (c.size : Int) > B
    · cases j with
      | zero =>
        exfalso
        obtain ⟨b, hb⟩ := hB
        have h1 : c.size = 1 := by simpa using hsize
        have : (1 : Int) ≤ 2 ^ b := one_le_pow₀ (by norm_num)
        rw [h1, hb] at hgt
        clear hinv hc hmem hfront hnc halign ih
        omega
      | succ j =>
        have hcast : (c.size : Int) = ((2 ^ (j + 1) : Nat) : Int) := by rw [hsize]
        have htd : Int.tdiv (c.size : Int) 2 = ((2 ^ j : Nat) : Int) := by
          rw [hcast, tdiv_two_pow]
        have hcN : c.size ≤ N := by
          have := hinv.chunks.bound cmit c hc
          omega
        have hj63 : j + 1 < 63 := two_pow_lt_two_pow63 (by rw [← hsize]; exact hcN) hN
        have hlt64 : 2 ^ j < 2 ^ 64 := Nat.pow_lt_pow_right (by norm_num) (by omega)
        have hsz : toSizeT (Int.tdiv (c.size : Int) 2) = 2 ^ j := by
          rw [htd, toSizeT_natCast hlt64]
        have hc2 : c.size = 2 * 2 ^ j := by rw [hsize, pow_succ]; ring
        have hpos : 0 < 2 ^ j := Nat.pos_pow_of_pos _ (by norm_num)
        have hlt64' : 2 ^ j * 2 < 2 ^ 64 := by
          have : 2 ^ (j + 1) < 2 ^ 64 := Nat.pow_lt_pow_right (by norm_num) (by omega)
          rw [pow_succ] at this
          exact this
        have hnone : mapFind (c.address + 2 ^ j) a.chunks_ = none := by
          rw [hk]
          cases hf' : mapFind (cmit + 2 ^ j) a.chunks_ with
          | none => rfl
          | some d =>
            have := hinv.chunks.disj cmit c (cmit + 2 ^ j) d hc hf' (by omega)
            omega
        have hstep := subdivide_step (B := B) fuel hgt hc hmem (by rw [hsz]; exact hnone)
        rw [hsz, htd, hk] at hstep
        have hBle : B ≤ ((2 ^ j : Nat) : Int) := by
          obtain ⟨b, h⟩ := hB
          rw [h]
          apply int_two_pow_le_of_lt
          rw [← h, ← hcast]
          exact hgt
        have hinv1 : Inv N (splitState a cmit c (2 ^ j)) := Inv_split hinv hc hc2 ⟨j, rfl⟩
        have hc1 : mapFind (cmit + 2 ^ j) (splitState a cmit c (2 ^ j)).chunks_ =
            some ⟨false, cmit + 2 ^ j, 2 ^ j⟩ := by
          rw [split_view hinv hc]; simp
        have hl1 : mapFind cmit (splitState a cmit c (2 ^ j)).chunks_ =
            some ⟨false, cmit, 2 ^ j⟩ := by
          rw [split_view hinv hc]
          have : ¬ cmit = cmit + 2 ^ j := by omega
          simp [this]
        have hne : (2 ^ j : Nat) ≠ c.size := by omega
        have hclass : mapFind (2 ^ j) a.free_lists_ = none :=
          hnc (2 ^ j) hBle (by omega)
        have hfront1 : mapFind (2 ^ j) (splitState a cmit c (2 ^ j)).free_lists_ =
            some ((cmit + 2 ^ j) :: [cmit]) := by
          simp only [splitState, hk]
          rw [mapFind_flAdd, mapFind_flAdd, mapFind_flRemove_ne cmit hinv.fl.1 hne, hclass]
          simp
        have hnc1 : ∀ S : Nat, B ≤ (S : Int) → S < 2 ^ j →
            mapFind S (splitState a cmit c (2 ^ j)).free_lists_ = none := by
          intro S h1 h2
          have n1 : ¬ S = 2 ^ j := by omega
          have n2 : S ≠ c.size := by omega
          simp only [splitState, hk]
          rw [mapFind_flAdd]
          simp only [n1, if_false]
          rw [mapFind_flAdd]
          simp only [n1, if_false]
          rw [mapFind_flRemove_ne cmit hinv.fl.1 n2]
          exact hnc S h1 (by omega)
        have hdvd : 2 ^ (j + 1) ∣ cmit := by
          rw [← hsize]
          exact halign hgt
        have halign1 : B < ((2 ^ j : Nat) : Int) → 2 ^ j ∣ cmit + 2 ^ j := by
          intro _
          have : 2 ^ j ∣ cmit := dvd_trans (pow_dvd_pow 2 (Nat.le_succ j)) hdvd
          exact dvd_add this (dvd_refl _)
        obtain ⟨a', cmit', c', rest', d, hok, i1, i2, i3, i4, i5, i6, i7⟩ :=
          ih j (splitState a cmit c (2 ^ j)) (cmit + 2 ^ j) ⟨false, cmit + 2 ^ j, 2 ^ j⟩ [cmit]
            hinv1 hc1 rfl rfl (by omega) hBle hfront1 hnc1 halign1
        have hxor : (cmit + 2 ^ j) ^^^ 2 ^ j = cmit := xor_add_pow_of_dvd hdvd
        have hmerge : ∀ m, try_merge_buddy_recursive (m + 1) (splitState a cmit c (2 ^ j))
            (cmit + 2 ^ j) = try_merge_buddy_recursive m a cmit := by
          intro m
          have hb : mapFind ((⟨false, cmit + 2 ^ j, 2 ^ j⟩ : AllocatorChunk).address ^^^
              (⟨false, cmit + 2 ^ j, 2 ^ j⟩ : AllocatorChunk).size)
              (splitState a cmit c (2 ^ j)).chunks_ = some ⟨false, cmit, 2 ^ j⟩ := by
            simp only [hxor]
            exact hl1
          have hm1 : memFL (splitState a cmit c (2 ^ j)).free_lists_ (2 ^ j) cmit :=
            (hinv1.flc _ _).mpr ⟨_, hl1, rfl, rfl⟩
          have hm2 : memFL (splitState a cmit c (2 ^ j)).free_lists_ (2 ^ j) (cmit + 2 ^ j) :=
            (hinv1.flc _ _).mpr ⟨_, hc1, rfl, rfl⟩
          have := @try_merge_step _ _ cmit (cmit + 2 ^ j) _ _
            ⟨false, cmit, 2 ^ j⟩ ⟨false, cmit + 2 ^ j, 2 ^ j⟩ m
            hinv1.chunks.sorted hinv1.fl hc1 hb rfl rfl
            (Or.inr ⟨by simp only [hxor]; omega, by simp only [hxor], rfl, rfl, rfl⟩)
            (by omega) hm1 hm2
          rw [this, merged_split_eq hinv hc hfree hc2 hpos hlt64' hfront hclass]
        refine ⟨a', cmit', c', rest', d + 1, by rw [hstep]; exact hok, i1, i2, i3, i4,
          by rw [i5]; rfl, ?_, ?_⟩
        · rw [i6]
          have hl2 : mapFind (c.address + 2 ^ j) (mapPut cmit ⟨false, c.address, 2 ^ j⟩ a.chunks_)
              = none := by
            rw [mapFind_mapPut]
            have : ¬ c.address + 2 ^ j = cmit := by omega
            simp only [this, if_false]
            exact hnone
          simp only [splitState]
          rw [length_mapPut_of_none hl2, length_mapPut_of_some hinv.chunks.sorted hc]
          omega
        · intro m
          have e : m + (d + 1) = (m + 1) + d := by omega
          rw [e, i7 (m + 1), hmerge m]
    · have heq : (c.size : Int) = B := by omega
      exact ⟨a, cmit, c, rest, 0, subdivide_stop fuel hgt, hinv, hc, hfree, hfront, rfl, rfl,
        fun m => rfl⟩

/-- In a sibling-free state the merge recursion started on a free chunk changes nothing. -/
theorem try_merge_noop {a : Allocator} (hsib : SibFree a) {cmit : Nat} {c : AllocatorChunk}
    (hc : mapFind cmit a.chunks_ = some c) (hk : c.address = cmit) (hfree : c.in_use = false)
    (m : Nat) : try_merge_buddy_recursive (m + 1) a cmit = .ok a := by
  cases hb : mapFind (c.address ^^^ c.size) a.chunks_ with
  | none => exact try_merge_stop_none m hc hb
  | some b =>
    by_cases hcond : b.size = c.size ∧ b.in_use = false
    · exfalso
      rw [hk] at hb
      exact hsib cmit c (cmit ^^^ c.size) b hc hb hfree hcond.2 hcond.1.symm
        (Nat.xor_cancel_left cmit c.size)
    · exact try_merge_stop_some m hc hb hcond

/-- The address handed out by `malloc` leads `free` back to the chunk it came from. -/
theorem free_of_malloc_state {N : Nat} (hN : N < 2 ^ 63) {a1 : Allocator} (i1 : Inv N a1)
    {cmit1 : Nat} {c1 : AllocatorChunk} {rest1 : List Nat}
    (i2 : mapFind cmit1 a1.chunks_ = some c1) (i3 : c1.in_use = false)
    (i4 : mapFind c1.size a1.free_lists_ = some (cmit1 :: rest1)) (base : Int)
    (hb : a1.base_ = base) :
    Allocator.free (usedState a1 cmit1 c1) (toInt64 ((cmit1 : Int) + base)) =
      try_merge_buddy_recursive a1.chunks_.length a1 cmit1 := by
  have hbound := i1.chunks.bound cmit1 c1 i2
  have hcm : cmit1 < 2 ^ 63 := lt_of_le_of_lt (Nat.le_add_right _ _) (lt_of_le_of_lt hbound hN)
  have hoff : toInt64 (toInt64 ((cmit1 : Int) + base) - (usedState a1 cmit1 c1).base_)
      = (cmit1 : Int) := by
    have : (usedState a1 cmit1 c1).base_ = base := hb
    rw [this]
    exact toInt64_sub_add hcm base
  have hfind : mapFind cmit1 (usedState a1 cmit1 c1).chunks_ = some { c1 with in_use := true } := by
    simp [usedState, mapFind_mapPut]
  have hlen : (usedState a1 cmit1 c1).chunks_.length = a1.chunks_.length := by
    simp only [usedState]
    exact length_mapPut_of_some i1.chunks.sorted i2
  have hfe := free_eq (a := usedState a1 cmit1 c1) (p := toInt64 ((cmit1 : Int) + base))
    (c := { c1 with in_use := true }) (by rw [hoff]; exact Int.ofNat_nonneg _)
    (by rw [hoff, Int.toNat_ofNat]; exact hfind) rfl (Inv_used i1 i2).chunks.sorted
  rw [hfe, hoff, Int.toNat_ofNat, hlen, freed_used_eq i1 i2 i3 i4]

/-- C6 (round trip of one allocation): when `malloc(s)` returns `p` on a fresh
`Allocator(base, N)`, the call `free(p)` right after it returns and yields exactly the
freshly constructed state: same chunk map and same free lists, order included. -/
theorem C6_round_trip {base N : Int} {a0 a1 : Allocator} {s : Nat} {p : Int}
    (h0 : 0 < N) (h1 : N < 2 ^ 63) (hnew : Allocator.new base N = .ok a0)
    (hm : a0.malloc s = .ok (p, a1)) : a1.free p = .ok a0 := by
  have hN : N.toNat < 2 ^ 63 := by omega
  have hcast : N = ((N.toNat : Nat) : Int) := by omega
  obtain ⟨a0', hok0, ci, hbase, _⟩ := new_spec base (n := N.toNat) (by omega) hN
  rw [← hcast, hnew] at hok0
  injection hok0 with hok0
  subst hok0
  have hinv := ci.inv
  have hsib : SibFree a0 := sibFree_of_noAdj ci.inv ci.noAdj
  clear hcast h0 h1 hnew
  cases hlb : mapLowerBound (toSizeT (next_largest_power_of_2 (toInt64 s))) a0.free_lists_ with
  | none => rw [malloc_oom hlb] at hm; cases hm
  | some e =>
    obtain ⟨S, l⟩ := e
    obtain ⟨cmit, rest, c, j, hl, hc, hfree, hcs, hj, hj63, hfront, hB1, hBS, hcs64, _, hnc⟩ :=
      malloc_pre hN hinv hlb
    have hB : ∃ b : Nat, next_largest_power_of_2 (toInt64 s) = 2 ^ b := by
      rcases hB1 with hz | hb
      · exfalso
        rcases malloc_found hN hinv hsib hlb with ⟨_, herr⟩ | ⟨a2, cm2, c2, _, i1, i2, _, i4, _⟩
        · rw [herr] at hm; cases hm
        · have hp2 := i1.chunks.size_pos i2
          rw [hz] at i4
          have : c2.size = 0 := by exact_mod_cast i4
          rw [this] at hp2
          exact absurd hp2 (lt_irrefl _)
      · exact hb
    have halign : next_largest_power_of_2 (toInt64 s) < (c.size : Int) → c.size ∣ cmit := by
      intro hlt
      rcases ci.align cmit c hc with hd | ⟨h2, k1, c1, hk1, hs1⟩
      · exact hd
      · exfalso
        have hf1 := ci.allFree k1 c1 hk1
        obtain ⟨l1, hl1, _⟩ := (hinv.flc c1.size k1).mpr ⟨c1, hk1, rfl, hf1⟩
        rw [hs1] at hl1
        have hB1' : next_largest_power_of_2 (toInt64 s) ≤ ((1 : Nat) : Int) := by
          rw [h2] at hlt
          have : next_largest_power_of_2 (toInt64 s) < 2 := by exact_mod_cast hlt
          have h3 : ((1 : Nat) : Int) = 1 := rfl
          rw [h3]
          exact Int.lt_add_one_iff.mp this
        have := hnc 1 hB1' (by rw [h2]; norm_num)
        rw [this] at hl1
        cases hl1
    obtain ⟨a', cmit', c', rest', d, hok, i1, i2, i3, i4, i5, i6, i7⟩ :=
      roundtrip_aux hN hB 65 j a0 cmit c rest hinv hc hfree hj (by omega) hBS hfront hnc halign
    rw [hl] at hlb
    have hmal := malloc_of_subdivide hlb hcs64 hok i1 i2 i3 i5
    have hm2 := hmal.symm.trans hm
    clear hm hmal hok
    obtain ⟨hp, ha⟩ := Prod.mk.inj (Except.ok.inj hm2)
    subst hp
    subst ha
    rw [free_of_malloc_state hN i1 i2 i3 i4 a0.base_ i5, i6, i7 a0.chunks_.length]
    obtain ⟨m, hm'⟩ : ∃ m, a0.chunks_.length = m + 1 :=
      ⟨a0.chunks_.length - 1, by have := length_pos_of_find hc; omega⟩
    rw [hm']
    exact try_merge_noop hsib hc (hinv.chunks.addr cmit c hc) hfree m

theorem C6_witness :
    (0 : Int) < 12 ∧ (12 : Int) < 2 ^ 63 ∧ Allocator.new 0 12 = .ok fresh12 ∧
      fresh12.malloc 3 = .ok (8, used12) ∧ used12.free 8 = .ok fresh12 :=
  ⟨by decide, int12_lt, new_0_12, malloc_fresh12_3,
    C6_round_trip (by decide) int12_lt new_0_12 malloc_fresh12_3⟩

set_option maxRecDepth 100000 in

theorem malloc_fresh16_0 : fresh16.malloc 0 = .error .NotInserted := by rfl

set_option maxRecDepth 100000 in

theorem in_use_used12 : used12.total_bytes_in_use = 4 := by rfl

/-- C11 (code at the failing input): `Allocator(0, 5)` creates, in increasing offset order,
chunks of sizes 2, 1, 2; the powers of two of the set bits of 5 are 4, 1. -/
theorem C11_not_greedy_at_5 :
    Allocator.new 0 5 = .ok fresh5 ∧ fresh5.chunks_.map (fun p => (p.1, p.2.size)) =
      [(0, 2), (2, 1), (3, 2)] :=
  ⟨new_0_5, by decide⟩

/-- C13 as stated fails: on `Allocator(0, 12)` no run of `malloc(3)` returns offset 0. -/
theorem C13_not_offset_0 :
    Allocator.new 0 12 = .ok fresh12 ∧ ¬ ∃ a1, fresh12.malloc 3 = .ok (0, a1) := by
  refine ⟨new_0_12, ?_⟩
  rintro ⟨a1, h⟩
  have h2 := malloc_fresh12_3.symm.trans h
  have h3 := (Prod.mk.inj (Except.ok.inj h2)).1
  exact absurd h3 (by decide)

/-- C13 (amended): on `Allocator(0, 12)`, `malloc(3)` returns offset 8: the free chunk of the
smallest sufficient class, `{8, 4}`, is taken without a split, the chunk `{0, 8}` stays free,
and afterwards `total_bytes_in_use() = 4`. -/
theorem C13_malloc_3_of_12 :
    Allocator.new 0 12 = .ok fresh12 ∧ fresh12.malloc 3 = .ok (8, used12) ∧
    used12.chunks_ = [(0, ⟨false, 0, 8⟩), (8, ⟨true, 8, 4⟩)] ∧
    used12.total_bytes_in_use = 4 :=
  ⟨new_0_12, malloc_fresh12_3, rfl, in_use_used12⟩

/-- C14 (code at the failing input): `next_largest_power_of_2(0)` returns 0, and with that
size class `malloc(0)` on `Allocator(0, 16)` halves a chunk down to size 0 and fails on
`assert( inserted )`. -/
theorem C14_zero_at_0 :
    next_largest_power_of_2 0 = 0 ∧ Allocator.new 0 16 = .ok fresh16 ∧
    fresh16.malloc 0 = .error .NotInserted :=
  ⟨by decide, new_0_16, malloc_fresh16_0⟩

/-- Closed form of the splitting loop of `malloc`, started on a free chunk of size `2 ^ j` at
`cmit` with a size class `2 ^ b`, `b ≤ j`: the loop returns the iterator of the topmost piece,
at `cmit + 2 ^ j - 2 ^ b`; below it lie the free pieces of sizes `2 ^ i`, `b ≤ i < j`, the piece
of size `2 ^ i` at `cmit + 2 ^ j - 2 * 2 ^ i`; nothing outside the chunk changes. -/
theorem subdivide_shape {N : Nat} (hN : N < 2 ^ 63) {B : Int} {b : Nat}
    (hB : B = ((2 ^ b : Nat) : Int)) :
    ∀ (fuel j : Nat) (a : Allocator) (cmit : Nat) (c : AllocatorChunk),
      Inv N a → mapFind cmit a.chunks_ = some c → c.in_use = false → c.size = 2 ^ j →
      j < fuel → b ≤ j →
      ∃ a', Allocator.subdivide fuel a cmit (c.size : Int) B
          = .ok (a', cmit + 2 ^ j - 2 ^ b) ∧
        Inv N a' ∧ a'.base_ = a.base_ ∧
        mapFind (cmit + 2 ^ j - 2 ^ b) a'.chunks_
          = some ⟨false, cmit + 2 ^ j - 2 ^ b, 2 ^ b⟩ ∧
        (∀ i, b ≤ i → i < j → mapFind (cmit + 2 ^ j - 2 * 2 ^ i) a'.chunks_
          = some ⟨false, cmit + 2 ^ j - 2 * 2 ^ i, 2 ^ i⟩) ∧
        (∀ k, k < cmit ∨ cmit + 2 ^ j ≤ k → mapFind k a'.chunks_ = mapFind k a.chunks_) := by
  intro fuel
  induction fuel with
  | zero => intro j a cmit c _ _ _ _ hj; omega
  | succ fuel ih =>
    intro j a cmit c hinv hc hfree hsize hj hbj
    have hk : c.address = cmit := hinv.chunks.addr cmit c hc
    have hmem : memFL a.free_lists_ c.size cmit := (hinv.flc _ _).mpr ⟨c, hc, rfl, hfree⟩
    by_cases hlt : b < j
    · obtain ⟨j, rfl⟩ : ∃ j', j = j' + 1 := ⟨j - 1, by omega⟩
      have hbj' : b ≤ j := by omega
      have hpow : (2 : Nat) ^ b ≤ 2 ^ j := Nat.pow_le_pow_right (by norm_num) hbj'
      have hcast : (c.size : Int) = ((2 ^ (j + 1) : Nat) : Int) := by rw [hsize]
      have hgt : (c.size : Int) > B := by
        rw [hB, hsize]
        have : (2 : Nat) ^ b < 2 ^ (j + 1) := Nat.pow_lt_pow_right (by norm_num) (by omega)
        exact_mod_cast this
      have htd : Int.tdiv (c.size : Int) 2 = ((2 ^ j : Nat) : Int) := by
        rw [hcast, tdiv_two_pow]
      have hcN : c.size ≤ N := by
        have := hinv.chunks.bound cmit c hc
        omega
      have hj63 : j + 1 < 63 := two_pow_lt_two_pow63 (by rw [← hsize]; exact hcN) hN
      have hlt64 : 2 ^ j < 2 ^ 64 := Nat.pow_lt_pow_right (by norm_num) (by omega)
      have hsz : toSizeT (Int.tdiv (c.size : Int) 2) = 2 ^ j := by
        rw [htd, toSizeT_natCast hlt64]
      have hx : (2 : Nat) ^ (j + 1) = 2 * 2 ^ j := by rw [pow_succ]; ring
      have hc2 : c.size = 2 * 2 ^ j := by rw [hsize, hx]
      have hpos : 0 < 2 ^ j := Nat.pos_pow_of_pos _ (by norm_num)
      have hnone : mapFind (c.address + 2 ^ j) a.chunks_ = none := by
        rw [hk]
        cases hf' : mapFind (cmit + 2 ^ j) a.chunks_ with
        | none => rfl
        | some d =>
          have := hinv.chunks.disj cmit c (cmit + 2 ^ j) d hc hf' (by omega)
          omega
      have hstep := subdivide_step (B := B) fuel hgt hc hmem (by rw [hsz]; exact hnone)
      rw [hsz, htd, hk] at hstep
      have hinv1 : Inv N (splitState a cmit c (2 ^ j)) := Inv_split hinv hc hc2 ⟨j, rfl⟩
      have hc1 : mapFind (cmit + 2 ^ j) (splitState a cmit c (2 ^ j)).chunks_ =
          some ⟨false, cmit + 2 ^ j, 2 ^ j⟩ := by
        rw [split_view hinv hc]; simp
      obtain ⟨a', hok, i1, i2, i3, i4, i5⟩ :=
        ih j (splitState a cmit c (2 ^ j)) (cmit + 2 ^ j) ⟨false, cmit + 2 ^ j, 2 ^ j⟩
          hinv1 hc1 rfl rfl (by omega) hbj'
      simp only at hok
      have e1 : cmit + 2 ^ j + 2 ^ j - 2 ^ b = cmit + 2 ^ (j + 1) - 2 ^ b := by omega
      rw [e1] at hok i3
      refine ⟨a', by rw [hstep]; exact hok, i1, by rw [i2]; rfl, i3, ?_, ?_⟩
      · intro i hbi hij
        by_cases hij' : i < j
        · have hp2 : (2 : Nat) ^ (i + 1) ≤ 2 ^ j := Nat.pow_le_pow_right (by norm_num) (by omega)
          have hy : (2 : Nat) ^ (i + 1) = 2 * 2 ^ i := by rw [pow_succ]; ring
          have e2 : cmit + 2 ^ j + 2 ^ j - 2 * 2 ^ i = cmit + 2 ^ (j + 1) - 2 * 2 ^ i := by omega
          have := i4 i hbi hij'
          rw [e2] at this
          exact this
        · have hij2 : i = j := by omega
          subst hij2
          have e3 : cmit + 2 ^ (i + 1) - 2 * 2 ^ i = cmit := by omega
          rw [e3, i5 cmit (Or.inl (by omega)), split_view hinv hc]
          have n1 : cmit ≠ cmit + 2 ^ i := by omega
          simp only [n1, if_false, if_true]
      · intro k hkk
        have hk' : k < cmit + 2 ^ j ∨ cmit + 2 ^ j + 2 ^ j ≤ k := by omega
        rw [i5 k hk', split_view hinv hc]
        have n1 : k ≠ cmit + 2 ^ j := by omega
        have n2 : k ≠ cmit := by omega
        simp only [n1, n2, if_false]
    · have hjb : j = b := by omega
      subst hjb
      have hle : ¬ (c.size : Int) > B := by rw [hB, hsize]; exact lt_irrefl _
      have e1 : cmit + 2 ^ j - 2 ^ j = cmit := by omega
      rw [e1]
      refine ⟨a, subdivide_stop fuel hle, hinv, rfl, ?_, ?_, ?_⟩
      · rw [hc]
        cases c
        simp only at hfree hsize hk
        rw [hfree, hsize, hk]
      · intro i h1 h2; omega
      · intro k _; rfl

set_option maxRecDepth 100000 in

theorem malloc_fresh16_1 : fresh16.malloc 1 = .ok (15, a16_1) := by rfl

set_option maxRecDepth 100000 in

theorem select_fresh16_1 :
    mapLowerBound (toSizeT (next_largest_power_of_2 (toInt64 (1 : Nat)))) fresh16.free_lists_
      = some (16, [0]) := by rfl

theorem class_of_one : toSizeT (next_largest_power_of_2 (toInt64 (1 : Nat))) = 1 := by decide

/-- The size class of a request `1 ≤ s ≤ 2 ^ 62` is a power of two, as `int64_t` and as
`size_t`. -/
theorem class_pow2 {s : Nat} (hs1 : 1 ≤ s) (hs2 : s ≤ 2 ^ 62) :
    ∃ b : Nat, next_largest_power_of_2 (toInt64 s) = ((2 ^ b : Nat) : Int) ∧
      toSizeT (next_largest_power_of_2 (toInt64 s)) = 2 ^ b ∧ IsLeastPow2Ge s (2 ^ b) := by
  have e : toInt64 (s : Int) = (s : Int) := toInt64_natCast (by omega)
  obtain ⟨j, hj, hnp, _, _⟩ := npo2_spec (v := (s : Int)) (by omega) (by exact_mod_cast hs2)
  have hB : next_largest_power_of_2 (toInt64 s) = ((2 ^ j : Nat) : Int) := by
    rw [e, hnp]; push_cast; rfl
  have hlt64 : 2 ^ j < 2 ^ 64 := Nat.pow_lt_pow_right (by norm_num) (by omega)
  exact ⟨j, hB, by rw [hB, toSizeT_natCast hlt64], isLeastPow2Ge_of_npo2 hs1 hs2 hB.symm⟩

/-- Closed form of a successful `malloc` in a state satisfying the invariant, for a size class
`2 ^ b` and a selected chunk at `o` of size `S`. -/
theorem malloc_shape {N : Nat} (hN : N < 2 ^ 63) {a : Allocator} (hinv : Inv N a)
    {s S o b : Nat} {rest : List Nat}
    (hB : next_largest_power_of_2 (toInt64 s) = ((2 ^ b : Nat) : Int))
    (hsel : mapLowerBound (toSizeT (next_largest_power_of_2 (toInt64 s))) a.free_lists_
      = some (S, o :: rest)) :
    ∃ a1, mapFind o a.chunks_ = some ⟨false, o, S⟩ ∧ 2 ^ b ≤ S ∧
      a.malloc s = .ok (toInt64 (((o + S - 2 ^ b : Nat) : Int) + a.base_),
        usedState a1 (o + S - 2 ^ b) ⟨false, o + S - 2 ^ b, 2 ^ b⟩) ∧
      (∀ T, (∃ i : Nat, T = 2 ^ i) → 2 ^ b ≤ T → T < S →
        mapFind (o + S - 2 * T) a1.chunks_ = some ⟨false, o + S - 2 * T, T⟩) ∧
      (∀ k, k < o ∨ o + S ≤ k → mapFind k a1.chunks_ = mapFind k a.chunks_) := by
  obtain ⟨cmit, rest1, c, j, hl, hc, hfree, hcS, hcj, _, _, _, hBS, hcs64, _, _⟩ :=
    malloc_pre hN hinv hsel
  obtain ⟨ho, hrest⟩ := List.cons.inj hl
  subst ho
  subst hrest
  have hk := hinv.chunks.addr o c hc
  have hbj : b ≤ j := by
    rw [hB, hcj] at hBS
    have : (2 : Nat) ^ b ≤ 2 ^ j := by exact_mod_cast hBS
    exact (Nat.pow_le_pow_iff_right (by norm_num)).mp this
  have hj65 : j < 65 := by
    have := hinv.chunks.bound o c hc
    have : j < 63 := two_pow_lt_two_pow63 (by rw [← hcj]; omega) hN
    omega
  obtain ⟨a1, hok, i1, i2, i3, i4, i5⟩ :=
    subdivide_shape hN hB 65 j a o c hinv hc hfree hcj hj65 hbj
  have hmal := malloc_of_subdivide hsel hcs64 hok i1 i3 rfl i2
  have hSj : S = 2 ^ j := by rw [← hcS, hcj]
  subst hSj
  refine ⟨a1, ?_, Nat.pow_le_pow_right (by norm_num) hbj, hmal, ?_, i5⟩
  · rw [hc]
    cases c
    simp only at hfree hcS hk
    rw [hfree, hcS, hk]
  · rintro T ⟨i, rfl⟩ h1 h2
    exact i4 i ((Nat.pow_le_pow_iff_right (by norm_num)).mp h1)
      ((Nat.pow_lt_pow_iff_right (by norm_num)).mp h2)

/-- C12 as stated fails: on `Allocator(0, 16)` the request `malloc(1)` selects the chunk at
offset 0 of size 16, larger than the size class 1, and does not return `base + 0`. -/
theorem C12_not_lower_half :
    Allocator.new 0 16 = .ok fresh16 ∧
    mapLowerBound (toSizeT (next_largest_power_of_2 (toInt64 (1 : Nat)))) fresh16.free_lists_
      = some (16, [0]) ∧
    toSizeT (next_largest_power_of_2 (toInt64 (1 : Nat))) < 16 ∧
    ¬ ∃ a1, fresh16.malloc 1 = .ok (0 + 0, a1) := by
  refine ⟨new_0_16, select_fresh16_1, by decide, ?_⟩
  rintro ⟨a1, h⟩
  have h2 := malloc_fresh16_1.symm.trans h
  have h3 := (Prod.mk.inj (Except.ok.inj h2)).1
  exact absurd h3 (by decide)

/-- C12 (amended): in a reachable state, when `malloc(s)`, `1 ≤ s ≤ 2 ^ 62`, selects the free
chunk at offset `o` whose size `S` is larger than the size class `B`, it keeps the upper half at
every split and returns `base + o + S - B`, the last `B` bytes of the selected chunk, now in
use; the lower halves are left free, the piece of size `T` (`T = S/2, S/4, ..., B`) at offset
`o + S - 2 T`; no chunk outside `[o, o + S)` changes. -/
theorem C12_upper_half_kept {base N : Int} {a : Allocator} {s S o : Nat} {rest : List Nat}
    (h0 : 0 < N) (h1 : N < 2 ^ 63) (hr : Reachable base N a) (hs1 : 1 ≤ s) (hs2 : s ≤ 2 ^ 62)
    (hsel : mapLowerBound (toSizeT (next_largest_power_of_2 (toInt64 s))) a.free_lists_
      = some (S, o :: rest))
    (hlt : toSizeT (next_largest_power_of_2 (toInt64 s)) < S) :
    ∃ (B : Nat) (a' : Allocator), IsLeastPow2Ge s B ∧ B < S ∧
      mapFind o a.chunks_ = some ⟨false, o, S⟩ ∧
      a.malloc s = .ok (toInt64 (((o + S - B : Nat) : Int) + base), a') ∧
      mapFind (o + S - B) a'.chunks_ = some ⟨true, o + S - B, B⟩ ∧
      (∀ T, (∃ i : Nat, T = 2 ^ i) → B ≤ T → T < S →
        mapFind (o + S - 2 * T) a'.chunks_ = some ⟨false, o + S - 2 * T, T⟩) ∧
      (∀ k, k < o ∨ o + S ≤ k → mapFind k a'.chunks_ = mapFind k a.chunks_) := by
  obtain ⟨hinv, _, hbase⟩ := reachable_inv h0 h1 hr
  have hN : N.toNat < 2 ^ 63 := by omega
  obtain ⟨b, hB, hBs, hleast⟩ := class_pow2 hs1 hs2
  obtain ⟨a1, hsel0, hle, hmal, hpieces, hout⟩ := malloc_shape hN hinv hB hsel
  rw [hBs] at hlt
  rw [hbase] at hmal
  clear hsel hB hBs hr h0 h1 hinv
  have hpos : 0 < 2 ^ b := Nat.pos_pow_of_pos _ (by norm_num)
  refine ⟨2 ^ b, _, hleast, hlt, hsel0, hmal, ?_, ?_, ?_⟩
  · simp [usedState, mapFind_mapPut]
  · intro T hT h1 h2
    have n1 : o + S - 2 * T ≠ o + S - 2 ^ b := by omega
    simp only [usedState, mapFind_mapPut, n1, if_false]
    exact hpieces T hT h1 h2
  · intro k hk
    have n1 : k ≠ o + S - 2 ^ b := by omega
    simp only [usedState, mapFind_mapPut, n1, if_false]
    exact hout k hk

theorem C12_witness :
    (0 : Int) < 16 ∧ (16 : Int) < 2 ^ 63 ∧ Reachable 0 16 fresh16 ∧ 1 ≤ 1 ∧ 1 ≤ 2 ^ 62 ∧
    mapLowerBound (toSizeT (next_largest_power_of_2 (toInt64 (1 : Nat)))) fresh16.free_lists_
      = some (16, [0]) ∧
    toSizeT (next_largest_power_of_2 (toInt64 (1 : Nat))) < 16 ∧
    ∃ (B : Nat) (a' : Allocator), IsLeastPow2Ge 1 B ∧ B < 16 ∧
      mapFind 0 fresh16.chunks_ = some ⟨false, 0, 16⟩ ∧
      fresh16.malloc 1 = .ok (toInt64 (((0 + 16 - B : Nat) : Int) + 0), a') ∧
      mapFind (0 + 16 - B) a'.chunks_ = some ⟨true, 0 + 16 - B, B⟩ ∧
      (∀ T, (∃ i : Nat, T = 2 ^ i) → B ≤ T → T < 16 →
        mapFind (0 + 16 - 2 * T) a'.chunks_ = some ⟨false, 0 + 16 - 2 * T, T⟩) ∧
      (∀ k, k < 0 ∨ 0 + 16 ≤ k → mapFind k a'.chunks_ = mapFind k fresh16.chunks_) :=
  ⟨by decide, int16_lt, reach_fresh16, by decide, by norm_num, select_fresh16_1, by decide,
    C12_upper_half_kept (by decide) int16_lt reach_fresh16 (by decide) (by norm_num)
      select_fresh16_1 (by decide)⟩

theorem mapSum_cons {β : Type} (f : β → Nat) (p : Nat × β) (m : List (Nat × β)) :
    mapSum f (p :: m) = f p.2 + mapSum f m := by
  simp [mapSum]

/-- Covering by counting: sorted, pairwise separated intervals inside `[lo, hi)` have total
length at most `hi - lo`, and when the total is `hi - lo` they cover `[lo, hi)`. -/
theorem cover_of_sum : ∀ (m : ChunkMap) (lo hi : Nat), KeysSorted m →
    (∀ p ∈ m, lo ≤ p.1 ∧ p.1 + p.2.size ≤ hi) →
    (∀ p ∈ m, ∀ q ∈ m, p.1 < q.1 → p.1 + p.2.size ≤ q.1) → lo ≤ hi →
    mapSum (fun c => c.size) m ≤ hi - lo ∧
    (mapSum (fun c => c.size) m = hi - lo →
      ∀ x, lo ≤ x → x < hi → ∃ p ∈ m, p.1 ≤ x ∧ x < p.1 + p.2.size) := by
  intro m
  induction m with
  | nil =>
    intro lo hi _ _ _ hle
    refine ⟨by simp [mapSum], ?_⟩
    intro h x h1 h2
    simp only [mapSum, List.map_nil, List.sum_nil] at h
    omega
  | cons p m ih =>
    intro lo hi hs hb hd hle
    rw [keysSorted_cons] at hs
    have hp := hb p (List.mem_cons_self _ _)
    have hlow : ∀ q ∈ m, p.1 + p.2.size ≤ q.1 ∧ q.1 + q.2.size ≤ hi := fun q hq =>
      ⟨hd p (List.mem_cons_self _ _) q (List.mem_cons_of_mem _ hq) (hs.1 q hq),
        (hb q (List.mem_cons_of_mem _ hq)).2⟩
    have hd' : ∀ q ∈ m, ∀ r ∈ m, q.1 < r.1 → q.1 + q.2.size ≤ r.1 := fun q hq r hr =>
      hd q (List.mem_cons_of_mem _ hq) r (List.mem_cons_of_mem _ hr)
    obtain ⟨ih1, ih2⟩ := ih (p.1 + p.2.size) hi hs.2 hlow hd' hp.2
    rw [mapSum_cons]
    refine ⟨by omega, ?_⟩
    intro h x h1 h2
    by_cases hx : x < p.1 + p.2.size
    · exact ⟨p, List.mem_cons_self _ _, by omega, hx⟩
    · obtain ⟨q, hq, hq1, hq2⟩ := ih2 (by omega) x (by omega) h2
      exact ⟨q, List.mem_cons_of_mem _ hq, hq1, hq2⟩

theorem keys_nodup {β : Type} {m : List (Nat × β)} (hs : KeysSorted m) :
    (m.map Prod.fst).Nodup := by
  unfold List.Nodup
  rw [List.pairwise_map]
  exact List.Pairwise.imp (fun h => Nat.ne_of_lt h) hs

/-- The partition property of a chunk map that satisfies `ChunksOK`. -/
theorem partition_of_chunksOK {N : Nat} {cm : ChunkMap} (h : ChunksOK N cm) :
    (cm.map Prod.fst).Nodup ∧ (∀ p ∈ cm, p.2.address = p.1) ∧
    (∀ p ∈ cm, ∀ q ∈ cm, p ≠ q →
      p.2.address + p.2.size ≤ q.2.address ∨ q.2.address + q.2.size ≤ p.2.address) ∧
    (∀ x : Nat, x < N ↔ ∃ p ∈ cm, p.2.address ≤ x ∧ x < p.2.address + p.2.size) := by
  have hfind : ∀ p ∈ cm, mapFind p.1 cm = some p.2 := fun p hp =>
    mapFind_of_mem h.sorted (by cases p; exact hp)
  have haddr : ∀ p ∈ cm, p.2.address = p.1 := fun p hp => h.addr p.1 p.2 (hfind p hp)
  have hdisj : ∀ p ∈ cm, ∀ q ∈ cm, p.1 < q.1 → p.1 + p.2.size ≤ q.1 := fun p hp q hq hlt =>
    h.disj p.1 p.2 q.1 q.2 (hfind p hp) (hfind q hq) hlt
  refine ⟨keys_nodup h.sorted, haddr, ?_, ?_⟩
  · intro p hp q hq hne
    rw [haddr p hp, haddr q hq]
    rcases Nat.lt_trichotomy p.1 q.1 with hlt | heq | hgt
    · exact Or.inl (hdisj p hp q hq hlt)
    · exfalso
      apply hne
      have h1 := hfind p hp
      rw [heq, hfind q hq] at h1
      injection h1 with h1
      exact Prod.ext heq h1.symm
    · exact Or.inr (hdisj q hq p hp hgt)
  · intro x
    constructor
    · intro hx
      obtain ⟨_, hcov⟩ := cover_of_sum cm 0 N h.sorted
        (fun p hp => ⟨Nat.zero_le _, h.bound p.1 p.2 (hfind p hp)⟩) hdisj (Nat.zero_le _)
      obtain ⟨p, hp, h1, h2⟩ := hcov (by rw [h.total]; rfl) x (Nat.zero_le _) hx
      exact ⟨p, hp, by rw [haddr p hp]; exact h1, by rw [haddr p hp]; exact h2⟩
    · rintro ⟨p, hp, _, h2⟩
      have := h.bound p.1 p.2 (hfind p hp)
      rw [haddr p hp] at h2
      omega

/-- C18 (partition invariant): in every state reachable from `Allocator(base, N)` by successful
`malloc` and `free` calls, the chunk offsets are pairwise distinct keys, each chunk is stored
under its offset, the intervals `[offset, offset + size)` of two different chunks do not
overlap, and their union is exactly `[0, N)`. -/
theorem C18_partition {base N : Int} {a : Allocator} (h0 : 0 < N) (h1 : N < 2 ^ 63)
    (hr : Reachable base N a) :
    (a.chunks_.map Prod.fst).Nodup ∧ (∀ p ∈ a.chunks_, p.2.address = p.1) ∧
    (∀ p ∈ a.chunks_, ∀ q ∈ a.chunks_, p ≠ q →
      p.2.address + p.2.size ≤ q.2.address ∨ q.2.address + q.2.size ≤ p.2.address) ∧
    (∀ x : Nat, (x : Int) < N ↔
      ∃ p ∈ a.chunks_, p.2.address ≤ x ∧ x < p.2.address + p.2.size) := by
  obtain ⟨hinv, _, _⟩ := reachable_inv h0 h1 hr
  obtain ⟨p1, p2, p3, p4⟩ := partition_of_chunksOK hinv.chunks
  refine ⟨p1, p2, p3, ?_⟩
  intro x
  rw [← p4 x]
  omega

theorem C18_witness :
    (0 : Int) < 12 ∧ (12 : Int) < 2 ^ 63 ∧ Reachable 0 12 used12 ∧
    ((used12.chunks_.map Prod.fst).Nodup ∧ (∀ p ∈ used12.chunks_, p.2.address = p.1) ∧
    (∀ p ∈ used12.chunks_, ∀ q ∈ used12.chunks_, p ≠ q →
      p.2.address + p.2.size ≤ q.2.address ∨ q.2.address + q.2.size ≤ p.2.address) ∧
    (∀ x : Nat, (x : Int) < 12 ↔
      ∃ p ∈ used12.chunks_, p.2.address ≤ x ∧ x < p.2.address + p.2.size)) :=
  ⟨by decide, int12_lt, reach_used12, C18_partition (by decide) int12_lt reach_used12⟩

/-- Free-list consistency of a state that satisfies the invariant. -/
theorem flc_of_inv {N : Nat} {a : Allocator} (hinv : Inv N a) :
    (a.free_lists_.map Prod.fst).Nodup ∧
    (∀ p ∈ a.chunks_, p.2.in_use = false →
      (∃ l, (p.2.size, l) ∈ a.free_lists_ ∧ l.count p.1 = 1) ∧
      (∀ q ∈ a.free_lists_, p.1 ∈ q.2 → q.1 = p.2.size)) ∧
    (∀ p ∈ a.chunks_, p.2.in_use = true → ∀ q ∈ a.free_lists_, p.1 ∉ q.2) ∧
    (∀ q ∈ a.free_lists_, ∀ k ∈ q.2, ∃ c, (k, c) ∈ a.chunks_) := by
  have hfind : ∀ p ∈ a.chunks_, mapFind p.1 a.chunks_ = some p.2 := fun p hp =>
    mapFind_of_mem hinv.chunks.sorted (by cases p; exact hp)
  have hfl : ∀ q ∈ a.free_lists_, mapFind q.1 a.free_lists_ = some q.2 := fun q hq =>
    mapFind_of_mem hinv.fl.1 (by cases q; exact hq)
  have hchunk : ∀ q ∈ a.free_lists_, ∀ k ∈ q.2,
      ∃ c, mapFind k a.chunks_ = some c ∧ c.size = q.1 ∧ c.in_use = false := fun q hq k hk =>
    (hinv.flc q.1 k).mp ⟨q.2, hfl q hq, hk⟩
  refine ⟨keys_nodup hinv.fl.1, ?_, ?_, ?_⟩
  · intro p hp hfree
    constructor
    · obtain ⟨l, hl, hmem⟩ := (hinv.flc p.2.size p.1).mpr ⟨p.2, hfind p hp, rfl, hfree⟩
      exact ⟨l, mapFind_some_mem hl, List.count_eq_one_of_mem (hinv.fl.2 _ l hl).2 hmem⟩
    · intro q hq hk
      obtain ⟨c, hc, hsz, _⟩ := hchunk q hq p.1 hk
      rw [hfind p hp] at hc
      injection hc with hc
      rw [hc]; exact hsz.symm
  · intro p hp huse q hq hk
    obtain ⟨c, hc, _, hfree⟩ := hchunk q hq p.1 hk
    rw [hfind p hp] at hc
    injection hc with hc
    rw [hc, hfree] at huse
    cases huse
  · intro q hq k hk
    obtain ⟨c, hc, _, _⟩ := hchunk q hq k hk
    exact ⟨c, mapFind_some_mem hc⟩

/-- C19 (free-list consistency): in every reachable state the free-list map has one list per
size; a chunk that is not in use is referenced exactly once by the list of its own size and by
no list of another size; a chunk in use is referenced by no list; every entry of every list is
the key of a chunk in the chunk map. -/
theorem C19_free_list_consistency {base N : Int} {a : Allocator} (h0 : 0 < N)
    (h1 : N < 2 ^ 63) (hr : Reachable base N a) :
    (a.free_lists_.map Prod.fst).Nodup ∧
    (∀ p ∈ a.chunks_, p.2.in_use = false →
      (∃ l, (p.2.size, l) ∈ a.free_lists_ ∧ l.count p.1 = 1) ∧
      (∀ q ∈ a.free_lists_, p.1 ∈ q.2 → q.1 = p.2.size)) ∧
    (∀ p ∈ a.chunks_, p.2.in_use = true → ∀ q ∈ a.free_lists_, p.1 ∉ q.2) ∧
    (∀ q ∈ a.free_lists_, ∀ k ∈ q.2, ∃ c, (k, c) ∈ a.chunks_) :=
  flc_of_inv (reachable_inv h0 h1 hr).1

theorem C19_witness :
    (0 : Int) < 12 ∧ (12 : Int) < 2 ^ 63 ∧ Reachable 0 12 used12 ∧
    ((used12.free_lists_.map Prod.fst).Nodup ∧
    (∀ p ∈ used12.chunks_, p.2.in_use = false →
      (∃ l, (p.2.size, l) ∈ used12.free_lists_ ∧ l.count p.1 = 1) ∧
      (∀ q ∈ used12.free_lists_, p.1 ∈ q.2 → q.1 = p.2.size)) ∧
    (∀ p ∈ used12.chunks_, p.2.in_use = true → ∀ q ∈ used12.free_lists_, p.1 ∉ q.2) ∧
    (∀ q ∈ used12.free_lists_, ∀ k ∈ q.2, ∃ c, (k, c) ∈ used12.chunks_)) :=
  ⟨by decide, int12_lt, reach_used12,
    C19_free_list_consistency (by decide) int12_lt reach_used12⟩

/-- C20 (no empty size class): in every reachable state no key of the free-list map holds an
empty list; `lower_bound(B)` returns an entry exactly when a free chunk of size at least `B`
exists; the entry returned is keyed by the smallest size of such a chunk and its list has a
front; and `malloc` never ends in the undefined-behaviour branch of the embedding. -/
theorem C20_lower_bound {base N : Int} {a : Allocator} (h0 : 0 < N) (h1 : N < 2 ^ 63)
    (hr : Reachable base N a) :
    (∀ q ∈ a.free_lists_, q.2 ≠ []) ∧
    (∀ B : Nat, (∃ e, mapLowerBound B a.free_lists_ = some e) ↔
      ∃ p ∈ a.chunks_, p.2.in_use = false ∧ B ≤ p.2.size) ∧
    (∀ (B S : Nat) (l : FreeList), mapLowerBound B a.free_lists_ = some (S, l) →
      B ≤ S ∧ (∃ p ∈ a.chunks_, p.2.in_use = false ∧ p.2.size = S) ∧
      (∀ p ∈ a.chunks_, p.2.in_use = false → B ≤ p.2.size → S ≤ p.2.size) ∧
      ∃ cmit, l.head? = some cmit) ∧
    (∀ s : Nat, a.malloc s ≠ .error .Undefined) := by
  obtain ⟨hinv, hsib, _⟩ := reachable_inv h0 h1 hr
  have hN : N.toNat < 2 ^ 63 := by omega
  have hfind : ∀ p ∈ a.chunks_, mapFind p.1 a.chunks_ = some p.2 := fun p hp =>
    mapFind_of_mem hinv.chunks.sorted (by cases p; exact hp)
  have hfl : ∀ q ∈ a.free_lists_, mapFind q.1 a.free_lists_ = some q.2 := fun q hq =>
    mapFind_of_mem hinv.fl.1 (by cases q; exact hq)
  have hclass : ∀ p ∈ a.chunks_, p.2.in_use = false →
      ∃ l, mapFind p.2.size a.free_lists_ = some l := fun p hp hfree => by
    obtain ⟨l, hl, _⟩ := (hinv.flc p.2.size p.1).mpr ⟨p.2, hfind p hp, rfl, hfree⟩
    exact ⟨l, hl⟩
  have hsome : ∀ (B S : Nat) (l : FreeList), mapLowerBound B a.free_lists_ = some (S, l) →
      B ≤ S ∧ (∃ p ∈ a.chunks_, p.2.in_use = false ∧ p.2.size = S) ∧
      (∀ p ∈ a.chunks_, p.2.in_use = false → B ≤ p.2.size → S ≤ p.2.size) ∧
      ∃ cmit, l.head? = some cmit := by
    intro B S l hlb
    obtain ⟨hf, hle, hmin⟩ := mapLowerBound_some hinv.fl.1 hlb
    have hne := (hinv.fl.2 S l hf).1
    obtain ⟨cmit, rest, hl⟩ := List.exists_cons_of_ne_nil hne
    obtain ⟨c, hc, hsz, hfree⟩ := (hinv.flc S cmit).mp ⟨l, hf, by rw [hl]; simp⟩
    refine ⟨hle, ⟨(cmit, c), mapFind_some_mem hc, hfree, hsz⟩, ?_, cmit, by rw [hl]; rfl⟩
    intro p hp hfree' hB
    obtain ⟨l', hl'⟩ := hclass p hp hfree'
    exact hmin _ l' hl' hB
  refine ⟨fun q hq => (hinv.fl.2 q.1 q.2 (hfl q hq)).1, ?_, hsome, ?_⟩
  · intro B
    constructor
    · rintro ⟨⟨S, l⟩, hlb⟩
      obtain ⟨hle, ⟨p, hp, hfree, hsz⟩, _, _⟩ := hsome B S l hlb
      exact ⟨p, hp, hfree, by rw [hsz]; exact hle⟩
    · rintro ⟨p, hp, hfree, hB⟩
      obtain ⟨l', hl'⟩ := hclass p hp hfree
      exact mapLowerBound_isSome_of hl' hB
  · intro s hm
    cases hlb : mapLowerBound (toSizeT (next_largest_power_of_2 (toInt64 s))) a.free_lists_ with
    | none => rw [malloc_oom hlb] at hm; cases hm
    | some e =>
      obtain ⟨S, l⟩ := e
      rcases malloc_found hN hinv hsib hlb with ⟨_, herr⟩ | ⟨a1, cmit, c', hok, _⟩
      · rw [herr] at hm; cases hm
      · rw [hok] at hm; cases hm

theorem C20_witness :
    (0 : Int) < 12 ∧ (12 : Int) < 2 ^ 63 ∧ Reachable 0 12 used12 ∧
    ((∀ q ∈ used12.free_lists_, q.2 ≠ []) ∧
    (∀ B : Nat, (∃ e, mapLowerBound B used12.free_lists_ = some e) ↔
      ∃ p ∈ used12.chunks_, p.2.in_use = false ∧ B ≤ p.2.size) ∧
    (∀ (B S : Nat) (l : FreeList), mapLowerBound B used12.free_lists_ = some (S, l) →
      B ≤ S ∧ (∃ p ∈ used12.chunks_, p.2.in_use = false ∧ p.2.size = S) ∧
      (∀ p ∈ used12.chunks_, p.2.in_use = false → B ≤ p.2.size → S ≤ p.2.size) ∧
      ∃ cmit, l.head? = some cmit) ∧
    (∀ s : Nat, used12.malloc s ≠ .error .Undefined)) :=
  ⟨by decide, int12_lt, reach_used12, C20_lower_bound (by decide) int12_lt reach_used12⟩

/-- C17 (code at the failing input): the bit-fields of `NTHeader` are declared with the widths
20 (`64 - 44`), 44, 31, 13, 10 and 10, which add up to 128 bits, the size of `raw_[2]`; but
placed for x86-64, `size_`, `count_` and `offset_`, declared with 16-bit types, each start at
the next 16-bit boundary, so `offset_` occupies bits 128 to 137, in a third 64-bit word, and
`sizeof( NTHeader )` is 24 bytes, not 16. -/
theorem C17_header_is_24_bytes :
    NTHeader.fields.map (fun f => (f.name, f.type_bits, f.width)) =
      [("dest_", 32, 20), ("addr_", 64, 44), ("fp_", 32, 31), ("size_", 16, 13),
        ("count_", 16, 10), ("offset_", 16, 10)] ∧
    (20 : Int) = NTMESSAGE_WORD_BITS - NTMESSAGE_ADDRESS_BITS ∧
    (NTHeader.fields.map (fun f => f.width)).sum = 128 ∧ NTHeader.raw_bits = 128 ∧
    placeBitFields 0 NTHeader.fields =
      [("dest_", 0, 19), ("addr_", 20, 63), ("fp_", 64, 94), ("size_", 96, 108),
        ("count_", 112, 121), ("offset_", 128, 137)] ∧
    NTHeader.sizeof = 24 := by
  refine ⟨by decide, by decide, by decide, by decide, by decide, by decide⟩

/-- C15 (code at the failing input): a send of the destination-only shape calls the handler at
once, but one send of each of the three other shapes returns with the record of handler calls
still empty: the handler is called 0 times, not once. -/
theorem C15_handler_not_called :
    (send_new_ntmessage 1 true (7 : Int) recordCall world0).user = ["call"] ∧
    send_new_ntmessage_address true false false false ((7 : Int), (256 : Int)) recordCallAt
      world0 = some ⟨["GlobalAddress; handler has pointer and empty capture: "], []⟩ ∧
    send_new_ntmessage_payload 1 true (7 : Int) [(1 : Nat), 2, 3] 3 recordCallAt world0
      = ⟨["Payload with no address; handler has empty capture: "], []⟩ ∧
    send_new_ntmessage_address_payload true false false false ((7 : Int), (256 : Int))
      [(1 : Nat), 2, 3] 3 recordCallAt world0
      = some ⟨["Payload with GlobalAddress; handler takes pointer and has empty capture: "],
          []⟩ := by
  refine ⟨by decide, by decide, by decide, by decide⟩

/-- C16 (code at the failing input): four sends of the address shape to core 7 at `0x100`,
`0x108`, `0x110`, `0x118` with one handler write four log lines and nothing else: no header
is formed and no buffer exists to hold one. -/
theorem C16_no_header_at_four_sends :
    ((((send_new_ntmessage_address true false false false ((7 : Int), (0x100 : Int))
        recordCallAt world0).bind
      (send_new_ntmessage_address true false false false ((7 : Int), (0x108 : Int))
        recordCallAt)).bind
      (send_new_ntmessage_address true false false false ((7 : Int), (0x110 : Int))
        recordCallAt)).bind
      (send_new_ntmessage_address true false false false ((7 : Int), (0x118 : Int))
        recordCallAt))
    = some ⟨List.replicate 4 "GlobalAddress; handler has pointer and empty capture: ", []⟩ := by
  decide

theorem npo2_exact_nonneg {v : Int} {x : Nat} (h : v - 1 = (x : Int)) :
    next_largest_power_of_2_exact v = ((smearOr x : Nat) : Int) + 1 := by
  unfold next_largest_power_of_2_exact
  simp only [h]
  rfl

theorem smearOr_bound {x : Nat} (hx : x < 2 ^ 62) : smearOr x + 1 ≤ 2 ^ 62 := by
  by_cases h0 : x = 0
  · subst h0; decide
  · obtain ⟨m, hm1, hm2⟩ : ∃ m, 2 ^ m ≤ x ∧ x < 2 ^ (m + 1) :=
      ⟨Nat.log 2 x, Nat.pow_log_le_self 2 h0, Nat.lt_pow_succ_log_self (by norm_num) x⟩
    have hm : m < 62 := by
      by_contra hc
      have : 2 ^ 62 ≤ 2 ^ m := Nat.pow_le_pow_right (by norm_num) (by omega)
      omega
    rw [smearOr_eq hm1 hm2 (by omega)]
    have hpos : 0 < 2 ^ (m + 1) := Nat.pos_pow_of_pos _ (by norm_num)
    have hle : 2 ^ (m + 1) ≤ 2 ^ 62 := Nat.pow_le_pow_right (by norm_num) (by omega)
    omega

/-- C21 (sizes are powers of two): in every state reachable from `Allocator(base, N)` by
successful `malloc` and `free` calls, the size of every chunk in the chunk map is a power of
two, and so never 0. -/
theorem C21_size_pow2 {base N : Int} {a : Allocator} (h0 : 0 < N) (h1 : N < 2 ^ 63)
    (hr : Reachable base N a) :
    ∀ p ∈ a.chunks_, (∃ j : Nat, p.2.size = 2 ^ j) ∧ p.2.size ≠ 0 := by
  obtain ⟨hinv, _, _⟩ := reachable_inv h0 h1 hr
  intro p hp
  have hf : mapFind p.1 a.chunks_ = some p.2 :=
    mapFind_of_mem hinv.chunks.sorted (by cases p; exact hp)
  exact ⟨hinv.chunks.pow2 p.1 p.2 hf, Nat.pos_iff_ne_zero.mp (hinv.chunks.size_pos hf)⟩

theorem C21_witness :
    (0 : Int) < 12 ∧ (12 : Int) < 2 ^ 63 ∧ Reachable 0 12 used12 ∧
    ∀ p ∈ used12.chunks_, (∃ j : Nat, p.2.size = 2 ^ j) ∧ p.2.size ≠ 0 :=
  ⟨by decide, int12_lt, reach_used12, C21_size_pow2 (by decide) int12_lt reach_used12⟩

/-- C22 (rounding up): for `1 ≤ v ≤ 2 ^ 62`, `next_largest_power_of_2(v)` is a power of two
`2 ^ j`, `j ≤ 62`, not below `v` and not above any power of two that is not below `v`; it is
`v` itself when `v` is a power of two; and the 64-bit computation does not overflow: `v - 1`
is in range and the result equals the one computed on unbounded integers. -/
theorem C22_next_power_of_two {v : Int} (h1 : 1 ≤ v) (h2 : v ≤ 2 ^ 62) :
    ∃ j : Nat, j ≤ 62 ∧ next_largest_power_of_2 v = 2 ^ j ∧ v ≤ 2 ^ j ∧
      (∀ i : Nat, v ≤ 2 ^ i → (2 : Int) ^ j ≤ 2 ^ i) ∧
      ((∃ i : Nat, v = 2 ^ i) → next_largest_power_of_2 v = v) ∧
      toInt64 (v - 1) = v - 1 ∧
      next_largest_power_of_2 v = next_largest_power_of_2_exact v := by
  obtain ⟨j, hj, hnp, hle, hmin⟩ := npo2_spec h1 h2
  obtain ⟨x, hx⟩ : ∃ x : Nat, v - 1 = (x : Int) := ⟨(v - 1).toNat, by omega⟩
  have hw0 : toInt64 (v - 1) = v - 1 := toInt64_eq (by omega) (by omega)
  have hx' : x < 2 ^ 62 := by
    have : (x : Int) < 2 ^ 62 := by omega
    exact_mod_cast this
  have hb := smearOr_bound hx'
  have hex : next_largest_power_of_2 v = next_largest_power_of_2_exact v := by
    rw [npo2_nonneg (hw0.trans hx), npo2_exact_nonneg hx]
    have hb' : ((smearOr x : Nat) : Int) + 1 ≤ 2 ^ 62 := by exact_mod_cast hb
    exact toInt64_eq (by omega) (by omega)
  refine ⟨j, hj, hnp, hle, hmin, ?_, hw0, hex⟩
  rintro ⟨i, hi⟩
  rw [hnp]
  have := hmin i (le_of_eq hi)
  rw [← hi] at this
  omega

theorem C22_witness :
    (1 : Int) ≤ 3 ∧ (3 : Int) ≤ 2 ^ 62 ∧
    ∃ j : Nat, j ≤ 62 ∧ next_largest_power_of_2 3 = 2 ^ j ∧ (3 : Int) ≤ 2 ^ j ∧
      (∀ i : Nat, (3 : Int) ≤ 2 ^ i → (2 : Int) ^ j ≤ 2 ^ i) ∧
      ((∃ i : Nat, (3 : Int) = 2 ^ i) → next_largest_power_of_2 3 = 3) ∧
      toInt64 (3 - 1) = 3 - 1 ∧
      next_largest_power_of_2 3 = next_largest_power_of_2_exact 3 :=
  ⟨by decide, by norm_num, C22_next_power_of_two (by decide) (by norm_num)⟩

theorem toSizeT_toInt64 (x : Int) : toSizeT (toInt64 x) = toSizeT x := by
  unfold toSizeT toInt64
  congr 1
  omega

/-- An address returned for offset `o` lies in the region, read as unsigned 64-bit addresses,
when the region does not wrap around the address space. -/
theorem address_in_region {base : Int} {o B n : Nat} (hB : 0 < B) (hb : o + B ≤ n)
    (hfit : toSizeT base + n ≤ 2 ^ 64) :
    toSizeT base ≤ toSizeT (toInt64 ((o : Int) + base)) ∧
      toSizeT (toInt64 ((o : Int) + base)) + B ≤ toSizeT base + n := by
  rw [toSizeT_toInt64]
  have e : toSizeT ((o : Int) + base) = o + toSizeT base := by
    unfold toSizeT at *
    omega
  rw [e]
  omega

/-- C24 (no overlapping allocations): when `malloc(s)`, `1 ≤ s ≤ 2 ^ 62`, returns `p` in a
reachable state, `p` is `base` plus an offset `o` with `o + B ≤ N`, `B` the least power of
two not below `s`; the chunk at `o` is in use with size `B`; its interval `[o, o + B)` is
disjoint from the interval of every other chunk in use after the call and of every chunk in
use before the call; and, with addresses read as unsigned 64-bit values and the region not
wrapping around the address space, `base ≤ p` and `p + B ≤ base + N`. -/
theorem C24_no_overlap {base N : Int} {a a' : Allocator} {s : Nat} {p : Int}
    (h0 : 0 < N) (h1 : N < 2 ^ 63) (hr : Reachable base N a) (hs1 : 1 ≤ s) (hs2 : s ≤ 2 ^ 62)
    (hm : a.malloc s = .ok (p, a')) :
    ∃ o B : Nat, IsLeastPow2Ge s B ∧ p = toInt64 ((o : Int) + base) ∧
      toInt64 (p - base) = (o : Int) ∧ (o : Int) + B ≤ N ∧
      mapFind o a'.chunks_ = some ⟨true, o, B⟩ ∧
      (∀ q ∈ a'.chunks_, q.2.in_use = true → q.1 ≠ o →
        q.2.address + q.2.size ≤ o ∨ o + B ≤ q.2.address) ∧
      (∀ q ∈ a.chunks_, q.2.in_use = true →
        q.2.address + q.2.size ≤ o ∨ o + B ≤ q.2.address) ∧
      (toSizeT base + N.toNat ≤ 2 ^ 64 →
        toSizeT base ≤ toSizeT p ∧ toSizeT p + B ≤ toSizeT base + N.toNat) := by
  obtain ⟨hinv, hsib, hbase⟩ := reachable_inv h0 h1 hr
  have hN : N.toNat < 2 ^ 63 := by omega
  obtain ⟨a1, cmit, c', hp, ha', i1, i2, i3, i4, _, _, hsame, hb1, _⟩ :=
    malloc_inv hN hinv hsib hm
  have hleast := isLeastPow2Ge_of_npo2 hs1 hs2 i4
  rw [hbase] at hp
  have hk := i1.chunks.addr cmit c' i2
  have hbound := i1.chunks.bound cmit c' i2
  have hcm : cmit < 2 ^ 63 := by omega
  have hoff : toInt64 (p - base) = (cmit : Int) := by rw [hp]; exact toInt64_sub_add hcm base
  have hinv' : Inv N.toNat a' := by rw [ha']; exact Inv_used i1 i2
  have hat : mapFind cmit a'.chunks_ = some ⟨true, cmit, c'.size⟩ := by
    rw [ha']
    simp only [usedState, mapFind_mapPut, if_true]
    rw [hk]
  have hfind' : ∀ q ∈ a'.chunks_, mapFind q.1 a'.chunks_ = some q.2 := fun q hq =>
    mapFind_of_mem hinv'.chunks.sorted (by cases q; exact hq)
  have hafter : ∀ q ∈ a'.chunks_, q.1 ≠ cmit →
      q.2.address + q.2.size ≤ cmit ∨ cmit + c'.size ≤ q.2.address := by
    intro q hq hne
    have hq' := hfind' q hq
    rw [hinv'.chunks.addr q.1 q.2 hq']
    rcases Nat.lt_trichotomy q.1 cmit with hlt | heq | hgt
    · exact Or.inl (hinv'.chunks.disj q.1 q.2 cmit ⟨true, cmit, c'.size⟩ hq' hat hlt)
    · exact absurd heq hne
    · have := hinv'.chunks.disj cmit ⟨true, cmit, c'.size⟩ q.1 q.2 hat hq' hgt
      exact Or.inr this
  clear hm i4 hs1 hs2 hr
  refine ⟨cmit, c'.size, hleast, hp, hoff, by omega, hat, fun q hq _ hne => hafter q hq hne,
    ?_, ?_⟩
  · intro q hq huse
    have hq0 : mapFind q.1 a.chunks_ = some q.2 :=
      mapFind_of_mem hinv.chunks.sorted (by cases q; exact hq)
    have hq1 : mapFind q.1 a1.chunks_ = some q.2 := (hsame q.1 q.2 huse).mpr hq0
    have hne : q.1 ≠ cmit := by
      intro e
      rw [e, i2] at hq1
      injection hq1 with hq1
      rw [← hq1, i3] at huse
      cases huse
    have hq2 : mapFind q.1 a'.chunks_ = some q.2 := by
      rw [ha']
      simp only [usedState, mapFind_mapPut, hne, if_false]
      exact hq1
    exact hafter q (by have := mapFind_some_mem hq2; exact this) hne
  · intro hfit
    rw [hp]
    exact address_in_region (i1.chunks.size_pos i2) hbound hfit

theorem C24_witness :
    (0 : Int) < 12 ∧ (12 : Int) < 2 ^ 63 ∧ Reachable 0 12 fresh12 ∧ 1 ≤ 3 ∧ 3 ≤ 2 ^ 62 ∧
    fresh12.malloc 3 = .ok (8, used12) ∧
    ∃ o B : Nat, IsLeastPow2Ge 3 B ∧ (8 : Int) = toInt64 ((o : Int) + 0) ∧
      toInt64 (8 - 0) = (o : Int) ∧ (o : Int) + B ≤ 12 ∧
      mapFind o used12.chunks_ = some ⟨true, o, B⟩ ∧
      (∀ q ∈ used12.chunks_, q.2.in_use = true → q.1 ≠ o →
        q.2.address + q.2.size ≤ o ∨ o + B ≤ q.2.address) ∧
      (∀ q ∈ fresh12.chunks_, q.2.in_use = true →
        q.2.address + q.2.size ≤ o ∨ o + B ≤ q.2.address) ∧
      (toSizeT 0 + (12 : Int).toNat ≤ 2 ^ 64 →
        toSizeT 0 ≤ toSizeT 8 ∧ toSizeT 8 + B ≤ toSizeT 0 + (12 : Int).toNat) :=
  ⟨by decide, int12_lt, reach_fresh12, by decide, by norm_num, malloc_fresh12_3,
    C24_no_overlap (by decide) int12_lt reach_fresh12 (by decide) (by norm_num)
      malloc_fresh12_3⟩

/-- C25 (live allocations are not disturbed): in a reachable state, a successful `malloc`
leaves every chunk in use in the map with the same offset, size and flag, and the only chunk
in use afterwards that was not in use before is the one at the returned address; a successful
`free(p)` leaves every chunk in use other than the one at `p` unchanged, and every chunk in
use afterwards was in use before, unchanged, and is not the one at `p`. So the chunks that
splitting and merging create, resize or remove are free. -/
theorem C25_live_undisturbed {base N : Int} {a : Allocator} (h0 : 0 < N) (h1 : N < 2 ^ 63)
    (hr : Reachable base N a) :
    (∀ (s : Nat) (p : Int) (a' : Allocator), a.malloc s = .ok (p, a') →
      ∀ (k : Nat) (c : AllocatorChunk), c.in_use = true →
        (mapFind k a.chunks_ = some c → mapFind k a'.chunks_ = some c) ∧
        (mapFind k a'.chunks_ = some c →
          mapFind k a.chunks_ = some c ∨ (k : Int) = toInt64 (p - base))) ∧
    (∀ (p : Int) (a' : Allocator), a.free p = .ok a' →
      ∀ (k : Nat) (c : AllocatorChunk), c.in_use = true →
        (mapFind k a.chunks_ = some c → (k : Int) ≠ toInt64 (p - base) →
          mapFind k a'.chunks_ = some c) ∧
        (mapFind k a'.chunks_ = some c →
          mapFind k a.chunks_ = some c ∧ (k : Int) ≠ toInt64 (p - base))) := by
  obtain ⟨hinv, hsib, hbase⟩ := reachable_inv h0 h1 hr
  have hN : N.toNat < 2 ^ 63 := by omega
  constructor
  · intro s p a' hm k c huse
    obtain ⟨a1, cmit, c', hp, ha', i1, i2, i3, _, _, _, hsame, _, _⟩ :=
      malloc_inv hN hinv hsib hm
    rw [hbase] at hp
    have hbound := i1.chunks.bound cmit c' i2
    have hoff : toInt64 (p - base) = (cmit : Int) := by
      rw [hp]; exact toInt64_sub_add (by omega) base
    clear hm
    constructor
    · intro hk
      have hk1 : mapFind k a1.chunks_ = some c := (hsame k c huse).mpr hk
      have hne : k ≠ cmit := by
        intro e
        rw [e, i2] at hk1
        injection hk1 with hk1
        rw [← hk1, i3] at huse
        cases huse
      rw [ha']
      simp only [usedState, mapFind_mapPut, hne, if_false]
      exact hk1
    · intro hk
      by_cases e : k = cmit
      · right; rw [hoff, e]
      · left
        rw [ha'] at hk
        simp only [usedState, mapFind_mapPut, e, if_false] at hk
        exact (hsame k c huse).mp hk
  · intro p a' hf k c huse
    obtain ⟨c0, hp0, hc0, _, _, _, _, hsame, _, _⟩ := free_inv hN hinv hsib hf
    rw [hbase] at hp0 hc0 hsame
    have hcast : ((toInt64 (p - base)).toNat : Int) = toInt64 (p - base) := Int.toNat_of_nonneg hp0
    clear hf
    constructor
    · intro hk hne
      apply (hsame k c huse).mpr
      have hne' : k ≠ (toInt64 (p - base)).toNat := by
        intro e
        apply hne
        rw [e, hcast]
      simp only [freedState, mapFind_mapPut, hne', if_false]
      exact hk
    · intro hk
      have hk1 := (hsame k c huse).mp hk
      by_cases e : k = (toInt64 (p - base)).toNat
      · exfalso
        rw [e] at hk1
        simp only [freedState, mapFind_mapPut, if_true] at hk1
        injection hk1 with hk1
        rw [← hk1] at huse
        cases huse
      · simp only [freedState, mapFind_mapPut, e, if_false] at hk1
        refine ⟨hk1, ?_⟩
        intro e2
        apply e
        rw [← e2]
        rfl

theorem C25_witness :
    (0 : Int) < 12 ∧ (12 : Int) < 2 ^ 63 ∧ Reachable 0 12 used12 ∧
    ((∀ (s : Nat) (p : Int) (a' : Allocator), used12.malloc s = .ok (p, a') →
      ∀ (k : Nat) (c : AllocatorChunk), c.in_use = true →
        (mapFind k used12.chunks_ = some c → mapFind k a'.chunks_ = some c) ∧
        (mapFind k a'.chunks_ = some c →
          mapFind k used12.chunks_ = some c ∨ (k : Int) = toInt64 (p - 0))) ∧
    (∀ (p : Int) (a' : Allocator), used12.free p = .ok a' →
      ∀ (k : Nat) (c : AllocatorChunk), c.in_use = true →
        (mapFind k used12.chunks_ = some c → (k : Int) ≠ toInt64 (p - 0) →
          mapFind k a'.chunks_ = some c) ∧
        (mapFind k a'.chunks_ = some c →
          mapFind k used12.chunks_ = some c ∧ (k : Int) ≠ toInt64 (p - 0)))) :=
  ⟨by decide, int12_lt, reach_used12, C25_live_undisturbed (by decide) int12_lt reach_used12⟩

theorem isLeastPow2Ge_unique {s B B' : Nat} (h : IsLeastPow2Ge s B) (h' : IsLeastPow2Ge s B') :
    B = B' := by
  obtain ⟨⟨j, hj⟩, hle, hmin⟩ := h
  obtain ⟨⟨j', hj'⟩, hle', hmin'⟩ := h'
  have a1 := hmin j' (by rw [← hj']; exact hle')
  have a2 := hmin' j (by rw [← hj]; exact hle)
  rw [← hj'] at a1
  rw [← hj] at a2
  omega

theorem pow2_le_of_lt63 {B : Nat} (hp : ∃ j : Nat, B = 2 ^ j) (h : B < 2 ^ 63) : B ≤ 2 ^ 62 := by
  obtain ⟨j, rfl⟩ := hp
  have hj : j < 63 := (Nat.pow_lt_pow_iff_right (by norm_num)).mp h
  exact Nat.pow_le_pow_right (by norm_num) (by omega)

/-- A request whose size class is the size of the selected chunk takes that chunk as it is. -/
theorem malloc_unsplit {N : Nat} (hN : N < 2 ^ 63) {a : Allocator} (hinv : Inv N a)
    {s S o : Nat} {rest : List Nat}
    (hB : next_largest_power_of_2 (toInt64 s) = (S : Int))
    (hsel : mapLowerBound (toSizeT (next_largest_power_of_2 (toInt64 s))) a.free_lists_
      = some (S, o :: rest)) :
    a.malloc s = .ok (toInt64 ((o : Int) + a.base_), usedState a o ⟨false, o, S⟩) := by
  obtain ⟨cmit, rest1, c, j, hl, hc, hfree, hcS, _, _, _, _, _, hcs64, _, _⟩ :=
    malloc_pre hN hinv hsel
  obtain ⟨ho, hrest⟩ := List.cons.inj hl
  subst ho
  subst hrest
  have hk := hinv.chunks.addr o c hc
  have hce : c = ⟨false, o, S⟩ := by
    cases c
    simp only at hfree hcS hk
    rw [hfree, hcS, hk]
  have hstop : Allocator.subdivide 65 a o (c.size : Int) (next_largest_power_of_2 (toInt64 s))
      = .ok (a, o) := by
    apply subdivide_stop
    rw [hB, hcS]
    exact lt_irrefl _
  have := malloc_of_subdivide hsel hcs64 hstop hinv hc hfree rfl
  rw [this, hce]

/-- C29 (which piece `malloc` hands out): in a reachable state, for `s ≥ 1` with `B` the least
power of two not below `s`, if `lower_bound(B)` on the free-list map finds the class of size
`S` whose list has the chunk at offset `o` in front, then `malloc(s)` returns
`base + o + (S - B)`; afterwards the chunk at `o + S - B` is in use with size `B`, the pieces
of sizes `T = S/2, S/4, ..., B` are free chunks at offsets `o + S - 2 T` (that is `o`,
`o + S/2`, ..., `o + S - 2 B`) and members of the free list of their size, no chunk outside
`[o, o + S)` changes, and when `S = B` the chunk at `o` is taken as it is: only its flag
changes and it leaves its free list. -/
theorem C29_piece_handed_out {base N : Int} {a : Allocator} {s B S o : Nat} {rest : List Nat}
    (h0 : 0 < N) (h1 : N < 2 ^ 63) (hr : Reachable base N a) (hs1 : 1 ≤ s)
    (hB : IsLeastPow2Ge s B)
    (hsel : mapLowerBound B a.free_lists_ = some (S, o :: rest)) :
    ∃ a', a.malloc s = .ok (toInt64 (((o + (S - B) : Nat) : Int) + base), a') ∧
      mapFind (o + (S - B)) a'.chunks_ = some ⟨true, o + (S - B), B⟩ ∧
      (∀ T, (∃ i : Nat, T = 2 ^ i) → B ≤ T → T < S →
        mapFind (o + S - 2 * T) a'.chunks_ = some ⟨false, o + S - 2 * T, T⟩ ∧
        memFL a'.free_lists_ T (o + S - 2 * T)) ∧
      (∀ k, k < o ∨ o + S ≤ k → mapFind k a'.chunks_ = mapFind k a.chunks_) ∧
      (S = B → a'.chunks_ = mapPut o ⟨true, o, B⟩ a.chunks_ ∧
        a'.free_lists_ = flRemove B o a.free_lists_) := by
  obtain ⟨hinv, _, hbase⟩ := reachable_inv h0 h1 hr
  have hN : N.toNat < 2 ^ 63 := by omega
  -- the selected class bounds the size class
  obtain ⟨hfS, hBS, _⟩ := mapLowerBound_some hinv.fl.1 hsel
  obtain ⟨c, hc, hcS, _⟩ := (hinv.flc S o).mp ⟨o :: rest, hfS, List.mem_cons_self _ _⟩
  have hSN : S < 2 ^ 63 := by
    have := hinv.chunks.bound o c hc
    omega
  have hB62 : B ≤ 2 ^ 62 := pow2_le_of_lt63 hB.1 (by omega)
  have hs2 : s ≤ 2 ^ 62 := le_trans hB.2.1 hB62
  obtain ⟨b, hBi, hBs, hleast⟩ := class_pow2 hs1 hs2
  have hBb : B = 2 ^ b := isLeastPow2Ge_unique hB hleast
  subst hBb
  rw [← hBs] at hsel
  obtain ⟨a1, _, hle, hmal, hpieces, hout⟩ := malloc_shape hN hinv hBi hsel
  rw [hbase] at hmal
  have hreach : Reachable base N (usedState a1 (o + S - 2 ^ b) ⟨false, o + S - 2 ^ b, 2 ^ b⟩) :=
    Reachable.malloc hr hmal
  obtain ⟨hinv', _, _⟩ := reachable_inv h0 h1 hreach
  have hunsplit : S = 2 ^ b → a.malloc s
      = .ok (toInt64 ((o : Int) + a.base_), usedState a o ⟨false, o, S⟩) := by
    intro e
    exact malloc_unsplit hN hinv (by rw [hBi, e]) hsel
  clear hsel hBi hBs hr h0 h1 hinv hreach hc hfS
  have hpos : 0 < 2 ^ b := Nat.pos_pow_of_pos _ (by norm_num)
  have eo : o + (S - 2 ^ b) = o + S - 2 ^ b := by omega
  rw [eo]
  have hview : ∀ T, (∃ i : Nat, T = 2 ^ i) → 2 ^ b ≤ T → T < S →
      mapFind (o + S - 2 * T)
        (usedState a1 (o + S - 2 ^ b) ⟨false, o + S - 2 ^ b, 2 ^ b⟩).chunks_
        = some ⟨false, o + S - 2 * T, T⟩ := by
    intro T hT h1 h2
    have n1 : o + S - 2 * T ≠ o + S - 2 ^ b := by omega
    simp only [usedState, mapFind_mapPut, n1, if_false]
    exact hpieces T hT h1 h2
  refine ⟨_, hmal, ?_, ?_, ?_, ?_⟩
  · simp [usedState, mapFind_mapPut]
  · intro T hT h1 h2
    have hv := hview T hT h1 h2
    exact ⟨hv, (hinv'.flc T _).mpr ⟨_, hv, rfl, rfl⟩⟩
  · intro k hk
    have n1 : k ≠ o + S - 2 ^ b := by omega
    simp only [usedState, mapFind_mapPut, n1, if_false]
    exact hout k hk
  · intro e
    have h2 := hmal.symm.trans (hunsplit e)
    have h3 := (Prod.mk.inj (Except.ok.inj h2)).2
    rw [h3, ← e]
    exact ⟨rfl, rfl⟩

theorem C29_witness :
    (0 : Int) < 16 ∧ (16 : Int) < 2 ^ 63 ∧ Reachable 0 16 fresh16 ∧ 1 ≤ 1 ∧
    IsLeastPow2Ge 1 1 ∧ mapLowerBound 1 fresh16.free_lists_ = some (16, [0]) ∧
    ∃ a', fresh16.malloc 1 = .ok (toInt64 (((0 + (16 - 1) : Nat) : Int) + 0), a') ∧
      mapFind (0 + (16 - 1)) a'.chunks_ = some ⟨true, 0 + (16 - 1), 1⟩ ∧
      (∀ T, (∃ i : Nat, T = 2 ^ i) → 1 ≤ T → T < 16 →
        mapFind (0 + 16 - 2 * T) a'.chunks_ = some ⟨false, 0 + 16 - 2 * T, T⟩ ∧
        memFL a'.free_lists_ T (0 + 16 - 2 * T)) ∧
      (∀ k, k < 0 ∨ 0 + 16 ≤ k → mapFind k a'.chunks_ = mapFind k fresh16.chunks_) ∧
      (16 = 1 → a'.chunks_ = mapPut 0 ⟨true, 0, 1⟩ fresh16.chunks_ ∧
        a'.free_lists_ = flRemove 1 0 fresh16.free_lists_) :=
  ⟨by decide, int16_lt, reach_fresh16, by decide,
    ⟨⟨0, rfl⟩, le_refl _, fun _ _ => Nat.one_le_two_pow⟩, rfl,
    C29_piece_handed_out (by decide) int16_lt reach_fresh16 (by decide)
      ⟨⟨0, rfl⟩, le_refl _, fun _ _ => Nat.one_le_two_pow⟩ rfl⟩

/-- The buddy address of an aligned chunk: `k` and `k ^^^ 2 ^ j` are the two halves of one
block of size `2 ^ (j + 1)` that starts at a multiple of `2 ^ (j + 1)`. -/
theorem buddy_block {j k : Nat} (h : 2 ^ j ∣ k) :
    ∃ b, 2 ^ (j + 1) ∣ b ∧
      ((k = b ∧ k ^^^ 2 ^ j = b + 2 ^ j) ∨ (k = b + 2 ^ j ∧ k ^^^ 2 ^ j = b)) := by
  have hpos : 0 < 2 ^ j := Nat.pos_pow_of_pos _ (by norm_num)
  have hx : (2 : Nat) ^ (j + 1) = 2 ^ j * 2 := pow_succ 2 j
  obtain ⟨q, hq⟩ := h
  rcases Nat.even_or_odd' q with ⟨r, hr | hr⟩
  · have hk : k = 2 ^ (j + 1) * r := by rw [hq, hr, hx]; ring
    have hmod : k % 2 ^ (j + 1) = 0 := by rw [hk]; exact Nat.mul_mod_right _ _
    refine ⟨k, ⟨r, hk⟩, Or.inl ⟨rfl, ?_⟩⟩
    rcases xor_two_pow j k with ⟨h1, _⟩ | ⟨_, h2⟩
    · exact h1
    · omega
  · have hk : k = 2 ^ (j + 1) * r + 2 ^ j := by rw [hq, hr, hx]; ring
    have hmod : k % 2 ^ (j + 1) = 2 ^ j := by
      rw [hk, Nat.mul_add_mod]
      exact Nat.mod_eq_of_lt (by omega)
    refine ⟨2 ^ (j + 1) * r, ⟨r, rfl⟩, Or.inr ⟨hk, ?_⟩⟩
    rcases xor_two_pow j k with ⟨_, h2⟩ | ⟨h1, _⟩
    · omega
    · omega

theorem aligned_used {a : Allocator} (h : Aligned a) {cmit : Nat} {c : AllocatorChunk}
    (hc : mapFind cmit a.chunks_ = some c) : Aligned (usedState a cmit c) := by
  intro k c' hk
  simp only [usedState, mapFind_mapPut] at hk
  by_cases e : k = cmit
  · simp only [e, if_true] at hk
    injection hk with hk
    rw [← hk, e]
    exact h cmit c hc
  · simp only [e, if_false] at hk
    exact h k c' hk

theorem aligned_freed {a : Allocator} (h : Aligned a) {it : Nat} {c : AllocatorChunk}
    (hc : mapFind it a.chunks_ = some c) : Aligned (freedState a it c) := by
  intro k c' hk
  simp only [freedState, mapFind_mapPut] at hk
  by_cases e : k = it
  · simp only [e, if_true] at hk
    injection hk with hk
    rw [← hk, e]
    exact h it c hc
  · simp only [e, if_false] at hk
    exact h k c' hk

theorem aligned_split {N : Nat} {a : Allocator} (hinv : Inv N a) (h : Aligned a) {cmit : Nat}
    {c : AllocatorChunk} {j : Nat} (hc : mapFind cmit a.chunks_ = some c)
    (hsz : c.size = 2 ^ (j + 1)) : Aligned (splitState a cmit c (2 ^ j)) := by
  have hd : 2 ^ (j + 1) ∣ cmit := by rw [← hsz]; exact h cmit c hc
  have hd' : 2 ^ j ∣ cmit := Dvd.dvd.trans ⟨2, pow_succ 2 j⟩ hd
  intro k c' hk
  rw [split_view hinv hc] at hk
  by_cases e1 : k = cmit + 2 ^ j
  · simp only [e1, if_true] at hk
    injection hk with hk
    rw [← hk, e1]
    exact Dvd.dvd.add hd' (dvd_refl _)
  · simp only [e1, if_false] at hk
    by_cases e2 : k = cmit
    · simp only [e2, if_true] at hk
      injection hk with hk
      rw [← hk, e2]
      exact hd'
    · simp only [e2, if_false] at hk
      exact h k c' hk

theorem aligned_merged {N : Nat} {a : Allocator} (hinv : Inv N a) (hN : N < 2 ^ 63)
    (h : Aligned a) {lo hi : Nat} {l : AllocatorChunk} (hl : mapFind lo a.chunks_ = some l)
    (hadj : hi = lo + l.size) (hx : lo ^^^ l.size = hi) :
    Aligned (mergedState a lo hi l) := by
  obtain ⟨j, hj⟩ := hinv.chunks.pow2 lo l hl
  have hpos : 0 < 2 ^ j := Nat.pos_pow_of_pos _ (by norm_num)
  have hb := hinv.chunks.bound lo l hl
  have hd : 2 ^ j ∣ lo := by rw [← hj]; exact h lo l hl
  have hmod : (l.size * 2) % 2 ^ 64 = 2 ^ (j + 1) := by
    rw [hj, ← pow_succ]
    apply Nat.mod_eq_of_lt
    rw [pow_succ]
    omega
  have hlo : 2 ^ (j + 1) ∣ lo := by
    obtain ⟨b, hb1, hb2 | hb2⟩ := buddy_block hd
    · rw [hb2.1]; exact hb1
    · rw [hj] at hx hadj
      omega
  intro k c' hk
  rw [merged_view hinv] at hk
  by_cases e1 : k = lo
  · simp only [e1, if_true] at hk
    injection hk with hk
    rw [← hk, e1]
    simp only [hmod]
    exact hlo
  · simp only [e1, if_false] at hk
    by_cases e2 : k = hi
    · simp only [e2, if_true] at hk
      cases hk
    · simp only [e2, if_false] at hk
      exact h k c' hk

/-- One merge step of `try_merge_buddy_recursive` in a state that satisfies the invariant,
started on a free chunk whose buddy is free and of equal size. -/
theorem try_merge_key {N : Nat} {a : Allocator} (hinv : Inv N a) {cmit : Nat}
    {c b : AllocatorChunk} (hc : mapFind cmit a.chunks_ = some c) (hfree : c.in_use = false)
    (hb : mapFind (c.address ^^^ c.size) a.chunks_ = some b)
    (hcond : b.size = c.size ∧ b.in_use = false) (fuel : Nat) :
    ∃ lo hi l h, mapFind lo a.chunks_ = some l ∧ mapFind hi a.chunks_ = some h ∧
      hi = lo + l.size ∧ lo ^^^ l.size = hi ∧ h.size = l.size ∧ l.in_use = false ∧
      h.in_use = false ∧ (cmit = lo ∨ cmit = hi) ∧
      (mergedState a lo hi l).chunks_.length + 1 = a.chunks_.length ∧
      try_merge_buddy_recursive (fuel + 1) a cmit =
        try_merge_buddy_recursive fuel (mergedState a lo hi l) lo := by
  have hk : c.address = cmit := hinv.chunks.addr cmit c hc
  obtain ⟨j, hj⟩ := hinv.chunks.pow2 cmit c hc
  have hmc : memFL a.free_lists_ c.size cmit := (hinv.flc _ _).mpr ⟨c, hc, rfl, hfree⟩
  have hmb : memFL a.free_lists_ b.size (c.address ^^^ c.size) :=
    (hinv.flc _ _).mpr ⟨b, hb, rfl, hcond.2⟩
  have hadj := xor_two_pow_adj j cmit
  rw [← hj, ← hk] at hadj
  have hpos : 0 < c.size := hinv.chunks.size_pos hc
  have hlen : ∀ lo hi (l h : AllocatorChunk), mapFind lo a.chunks_ = some l →
      mapFind hi a.chunks_ = some h → lo ≠ hi →
      (mergedState a lo hi l).chunks_.length + 1 = a.chunks_.length := by
    intro lo hi l h hl hh hne
    have hl2 : mapFind lo (mapErase hi a.chunks_) = some l := by
      rw [mapFind_mapErase lo hinv.chunks.sorted]
      simp [hne, hl]
    have e1 := length_mapPut_of_some (v := (⟨false, l.address, (l.size * 2) % 2 ^ 64⟩ :
      AllocatorChunk)) (keysSorted_mapErase hinv.chunks.sorted) hl2
    have e2 := length_mapErase hh
    have e3 := length_pos_of_find hh
    simp only [mergedState]
    omega
  rcases hadj with e | e
  · refine ⟨cmit, c.address ^^^ c.size, c, b, hc, hb, by rw [e, hk], by rw [hk], hcond.1, hfree,
      hcond.2, Or.inl rfl, hlen _ _ _ _ hc hb (by omega), ?_⟩
    apply try_merge_step fuel hinv.chunks.sorted hinv.fl hc hb hcond.1 hcond.2
      (Or.inl ⟨by omega, rfl, rfl, rfl, rfl⟩) (by omega) hmc hmb
  · refine ⟨c.address ^^^ c.size, cmit, b, c, hb, hc, by rw [hcond.1, ← hk]; omega, ?_,
      hcond.1.symm, hcond.2, hfree, Or.inr rfl, hlen _ _ _ _ hb hc (by omega), ?_⟩
    · rw [hcond.1, hk, Nat.xor_assoc, Nat.xor_self, Nat.xor_zero]
    · apply try_merge_step fuel hinv.chunks.sorted hinv.fl hc hb hcond.1 hcond.2
        (Or.inr ⟨by omega, rfl, rfl, rfl, rfl⟩) (by omega) hmb hmc

/-- A property of states that every merge step keeps is kept by `try_merge_buddy_recursive`,
which returns when given as many steps as there are chunks. -/
theorem try_merge_preserves {N : Nat} (hN : N < 2 ^ 63) (P : Allocator → Prop)
    (hP : ∀ (a : Allocator) (lo hi : Nat) (l h : AllocatorChunk), Inv N a → P a →
      mapFind lo a.chunks_ = some l → mapFind hi a.chunks_ = some h → hi = lo + l.size →
      lo ^^^ l.size = hi → h.size = l.size → l.in_use = false → h.in_use = false →
      P (mergedState a lo hi l)) :
    ∀ (fuel : Nat) (a : Allocator) (cmit : Nat) (c : AllocatorChunk),
      Inv N a → P a → mapFind cmit a.chunks_ = some c → c.in_use = false →
      a.chunks_.length ≤ fuel →
      ∃ a', try_merge_buddy_recursive fuel a cmit = .ok a' ∧ P a' := by
  intro fuel
  induction fuel with
  | zero =>
    intro a cmit c _ _ hc _ hlen
    have := length_pos_of_find hc
    omega
  | succ fuel ih =>
    intro a cmit c hinv hPa hc hfree hlen
    cases hb : mapFind (c.address ^^^ c.size) a.chunks_ with
    | none => exact ⟨a, try_merge_stop_none fuel hc hb, hPa⟩
    | some b =>
      by_cases hcond : b.size = c.size ∧ b.in_use = false
      · obtain ⟨lo, hi, l, h, hl, hh, hadj, hx, hsz, hfl, hfh, _, hlen1, hstep⟩ :=
          try_merge_key hinv hc hfree hb hcond fuel
        have hinv1 : Inv N (mergedState a lo hi l) :=
          Inv_merged hinv (by omega) hl hh hadj hsz
        have hc1 : mapFind lo (mergedState a lo hi l).chunks_ =
            some ⟨false, l.address, (l.size * 2) % 2 ^ 64⟩ := by
          rw [merged_view hinv]; simp
        obtain ⟨a', hok, hP'⟩ := ih (mergedState a lo hi l) lo _ hinv1
          (hP a lo hi l h hinv hPa hl hh hadj hx hsz hfl hfh) hc1 rfl (by omega)
        exact ⟨a', by rw [hstep]; exact hok, hP'⟩
      · exact ⟨a, try_merge_stop_some fuel hc hb hcond, hPa⟩

/-- A property of states that every split step keeps is kept by the splitting loop. -/
theorem subdivide_preserves {N : Nat} (hN : N < 2 ^ 63) {B : Int} {b : Nat}
    (hB : B = ((2 ^ b : Nat) : Int)) (P : Allocator → Prop)
    (hP : ∀ (a : Allocator) (cmit : Nat) (c : AllocatorChunk) (j : Nat), Inv N a → P a →
      mapFind cmit a.chunks_ = some c → c.in_use = false → c.size = 2 ^ (j + 1) →
      P (splitState a cmit c (2 ^ j))) :
    ∀ (fuel j : Nat) (a : Allocator) (cmit : Nat) (c : AllocatorChunk),
      Inv N a → P a → mapFind cmit a.chunks_ = some c → c.in_use = false → c.size = 2 ^ j →
      j < fuel → b ≤ j →
      ∃ a' cmit', Allocator.subdivide fuel a cmit (c.size : Int) B = .ok (a', cmit') ∧
        P a' := by
  intro fuel
  induction fuel with
  | zero => intro j a cmit c _ _ _ _ _ hj; omega
  | succ fuel ih =>
    intro j a cmit c hinv hPa hc hfree hsize hj hbj
    have hk : c.address = cmit := hinv.chunks.addr cmit c hc
    have hmem : memFL a.free_lists_ c.size cmit := (hinv.flc _ _).mpr ⟨c, hc, rfl, hfree⟩
    by_cases hlt : b < j
    · obtain ⟨j, rfl⟩ : ∃ j', j = j' + 1 := ⟨j - 1, by omega⟩
      have hcast : (c.size : Int) = ((2 ^ (j + 1) : Nat) : Int) := by rw [hsize]
      have hgt : (c.size : Int) > B := by
        rw [hB, hsize]
        have : (2 : Nat) ^ b < 2 ^ (j + 1) := Nat.pow_lt_pow_right (by norm_num) (by omega)
        exact_mod_cast this
      have htd : Int.tdiv (c.size : Int) 2 = ((2 ^ j : Nat) : Int) := by
        rw [hcast, tdiv_two_pow]
      have hcN : c.size ≤ N := by
        have := hinv.chunks.bound cmit c hc
        omega
      have hj63 : j + 1 < 63 := two_pow_lt_two_pow63 (by rw [← hsize]; exact hcN) hN
      have hlt64 : 2 ^ j < 2 ^ 64 := Nat.pow_lt_pow_right (by norm_num) (by omega)
      have hsz : toSizeT (Int.tdiv (c.size : Int) 2) = 2 ^ j := by
        rw [htd, toSizeT_natCast hlt64]
      have hx : (2 : Nat) ^ (j + 1) = 2 * 2 ^ j := by rw [pow_succ]; ring
      have hc2 : c.size = 2 * 2 ^ j := by rw [hsize, hx]
      have hpos : 0 < 2 ^ j := Nat.pos_pow_of_pos _ (by norm_num)
      have hnone : mapFind (c.address + 2 ^ j) a.chunks_ = none := by
        rw [hk]
        cases hf' : mapFind (cmit + 2 ^ j) a.chunks_ with
        | none => rfl
        | some d =>
          have := hinv.chunks.disj cmit c (cmit + 2 ^ j) d hc hf' (by omega)
          omega
      have hstep := subdivide_step (B := B) fuel hgt hc hmem (by rw [hsz]; exact hnone)
      rw [hsz, htd, hk] at hstep
      have hinv1 : Inv N (splitState a cmit c (2 ^ j)) := Inv_split hinv hc hc2 ⟨j, rfl⟩
      have hc1 : mapFind (cmit + 2 ^ j) (splitState a cmit c (2 ^ j)).chunks_ =
          some ⟨false, cmit + 2 ^ j, 2 ^ j⟩ := by
        rw [split_view hinv hc]; simp
      obtain ⟨a', cmit', hok, hP'⟩ :=
        ih j (splitState a cmit c (2 ^ j)) (cmit + 2 ^ j) ⟨false, cmit + 2 ^ j, 2 ^ j⟩
          hinv1 (hP a cmit c j hinv hPa hc hfree hsize) hc1 rfl rfl (by omega) (by omega)
      simp only at hok
      exact ⟨a', cmit', by rw [hstep]; exact hok, hP'⟩
    · have hjb : j = b := by omega
      subst hjb
      have hle : ¬ (c.size : Int) > B := by rw [hB, hsize]; exact lt_irrefl _
      exact ⟨a, cmit, subdivide_stop fuel hle, hPa⟩

/-- A property of states kept by every split step and by marking a chunk used is kept by a
successful `malloc`. -/
theorem malloc_preserves {N : Nat} (hN : N < 2 ^ 63) (P : Allocator → Prop)
    (hsplit : ∀ (a : Allocator) (cmit : Nat) (c : AllocatorChunk) (j : Nat), Inv N a → P a →
      mapFind cmit a.chunks_ = some c → c.in_use = false → c.size = 2 ^ (j + 1) →
      P (splitState a cmit c (2 ^ j)))
    (hused : ∀ (a : Allocator) (cmit : Nat) (c : AllocatorChunk), Inv N a → P a →
      mapFind cmit a.chunks_ = some c → c.in_use = false → P (usedState a cmit c))
    {a a' : Allocator} (hinv : Inv N a) (hsib : SibFree a) (hPa : P a) {s : Nat} {p : Int}
    (hm : a.malloc s = .ok (p, a')) : P a' := by
  cases hlb : mapLowerBound (toSizeT (next_largest_power_of_2 (toInt64 s))) a.free_lists_ with
  | none => rw [malloc_oom hlb] at hm; cases hm
  | some e =>
    obtain ⟨S, l⟩ := e
    obtain ⟨cmit, rest, c, j, hl, hc, hfree, hcs, hj, hj63, _, hB1, hBS, hcs64, _, _⟩ :=
      malloc_pre hN hinv hlb
    have hB : ∃ b : Nat, next_largest_power_of_2 (toInt64 s) = ((2 ^ b : Nat) : Int) := by
      rcases hB1 with hz | ⟨b, hb⟩
      · exfalso
        rcases malloc_found hN hinv hsib hlb with ⟨_, herr⟩ | ⟨a2, cm2, c2, _, i1, i2, _, i4, _⟩
        · rw [herr] at hm; cases hm
        · have hp2 := i1.chunks.size_pos i2
          rw [hz] at i4
          have : c2.size = 0 := by exact_mod_cast i4
          rw [this] at hp2
          exact absurd hp2 (lt_irrefl _)
      · exact ⟨b, by rw [hb]; push_cast; rfl⟩
    obtain ⟨b, hB⟩ := hB
    have hbj : b ≤ j := by
      rw [hB, hj] at hBS
      have : (2 : Nat) ^ b ≤ 2 ^ j := by exact_mod_cast hBS
      exact (Nat.pow_le_pow_iff_right (by norm_num)).mp this
    obtain ⟨a1, hok, i1, i2, i3, _, _⟩ :=
      subdivide_shape hN hB 65 j a cmit c hinv hc hfree hj (by omega) hbj
    obtain ⟨a2, cmit2, hok2, hP2⟩ :=
      subdivide_preserves hN hB P hsplit 65 j a cmit c hinv hPa hc hfree hj (by omega) hbj
    have e12 := Prod.mk.inj (Except.ok.inj (hok.symm.trans hok2))
    rw [← e12.1] at hP2
    rw [hl] at hlb
    have hmal := malloc_of_subdivide hlb hcs64 hok i1 i3 rfl i2
    have h2 := hmal.symm.trans hm
    have h3 := (Prod.mk.inj (Except.ok.inj h2)).2
    rw [← h3]
    exact hused a1 _ _ i1 hP2 i3 rfl

/-- A property of states kept by every merge step and by marking a chunk free is kept by a
successful `free`. -/
theorem free_preserves {N : Nat} (hN : N < 2 ^ 63) (P : Allocator → Prop)
    (hmerge : ∀ (a : Allocator) (lo hi : Nat) (l h : AllocatorChunk), Inv N a → P a →
      mapFind lo a.chunks_ = some l → mapFind hi a.chunks_ = some h → hi = lo + l.size →
      lo ^^^ l.size = hi → h.size = l.size → l.in_use = false → h.in_use = false →
      P (mergedState a lo hi l))
    (hfreed : ∀ (a : Allocator) (it : Nat) (c : AllocatorChunk), Inv N a → P a →
      mapFind it a.chunks_ = some c → c.in_use = true → P (freedState a it c))
    {a a' : Allocator} (hinv : Inv N a) (hPa : P a) {p : Int}
    (hf : a.free p = .ok a') : P a' := by
  by_cases h0 : toInt64 (p - a.base_) < 0
  · rw [free_invalid (Or.inl h0)] at hf; cases hf
  · cases hc : mapFind (toInt64 (p - a.base_)).toNat a.chunks_ with
    | none => rw [free_invalid (Or.inr (Or.inl hc))] at hf; cases hf
    | some c =>
      by_cases hu : c.in_use = true
      · rw [free_eq (by omega) hc hu hinv.chunks.sorted] at hf
        have hinv1 := Inv_freed hinv hc hu
        have hc1 : mapFind (toInt64 (p - a.base_)).toNat
            (freedState a (toInt64 (p - a.base_)).toNat c).chunks_
              = some { c with in_use := false } := by
          simp [freedState, mapFind_mapPut]
        have hlen : (freedState a (toInt64 (p - a.base_)).toNat c).chunks_.length
            ≤ a.chunks_.length := by
          simp only [freedState]
          rw [length_mapPut_of_some hinv.chunks.sorted hc]
        obtain ⟨a2, hok, hP2⟩ := try_merge_preserves hN P hmerge _ _ _ _ hinv1
          (hfreed a _ c hinv hPa hc hu) hc1 rfl hlen
        have e := Except.ok.inj (hok.symm.trans hf)
        rw [← e]
        exact hP2
      · have hu' : c.in_use = false := by
          cases h : c.in_use
          · rfl
          · exact absurd h hu
        rw [free_invalid (Or.inr (Or.inr ⟨c, hc, hu'⟩))] at hf
        cases hf

theorem int_pow2_toNat {N : Int} {n : Nat} (hN : N = 2 ^ n) (h1 : N < 2 ^ 63) :
    n < 63 ∧ N = ((2 ^ n : Nat) : Int) ∧ N.toNat = 2 ^ n := by
  have hc : N = ((2 ^ n : Nat) : Int) := by rw [hN]; push_cast; rfl
  refine ⟨?_, hc, by rw [hc]; rfl⟩
  rw [hc] at h1
  have : (2 : Nat) ^ n < 2 ^ 63 := by exact_mod_cast h1
  exact (Nat.pow_lt_pow_iff_right (by norm_num)).mp this

/-- When the region size is a power of two, every reachable state is aligned. -/
theorem reachable_aligned {base N : Int} {n : Nat} (hN : N = 2 ^ n) (h0 : 0 < N)
    (h1 : N < 2 ^ 63) {a : Allocator} (hr : Reachable base N a) : Aligned a := by
  obtain ⟨hn, hc, _⟩ := int_pow2_toNat hN h1
  have hNn : N.toNat < 2 ^ 63 := by omega
  induction hr with
  | init hnew =>
    rw [hc, new_pow2 base hn] at hnew
    have e := Except.ok.inj hnew
    rw [← e]
    intro k c hk
    simp only [mapFind] at hk
    by_cases e0 : 0 = k
    · rw [← e0]; exact dvd_zero _
    · simp only [e0, if_false] at hk
      cases hk
  | malloc hr' hm ih =>
    obtain ⟨hinv, hsib, _⟩ := reachable_inv h0 h1 hr'
    exact malloc_preserves hNn Aligned
      (fun a cmit c j hi hP hc _ hsz => aligned_split hi hP hc hsz)
      (fun a cmit c _ hP hc _ => aligned_used hP hc) hinv hsib ih hm
  | free hr' hf ih =>
    obtain ⟨hinv, _, _⟩ := reachable_inv h0 h1 hr'
    exact free_preserves hNn Aligned
      (fun a lo hi l h hi' hP hl _ hadj hx _ _ _ => aligned_merged hi' hNn hP hl hadj hx)
      (fun a it c _ hP hc _ => aligned_freed hP hc) hinv ih hf

/-- C28 (alignment for power-of-two regions): when `N` is a power of two, in every state
reachable from `Allocator(base, N)` every chunk's offset is a multiple of its size, and the
address `offset ^ size` that `try_merge_buddy_recursive` looks up is the other half of the
block of size `2 * size` that starts at a multiple of `2 * size` and contains the chunk. -/
theorem C28_alignment {base N : Int} {n : Nat} {a : Allocator} (hN : N = 2 ^ n) (h0 : 0 < N)
    (h1 : N < 2 ^ 63) (hr : Reachable base N a) :
    ∀ p ∈ a.chunks_, p.2.size ∣ p.2.address ∧
      ∃ b, 2 * p.2.size ∣ b ∧
        ((p.2.address = b ∧ p.2.address ^^^ p.2.size = b + p.2.size) ∨
          (p.2.address = b + p.2.size ∧ p.2.address ^^^ p.2.size = b)) := by
  obtain ⟨hinv, _, _⟩ := reachable_inv h0 h1 hr
  have hal := reachable_aligned hN h0 h1 hr
  intro p hp
  have hf : mapFind p.1 a.chunks_ = some p.2 :=
    mapFind_of_mem hinv.chunks.sorted (by cases p; exact hp)
  have hk := hinv.chunks.addr p.1 p.2 hf
  obtain ⟨j, hj⟩ := hinv.chunks.pow2 p.1 p.2 hf
  have hd : p.2.size ∣ p.2.address := by rw [hk]; exact hal p.1 p.2 hf
  refine ⟨hd, ?_⟩
  rw [hj] at hd ⊢
  obtain ⟨b, hb1, hb2⟩ := buddy_block hd
  refine ⟨b, ?_, hb2⟩
  rw [pow_succ, Nat.mul_comm] at hb1
  exact hb1

theorem reach_a16_1 : Reachable 0 16 a16_1 := Reachable.malloc reach_fresh16 malloc_fresh16_1

theorem C28_witness :
    (16 : Int) = 2 ^ 4 ∧ (0 : Int) < 16 ∧ (16 : Int) < 2 ^ 63 ∧ Reachable 0 16 a16_1 ∧
    ∀ p ∈ a16_1.chunks_, p.2.size ∣ p.2.address ∧
      ∃ b, 2 * p.2.size ∣ b ∧
        ((p.2.address = b ∧ p.2.address ^^^ p.2.size = b + p.2.size) ∨
          (p.2.address = b + p.2.size ∧ p.2.address ^^^ p.2.size = b)) :=
  ⟨by decide, by decide, int16_lt, reach_a16_1,
    C28_alignment (n := 4) (by decide) (by decide) int16_lt reach_a16_1⟩

theorem try_merge_unfold {a : Allocator} {cmit : Nat} {c b : AllocatorChunk} (fuel : Nat)
    (hc : mapFind cmit a.chunks_ = some c)
    (hb : mapFind (c.address ^^^ c.size) a.chunks_ = some b)
    (hcond : b.size = c.size ∧ b.in_use = false) :
    try_merge_buddy_recursive (fuel + 1) a cmit =
      (merge_once a (if c.address < c.address ^^^ c.size then c.address ^^^ c.size else cmit)
        (if c.address < c.address ^^^ c.size then cmit else c.address ^^^ c.size)).bind
        (fun a5 => try_merge_buddy_recursive fuel a5
          (if c.address < c.address ^^^ c.size then cmit else c.address ^^^ c.size)) := by
  rw [try_merge_buddy_recursive]
  simp only [hc, hb, hcond, and_self, if_true]
  unfold merge_once
  simp only [bind, Except.bind]
  generalize (if c.address < c.address ^^^ c.size then c.address ^^^ c.size else cmit) = hi
  generalize (if c.address < c.address ^^^ c.size then cmit else c.address ^^^ c.size) = lo
  cases remove_from_free_list a hi with
  | error e => rfl
  | ok a1 =>
    simp only []
    cases (remove_from_free_list { a1 with chunks_ := mapErase hi a1.chunks_ } lo) with
    | error e => rfl
    | ok a3 =>
      simp only []
      cases (mapFind lo a3.chunks_) with
      | none => rfl
      | some l =>
        simp only []
        cases (set_size a3 lo ((l.size * 2) % 2 ^ 64)) with
        | error e => rfl
        | ok a4 => rfl

theorem remove_from_free_list_cases (a : Allocator) (it : Nat) :
    remove_from_free_list a it = .error .Undefined ∨
    ∃ c a', mapFind it a.chunks_ = some c ∧ remove_from_free_list a it = .ok a' ∧
      a'.chunks_ = mapPut it { c with in_use := true } a.chunks_ := by
  unfold remove_from_free_list
  cases h : mapFind it a.chunks_ with
  | none => left; rfl
  | some c =>
    simp only []
    by_cases hm : it ∈ (mapFind c.size a.free_lists_).getD []
    · right
      simp only [hm, if_true]
      exact ⟨c, _, rfl, rfl, rfl⟩
    · left
      simp only [hm, if_false]

theorem set_size_cases (a : Allocator) (it sz : Nat) :
    set_size a it sz = .error .Undefined ∨
    ∃ c a', mapFind it a.chunks_ = some c ∧ set_size a it sz = .ok a' ∧
      a'.chunks_ = mapPut it { c with size := sz } a.chunks_ := by
  unfold set_size
  cases h : mapFind it a.chunks_ with
  | none => left; rfl
  | some c => right; exact ⟨c, _, rfl, rfl, rfl⟩

theorem add_to_free_list_cases (a : Allocator) (it : Nat) :
    add_to_free_list a it = .error .Undefined ∨
    ∃ c a', mapFind it a.chunks_ = some c ∧ add_to_free_list a it = .ok a' ∧
      a'.chunks_ = mapPut it { c with in_use := false } a.chunks_ := by
  unfold add_to_free_list
  cases h : mapFind it a.chunks_ with
  | none => left; rfl
  | some c => right; exact ⟨c, _, rfl, rfl, rfl⟩

/-- One merge either runs into undefined behaviour or leaves a chunk map with exactly one
chunk less, in which `lo` is present. -/
theorem merge_once_cases {a : Allocator} (hs : KeysSorted a.chunks_) (hi lo : Nat) :
    merge_once a hi lo = .error .Undefined ∨
    ∃ a5 l, merge_once a hi lo = .ok a5 ∧ KeysSorted a5.chunks_ ∧
      mapFind lo a5.chunks_ = some l ∧ a5.chunks_.length + 1 = a.chunks_.length := by
  unfold merge_once
  rcases remove_from_free_list_cases a hi with e1 | ⟨c1, a1, hf1, e1, hc1⟩
  · left; rw [e1]; rfl
  · rw [e1]
    simp only [bind, Except.bind]
    have hs1 : KeysSorted a1.chunks_ := by rw [hc1]; exact keysSorted_mapPut hs
    have hlen1 : a1.chunks_.length = a.chunks_.length := by
      rw [hc1]; exact length_mapPut_of_some hs hf1
    have hf1' : mapFind hi a1.chunks_ = some { c1 with in_use := true } := by
      rw [hc1, mapFind_mapPut]; simp
    have hs2 : KeysSorted (mapErase hi a1.chunks_) := keysSorted_mapErase hs1
    have hlen2 : (mapErase hi a1.chunks_).length + 1 = a.chunks_.length := by
      have := length_mapErase hf1'
      have := length_pos_of_find hf1'
      omega
    rcases remove_from_free_list_cases { a1 with chunks_ := mapErase hi a1.chunks_ } lo with
      e3 | ⟨c3, a3, hf3, e3, hc3⟩
    · left; rw [e3]
    · rw [e3]
      simp only []
      simp only [] at hf3 hc3
      have hs3 : KeysSorted a3.chunks_ := by rw [hc3]; exact keysSorted_mapPut hs2
      have hlen3 : a3.chunks_.length = (mapErase hi a1.chunks_).length := by
        rw [hc3]; exact length_mapPut_of_some hs2 hf3
      have hf3' : mapFind lo a3.chunks_ = some { c3 with in_use := true } := by
        rw [hc3, mapFind_mapPut]; simp
      rw [hf3']
      simp only []
      rcases set_size_cases a3 lo ((c3.size * 2) % 2 ^ 64) with e4 | ⟨c4, a4, hf4, e4, hc4⟩
      · left; rw [e4]
      · rw [e4]
        simp only []
        have hs4 : KeysSorted a4.chunks_ := by rw [hc4]; exact keysSorted_mapPut hs3
        have hlen4 : a4.chunks_.length = a3.chunks_.length := by
          rw [hc4]; exact length_mapPut_of_some hs3 hf4
        rcases add_to_free_list_cases a4 lo with e5 | ⟨c5, a5, hf5, e5, hc5⟩
        · left; rw [e5]
        · right
          refine ⟨a5, { c5 with in_use := false }, e5, ?_, ?_, ?_⟩
          · rw [hc5]; exact keysSorted_mapPut hs4
          · rw [hc5, mapFind_mapPut]; simp
          · have : a5.chunks_.length = a4.chunks_.length := by
              rw [hc5]; exact length_mapPut_of_some hs4 hf5
            omega

theorem try_merge_zero (a : Allocator) (cmit : Nat) :
    try_merge_buddy_recursive 0 a cmit = .error .OutOfFuel := by
  rw [try_merge_buddy_recursive]

theorem try_merge_invalid {a : Allocator} {cmit : Nat} (fuel : Nat)
    (hc : mapFind cmit a.chunks_ = none) :
    try_merge_buddy_recursive (fuel + 1) a cmit = .error .Undefined := by
  rw [try_merge_buddy_recursive]
  simp only [hc]

/-- One call of `try_merge_buddy_recursive` on a sorted chunk map: it runs into undefined
behaviour, or it returns the state unchanged, or it makes one merge, which removes exactly one
chunk, and calls itself on the result. The outcome does not depend on the step budget. -/
theorem try_merge_call {a : Allocator} (hs : KeysSorted a.chunks_) (cmit : Nat) :
    (∀ fuel, try_merge_buddy_recursive (fuel + 1) a cmit = .error .Undefined) ∨
    ((∃ c, mapFind cmit a.chunks_ = some c) ∧
      ∀ fuel, try_merge_buddy_recursive (fuel + 1) a cmit = .ok a) ∨
    (∃ a1 lo l, KeysSorted a1.chunks_ ∧ mapFind lo a1.chunks_ = some l ∧
      a1.chunks_.length + 1 = a.chunks_.length ∧
      ∀ fuel, try_merge_buddy_recursive (fuel + 1) a cmit
        = try_merge_buddy_recursive fuel a1 lo) := by
  cases hc : mapFind cmit a.chunks_ with
  | none => exact Or.inl (fun fuel => try_merge_invalid fuel hc)
  | some c =>
    cases hb : mapFind (c.address ^^^ c.size) a.chunks_ with
    | none => exact Or.inr (Or.inl ⟨⟨c, rfl⟩, fun fuel => try_merge_stop_none fuel hc hb⟩)
    | some b =>
      by_cases hcond : b.size = c.size ∧ b.in_use = false
      · rcases merge_once_cases hs
          (if c.address < c.address ^^^ c.size then c.address ^^^ c.size else cmit)
          (if c.address < c.address ^^^ c.size then cmit else c.address ^^^ c.size) with
          herr | ⟨a5, l, hok, hs5, hl5, hlen5⟩
        · left
          intro fuel
          rw [try_merge_unfold fuel hc hb hcond, herr]
          rfl
        · right; right
          refine ⟨a5, _, l, hs5, hl5, hlen5, ?_⟩
          intro fuel
          rw [try_merge_unfold fuel hc hb hcond, hok]
          rfl
      · exact Or.inr (Or.inl ⟨⟨c, rfl⟩, fun fuel => try_merge_stop_some fuel hc hb hcond⟩)

theorem try_merge_no_out_of_fuel : ∀ (fuel : Nat) (a : Allocator) (cmit : Nat),
    KeysSorted a.chunks_ → a.chunks_.length ≤ fuel → 0 < fuel →
    try_merge_buddy_recursive fuel a cmit ≠ .error .OutOfFuel := by
  intro fuel
  induction fuel with
  | zero => intro a cmit _ _ h; omega
  | succ fuel ih =>
    intro a cmit hs hlen _
    rcases try_merge_call hs cmit with h | ⟨_, h⟩ | ⟨a1, lo, l, hs1, hl1, hlen1, h⟩
    · rw [h fuel]; intro e; cases e
    · rw [h fuel]; intro e; cases e
    · rw [h fuel]
      have := length_pos_of_find hl1
      exact ih a1 lo hs1 (by omega) (by omega)

theorem try_merge_depth : ∀ (fuel : Nat) (a : Allocator) (cmit : Nat) (a' : Allocator),
    KeysSorted a.chunks_ → try_merge_buddy_recursive fuel a cmit = .ok a' →
    1 ≤ a'.chunks_.length ∧ a'.chunks_.length ≤ a.chunks_.length ∧
    try_merge_buddy_recursive (a.chunks_.length - a'.chunks_.length + 1) a cmit = .ok a' ∧
    try_merge_buddy_recursive (a.chunks_.length - a'.chunks_.length) a cmit
      = .error .OutOfFuel := by
  intro fuel
  induction fuel with
  | zero =>
    intro a cmit a' _ h
    rw [try_merge_zero] at h
    cases h
  | succ fuel ih =>
    intro a cmit a' hs hok
    rcases try_merge_call hs cmit with h | ⟨⟨c, hc⟩, h⟩ | ⟨a1, lo, l, hs1, hl1, hlen1, h⟩
    · rw [h fuel] at hok; cases hok
    · rw [h fuel] at hok
      have e := Except.ok.inj hok
      rw [← e]
      have := length_pos_of_find hc
      refine ⟨this, le_refl _, ?_, ?_⟩
      · rw [Nat.sub_self]; exact h 0
      · rw [Nat.sub_self]; exact try_merge_zero a cmit
    · rw [h fuel] at hok
      obtain ⟨i1, i2, i3, i4⟩ := ih a1 lo a' hs1 hok
      have e : a.chunks_.length - a'.chunks_.length
          = (a1.chunks_.length - a'.chunks_.length) + 1 := by omega
      refine ⟨i1, by omega, ?_, ?_⟩
      · rw [e, h]; exact i3
      · rw [e, h]; exact i4

/-- C23 (termination of merging): on every state whose chunk map is a finite sorted map,
`try_merge_buddy_recursive` ends within as many calls as there are chunks; when it returns it
has made exactly as many merges as chunks have disappeared, at most `n - 1` of `n`, one
chunk per recursive call; it returns the state unchanged as soon as the chunk at
`address ^ size` is absent, in use or of another size; and otherwise a call removes exactly
one chunk before it calls itself (or runs into undefined behaviour). -/
theorem C23_merge_terminates {a : Allocator} (hs : KeysSorted a.chunks_) (cmit : Nat) :
    (∀ fuel, a.chunks_.length ≤ fuel → 0 < fuel →
      try_merge_buddy_recursive fuel a cmit ≠ .error .OutOfFuel) ∧
    (∀ fuel a', try_merge_buddy_recursive fuel a cmit = .ok a' →
      1 ≤ a'.chunks_.length ∧ a'.chunks_.length ≤ a.chunks_.length ∧
      try_merge_buddy_recursive (a.chunks_.length - a'.chunks_.length + 1) a cmit = .ok a' ∧
      try_merge_buddy_recursive (a.chunks_.length - a'.chunks_.length) a cmit
        = .error .OutOfFuel) ∧
    (∀ c, mapFind cmit a.chunks_ = some c →
      (mapFind (c.address ^^^ c.size) a.chunks_ = none ∨
        ∃ b, mapFind (c.address ^^^ c.size) a.chunks_ = some b ∧
          (b.in_use = true ∨ b.size ≠ c.size)) →
      ∀ fuel, try_merge_buddy_recursive (fuel + 1) a cmit = .ok a) ∧
    (∀ c b, mapFind cmit a.chunks_ = some c →
      mapFind (c.address ^^^ c.size) a.chunks_ = some b → b.size = c.size →
      b.in_use = false →
      (∀ fuel, try_merge_buddy_recursive (fuel + 1) a cmit = .error .Undefined) ∨
      ∃ a1 lo, a1.chunks_.length + 1 = a.chunks_.length ∧
        ∀ fuel, try_merge_buddy_recursive (fuel + 1) a cmit
          = try_merge_buddy_recursive fuel a1 lo) := by
  refine ⟨fun fuel => try_merge_no_out_of_fuel fuel a cmit hs,
    fun fuel a' => try_merge_depth fuel a cmit a' hs, ?_, ?_⟩
  · intro c hc hstop fuel
    rcases hstop with hb | ⟨b, hb, hn⟩
    · exact try_merge_stop_none fuel hc hb
    · apply try_merge_stop_some fuel hc hb
      rintro ⟨h1, h2⟩
      rcases hn with h | h
      · rw [h2] at h; cases h
      · exact h h1
  · intro c b hc hb hsz hfree
    rcases try_merge_call hs cmit with h | ⟨_, h⟩ | ⟨a1, lo, l, _, _, hlen1, h⟩
    · exact Or.inl h
    · exfalso
      have h1 := try_merge_unfold 0 hc hb ⟨hsz, hfree⟩
      rw [h 0] at h1
      rcases merge_once_cases hs
          (if c.address < c.address ^^^ c.size then c.address ^^^ c.size else cmit)
          (if c.address < c.address ^^^ c.size then cmit else c.address ^^^ c.size) with
          herr | ⟨a5, l, hok, _, _, _⟩
      · rw [herr] at h1; cases h1
      · rw [hok] at h1
        have h2 : try_merge_buddy_recursive 0 a5
            (if c.address < c.address ^^^ c.size then cmit else c.address ^^^ c.size)
            = .error .OutOfFuel := try_merge_zero _ _
        have h3 : (Except.ok a : Except AllocatorError Allocator) = .error .OutOfFuel :=
          h1.trans h2
        cases h3
    · exact Or.inr ⟨a1, lo, hlen1, h⟩

theorem sorted_a16_1 : KeysSorted a16_1.chunks_ := by
  unfold KeysSorted a16_1
  decide

theorem C23_witness :
    KeysSorted a16_1.chunks_ ∧
    ((∀ fuel, a16_1.chunks_.length ≤ fuel → 0 < fuel →
      try_merge_buddy_recursive fuel a16_1 14 ≠ .error .OutOfFuel) ∧
    (∀ fuel a', try_merge_buddy_recursive fuel a16_1 14 = .ok a' →
      1 ≤ a'.chunks_.length ∧ a'.chunks_.length ≤ a16_1.chunks_.length ∧
      try_merge_buddy_recursive (a16_1.chunks_.length - a'.chunks_.length + 1) a16_1 14
        = .ok a' ∧
      try_merge_buddy_recursive (a16_1.chunks_.length - a'.chunks_.length) a16_1 14
        = .error .OutOfFuel) ∧
    (∀ c, mapFind 14 a16_1.chunks_ = some c →
      (mapFind (c.address ^^^ c.size) a16_1.chunks_ = none ∨
        ∃ b, mapFind (c.address ^^^ c.size) a16_1.chunks_ = some b ∧
          (b.in_use = true ∨ b.size ≠ c.size)) →
      ∀ fuel, try_merge_buddy_recursive (fuel + 1) a16_1 14 = .ok a16_1) ∧
    (∀ c b, mapFind 14 a16_1.chunks_ = some c →
      mapFind (c.address ^^^ c.size) a16_1.chunks_ = some b → b.size = c.size →
      b.in_use = false →
      (∀ fuel, try_merge_buddy_recursive (fuel + 1) a16_1 14 = .error .Undefined) ∨
      ∃ a1 lo, a1.chunks_.length + 1 = a16_1.chunks_.length ∧
        ∀ fuel, try_merge_buddy_recursive (fuel + 1) a16_1 14
          = try_merge_buddy_recursive fuel a1 lo)) :=
  ⟨sorted_a16_1, C23_merge_terminates sorted_a16_1 14⟩

theorem neverThrows_ok {α : Type} (v : α) : NeverThrows (.ok v : Except AllocatorError α) := by
  intro e h; cases h

theorem neverThrows_bind {α β : Type} {x : Except AllocatorError α}
    {f : α → Except AllocatorError β} (hx : NeverThrows x) (hf : ∀ v, NeverThrows (f v)) :
    NeverThrows (x >>= f) := by
  intro e h
  cases x with
  | error e' =>
    have : e' = e := by
      simp only [bind, Except.bind] at h
      injection h
    rw [← this]
    exact hx e' rfl
  | ok v => exact hf v e h

theorem neverThrows_remove (a : Allocator) (it : Nat) :
    NeverThrows (remove_from_free_list a it) := by
  intro e h
  rcases remove_from_free_list_cases a it with h1 | ⟨_, _, _, h1, _⟩
  · rw [h1] at h; injection h with h; rw [← h]; intro hc; cases hc
  · rw [h1] at h; cases h

theorem neverThrows_set_size (a : Allocator) (it sz : Nat) : NeverThrows (set_size a it sz) := by
  intro e h
  rcases set_size_cases a it sz with h1 | ⟨_, _, _, h1, _⟩
  · rw [h1] at h; injection h with h; rw [← h]; intro hc; cases hc
  · rw [h1] at h; cases h

theorem neverThrows_add_to_free_list (a : Allocator) (it : Nat) :
    NeverThrows (add_to_free_list a it) := by
  intro e h
  rcases add_to_free_list_cases a it with h1 | ⟨_, _, _, h1, _⟩
  · rw [h1] at h; injection h with h; rw [← h]; intro hc; cases hc
  · rw [h1] at h; cases h

theorem neverThrows_set_in_use (a : Allocator) (it : Nat) (b : Bool) :
    NeverThrows (set_in_use a it b) := by
  intro e h
  unfold set_in_use at h
  cases hf : mapFind it a.chunks_ with
  | none => rw [hf] at h; injection h with h; rw [← h]; intro hc; cases hc
  | some c => rw [hf] at h; cases h

theorem neverThrows_add_to_chunk_map (a : Allocator) (ac : AllocatorChunk) :
    NeverThrows (add_to_chunk_map a ac) := by
  intro e h
  unfold add_to_chunk_map at h
  cases hf : mapFind ac.address a.chunks_ with
  | none => rw [hf] at h; cases h
  | some c => rw [hf] at h; injection h with h; rw [← h]; intro hc; cases hc

theorem neverThrows_lookup (a : Allocator) (cmit : Nat) :
    NeverThrows (match mapFind cmit a.chunks_ with
      | none => (.error .Undefined : Except AllocatorError AllocatorChunk)
      | some c => .ok c) := by
  intro e h
  cases hf : mapFind cmit a.chunks_ with
  | none => rw [hf] at h; injection h with h; rw [← h]; intro hc; cases hc
  | some c => rw [hf] at h; cases h

theorem neverThrows_subdivide : ∀ (fuel : Nat) (a : Allocator) (cmit : Nat) (cs B : Int),
    NeverThrows (Allocator.subdivide fuel a cmit cs B) := by
  intro fuel
  induction fuel with
  | zero =>
    intro a cmit cs B e h
    rw [Allocator.subdivide] at h
    injection h with h; rw [← h]; intro hc; cases hc
  | succ fuel ih =>
    intro a cmit cs B
    rw [Allocator.subdivide]
    by_cases hgt : cs > B
    · simp only [hgt, if_true]
      refine neverThrows_bind (neverThrows_remove _ _) (fun a1 => ?_)
      refine neverThrows_bind (neverThrows_set_size _ _ _) (fun a2 => ?_)
      refine neverThrows_bind (neverThrows_add_to_free_list _ _) (fun a3 => ?_)
      refine neverThrows_bind (neverThrows_lookup _ _) (fun c => ?_)
      refine neverThrows_bind (neverThrows_add_to_chunk_map _ _) (fun p => ?_)
      obtain ⟨a4, cmit4⟩ := p
      refine neverThrows_bind (neverThrows_add_to_free_list _ _) (fun a5 => ?_)
      exact ih _ _ _ _
    · simp only [hgt, if_false]
      exact neverThrows_ok _

theorem malloc_eq_rest (a : Allocator) (s : Nat) :
    a.malloc s =
      match mapLowerBound (toSizeT (next_largest_power_of_2 (toInt64 s))) a.free_lists_ with
      | none => .error .OutOfMemory
      | some (flit_first, flit_second) =>
        match flit_second.head? with
        | none => .error .Undefined
        | some cmit => Allocator.malloc_rest a cmit (toInt64 flit_first)
            (next_largest_power_of_2 (toInt64 s)) := by
  rfl

theorem malloc_some {a : Allocator} {s S cmit : Nat} {l : FreeList}
    (hlb : mapLowerBound (toSizeT (next_largest_power_of_2 (toInt64 s))) a.free_lists_
      = some (S, l)) (hh : l.head? = some cmit) :
    a.malloc s = Allocator.malloc_rest a cmit (toInt64 S)
      (next_largest_power_of_2 (toInt64 s)) := by
  rw [malloc_eq_rest]
  simp only [hlb, hh]

theorem malloc_nohead {a : Allocator} {s S : Nat} {l : FreeList}
    (hlb : mapLowerBound (toSizeT (next_largest_power_of_2 (toInt64 s))) a.free_lists_
      = some (S, l)) (hh : l.head? = none) :
    a.malloc s = .error .Undefined := by
  rw [malloc_eq_rest]
  simp only [hlb, hh]

theorem malloc_exit_none {a : Allocator} {s : Nat}
    (hlb : mapLowerBound (toSizeT (next_largest_power_of_2 (toInt64 s))) a.free_lists_ = none) :
    a.malloc_exit s = .error (.OutOfMemory, some a) := by
  unfold Allocator.malloc_exit
  simp only [hlb]

theorem malloc_exit_nohead {a : Allocator} {s S : Nat} {l : FreeList}
    (hlb : mapLowerBound (toSizeT (next_largest_power_of_2 (toInt64 s))) a.free_lists_
      = some (S, l)) (hh : l.head? = none) :
    a.malloc_exit s = .error (.Undefined, none) := by
  unfold Allocator.malloc_exit
  simp only [hlb, hh]

theorem malloc_exit_some {a : Allocator} {s S cmit : Nat} {l : FreeList}
    (hlb : mapLowerBound (toSizeT (next_largest_power_of_2 (toInt64 s))) a.free_lists_
      = some (S, l)) (hh : l.head? = some cmit) :
    a.malloc_exit s = (Allocator.malloc_rest a cmit (toInt64 S)
      (next_largest_power_of_2 (toInt64 s))).mapError (fun e => (e, none)) := by
  unfold Allocator.malloc_exit
  simp only [hlb, hh]

/-- The statements of `malloc` after `front()` do not throw. -/
theorem neverThrows_malloc_rest (a : Allocator) (cmit : Nat) (cs B : Int) :
    NeverThrows (Allocator.malloc_rest a cmit cs B) := by
  unfold Allocator.malloc_rest
  refine neverThrows_bind (neverThrows_subdivide _ _ _ _ _) (fun p => ?_)
  obtain ⟨a1, cmit1⟩ := p
  refine neverThrows_bind (neverThrows_set_in_use _ _ _) (fun a2 => ?_)
  refine neverThrows_bind (neverThrows_remove _ _) (fun a3 => ?_)
  intro e h
  cases hf : mapFind cmit1 a3.chunks_ with
  | none => rw [hf] at h; injection h with h; rw [← h]; intro hc; cases hc
  | some c => rw [hf] at h; cases h

/-- C26 (a failed allocation changes nothing): `malloc_exit` has the results of `malloc`;
whenever `malloc(s)` ends in `throw Allocator::Exception()`, in any state, the `lower_bound`
query found no class and the object at the `throw` is the object at entry: chunk map and
free-list map are what they were before the call. -/
theorem C26_failed_malloc_atomic (a : Allocator) (s : Nat) :
    (a.malloc_exit s).mapError Prod.fst = a.malloc s ∧
    (a.malloc s = .error .OutOfMemory →
      mapLowerBound (toSizeT (next_largest_power_of_2 (toInt64 s))) a.free_lists_ = none ∧
      a.malloc_exit s = .error (.OutOfMemory, some a)) ∧
    (∀ st, a.malloc_exit s = .error (.OutOfMemory, st) →
      ∃ a', st = some a' ∧ a'.chunks_ = a.chunks_ ∧ a'.free_lists_ = a.free_lists_) := by
  cases hlb : mapLowerBound (toSizeT (next_largest_power_of_2 (toInt64 s))) a.free_lists_ with
  | none =>
    rw [malloc_exit_none hlb, malloc_oom hlb]
    refine ⟨rfl, fun _ => ⟨rfl, rfl⟩, ?_⟩
    intro st h
    have h2 := (Prod.mk.inj (Except.error.inj h)).2
    exact ⟨a, h2.symm, rfl, rfl⟩
  | some e0 =>
    obtain ⟨S, l⟩ := e0
    cases hh : l.head? with
    | none =>
      rw [malloc_exit_nohead hlb hh, malloc_nohead hlb hh]
      refine ⟨rfl, ?_, ?_⟩
      · intro h; cases h
      · intro st h
        have h2 := (Prod.mk.inj (Except.error.inj h)).1
        cases h2
    | some cmit =>
      rw [malloc_exit_some hlb hh, malloc_some hlb hh]
      have hnt := neverThrows_malloc_rest a cmit (toInt64 S)
        (next_largest_power_of_2 (toInt64 s))
      generalize Allocator.malloc_rest a cmit (toInt64 S)
        (next_largest_power_of_2 (toInt64 s)) = r at hnt
      cases r with
      | error e =>
        have hne : e ≠ .OutOfMemory := hnt e rfl
        refine ⟨rfl, ?_, ?_⟩
        · intro h
          exact absurd (Except.error.inj h) hne
        · intro st h
          have h1 : (Except.error (e, none) :
              Except (AllocatorError × Option Allocator) (Int × Allocator))
              = .error (.OutOfMemory, st) := h
          exact absurd (Prod.mk.inj (Except.error.inj h1)).1 hne
      | ok v =>
        refine ⟨rfl, ?_, ?_⟩
        · intro h; cases h
        · intro st h
          have h1 : (Except.ok v :
              Except (AllocatorError × Option Allocator) (Int × Allocator))
              = .error (.OutOfMemory, st) := h
          cases h1

theorem C26_witness :
    full16.malloc 1 = .error .OutOfMemory ∧
    mapLowerBound (toSizeT (next_largest_power_of_2 (toInt64 (1 : Nat)))) full16.free_lists_
      = none ∧
    full16.malloc_exit 1 = .error (.OutOfMemory, some full16) :=
  ⟨malloc_full16_1, (C26_failed_malloc_atomic full16 1).2.1 malloc_full16_1⟩

set_option maxRecDepth 100000 in

theorem malloc_fresh16_huge : fresh16.malloc (2 ^ 64 - 1) = .error .NotInserted := by rfl

/-- C3 (code at the failing input): on `Allocator(0, 16)` no free chunk has a size of
`2 ^ 64 - 1` or more, yet `malloc(2 ^ 64 - 1)` does not throw `Allocator::Exception`: the
request is `-1` as `int64_t`, `next_largest_power_of_2` returns the size class 0 for it, the
class of size 16 is selected and halved down to size 0, and the call fails on
`assert( inserted )`. -/
theorem C3_huge_request_not_oom_at_16 :
    Allocator.new 0 16 = .ok fresh16 ∧
    (∀ p ∈ fresh16.chunks_, p.2.size < 2 ^ 64 - 1) ∧
    toInt64 ((2 ^ 64 - 1 : Nat) : Int) = -1 ∧ next_largest_power_of_2 (-1) = 0 ∧
    fresh16.malloc (2 ^ 64 - 1) = .error .NotInserted ∧
    fresh16.malloc (2 ^ 64 - 1) ≠ .error .OutOfMemory :=
  ⟨new_0_16, by decide, by decide, by decide, malloc_fresh16_huge,
    by rw [malloc_fresh16_huge]; intro h; cases h⟩

end Grappa
